import Mathlib

/-!
# uci-analyser: the engine session (`engine.cpp`)

A shallow embedding of `Engine` from `src/uci-analyser/engine.cpp`.

* Strings are `List Char`.  A `std::string` may hold any characters; a C string
  (`const char *`, the static `buffer`) is the part before the first NUL, which
  `cstr` computes.
* The outbound stream `toEngine` is the list of characters written so far.  The
  operations that write are given twice: `send`, `go`, ... for writes that succeed, and
  `sendOn`, `goOn`, ... with the answer of the operating system to each write as a
  parameter (`WriteCalls`), for a pipe whose reader has gone.
* The inbound stream `fromEngine` is the list of the data bursts that the
  successive physical reads will find in the pipe; the empty list is a closed
  pipe.  The embedding follows the `ReadFile` branch of `getResponse`, whose
  read returns at most `MAXBUFF` characters of the next burst.  The `fgets`
  branch is the special case in which every burst is what `fgets` delivers
  (at most `MAXBUFF - 1` characters, ending right after the first `\n`).
* `buffer` is the function-static array of `getResponse`.  It belongs to the
  process, not to an `Engine` object, so it is threaded separately (`Globals`).
-/

namespace UciAnalyser

/-! ## Strings -/

/-- The NUL character that ends a C string. -/
def NUL : Char := Char.ofNat 0

/-- The C string held in an array of characters: everything before the first NUL. -/
def cstr (s : List Char) : List Char :=
  s.takeWhile (fun ch => ch != NUL)

/-- Read `buffer[index]` in an array whose contents are followed by a NUL. -/
def charAt (buffer : List Char) (index : Nat) : Char :=
  buffer.getD index NUL

/-- Decimal text of an `int`, as `ss << value` writes it. -/
def decimal (value : Int) : List Char :=
  (toString value).toList

/-! ## State -/

/-- The data members of an `Engine` object together with its two streams. -/
structure Engine where
  identity : List Char
  searchDepth : Int
  variations : Int
  toEngine : List Char
  fromEngine : List (List Char)
deriving DecidableEq, Repr

/-- Process-wide state: the static `buffer` of `getResponse` and the text written to `cerr`. -/
structure Globals where
  buffer : List Char
  cerr : List Char
deriving DecidableEq, Repr

/-! ## The line reader -/

/-- Capacity constant of `getResponse`: `const int MAXBUFF = 100`. -/
def MAXBUFF : Nat := 100

/-- The physical read `ReadFile(readFromEngine, buffer, MAXBUFF, &bytesRead, NULL)`:
success flag, the characters read, and what stays in the pipe.  A closed pipe fails
with nothing read. -/
def ReadFile (fromEngine : List (List Char)) (nNumberOfBytesToRead : Nat) :
    Bool × List Char × List (List Char) :=
  match fromEngine with
  | [] => (false, [], [])
  | c :: rest =>
    (true, c.take nNumberOfBytesToRead,
      if c.length ≤ nNumberOfBytesToRead then rest else c.drop nNumberOfBytesToRead :: rest)

/-- The local variables of `getResponse` that its `while` loop changes, with the static
buffer and the inbound stream. -/
structure LoopState where
  result : List Char
  endOfLine : Bool
  eof : Bool
  buffer : List Char
  fromEngine : List (List Char)
deriving DecidableEq, Repr

/-- The inner scan `while (ch != 0 && ch != \n && ch != \r) index++`: the index it stops at. -/
def scan (buffer : List Char) : Nat :=
  (buffer.takeWhile (fun ch => ch != NUL && ch != '\n' && ch != '\r')).length

/-- One pass through the body of `while (!endOfLine && !eof)` in `getResponse`. -/
def getResponseBody (s : LoopState) : LoopState :=
  let s1 : LoopState :=
    if charAt s.buffer 0 == NUL then
      -- Nothing left from the previous read.
      let r := ReadFile s.fromEngine MAXBUFF
      { s with buffer := r.2.1, eof := !r.1 || r.2.1.length == 0, fromEngine := r.2.2 }
    else s
  if !s1.eof then
    let index := scan s1.buffer
    let ch := charAt s1.buffer index
    if ch == '\n' || ch == '\r' then
      let index1 := index + 1
      let nextChar := charAt s1.buffer index1
      let index2 := if nextChar == '\n' || nextChar == '\r' then index1 + 1 else index1
      { s1 with
        endOfLine := true
        result := s1.result ++ s1.buffer.take index
        buffer := cstr (s1.buffer.drop index2) }
    else
      { s1 with result := s1.result ++ cstr s1.buffer, buffer := [] }
  else s1

/-- The loop `while (!endOfLine && !eof)`, run for at most `fuel` passes. -/
def getResponseLoop : Nat → LoopState → LoopState
  | 0, s => s
  | fuel + 1, s =>
    if !s.endOfLine && !s.eof then getResponseLoop fuel (getResponseBody s) else s

/-- Number of characters and bursts still in the pipe; every physical read that does not
report end of stream lowers it. -/
def pipeSize (fromEngine : List (List Char)) : Nat :=
  (fromEngine.map (fun c => c.length + 1)).sum

/-- What one call of `getResponse` hands back: the returned text, the `eof` flag, and the
static buffer and inbound stream it leaves behind. -/
structure Response where
  result : List Char
  eof : Bool
  buffer : List Char
  fromEngine : List (List Char)
deriving DecidableEq, Repr

/-- `Engine::getResponse(bool& eof)` on the static buffer and the inbound stream.  The loop
gets `pipeSize fromEngine + 2` passes, which `getResponse_leaves_loop` shows is enough for
it to leave through its own condition. -/
def getResponse (buffer : List Char) (fromEngine : List (List Char)) : Response :=
  let s := getResponseLoop (pipeSize fromEngine + 2)
    { result := [], endOfLine := false, eof := false, buffer := buffer, fromEngine := fromEngine }
  { result := s.result, eof := s.eof, buffer := s.buffer, fromEngine := s.fromEngine }

/-! ## Sending commands -/

/-- `Engine::send(const string&)` through `Engine::send(const char *)` when its writes
succeed, as they do while the engine holds the other end of the pipe: the C string of
`str` and one newline are written to the outbound stream.  `sendOn` is the same function
with the writes that fail. -/
def send (e : Engine) (str : List Char) : Engine :=
  { e with toEngine := e.toEngine ++ cstr str ++ ['\n'] }

/-- `Engine::go`. -/
def go (e : Engine) : Engine :=
  send e ("go depth ".toList ++ decimal e.searchDepth)

/-- `Engine::setFENPosition`. -/
def setFENPosition (e : Engine) (fenstring moves : List Char) : Engine :=
  send e ("position fen ".toList ++ fenstring ++ (" moves ".toList ++ moves))

/-- `Engine::setPosition`. -/
def setPosition (e : Engine) (moves fenstring : List Char) : Engine :=
  if fenstring.length == 0 then
    send e ("position startpos moves ".toList ++ moves)
  else
    setFENPosition e fenstring moves

/-- `Engine::setOption(const string&, const string&)`. -/
def setOption (e : Engine) (name value : List Char) : Engine :=
  send e ("setoption name ".toList ++ name ++ " value ".toList ++ value)

/-- `Engine::setOption(const string&, int)`. -/
def setOptionInt (e : Engine) (name : List Char) (value : Int) : Engine :=
  setOption e name (decimal value)

/-- A `map<string, string>`, given by its entries in iteration order: `std::map` keeps
them in strictly ascending order of the key. -/
structure StringMap where
  entries : List (List Char × List Char)
  ascending : entries.Pairwise (fun a b => a.1 < b.1)

/-- `Engine::setOptions`: one `setOption` per entry, from `begin()` to `end()`. -/
def setOptions (e : Engine) (options : StringMap) : Engine :=
  options.entries.foldl (fun e it => setOption e it.1 it.2) e

/-- `Engine::searchMoves`. -/
def searchMoves (e : Engine) (moves : List Char) : Engine :=
  send e ("go depth ".toList ++ decimal e.searchDepth ++ (" searchmoves ".toList ++ moves))

/-- `Engine::quitEngine`. -/
def quitEngine (e : Engine) : Engine :=
  send e "quit".toList

/-- Modelled from the spec: `startNewGame` is declared in `engine.h`, which is not part of
the sources at hand; the spec has it send the new-game command `ucinewgame`. -/
def startNewGame (e : Engine) : Engine :=
  send e "ucinewgame".toList

/-! ## Waiting for responses -/

/-- Whether `strcmp(s1, s2) == 0`: the two C strings are equal. -/
def strcmpEq (s1 s2 : List Char) : Bool :=
  cstr s1 == cstr s2

/-- Characters held by the static buffer and the pipe together; a call of `getResponse`
that does not report `eof` lowers it (`getResponse_size_lt`). -/
def readerSize (buffer : List Char) (fromEngine : List (List Char)) : Nat :=
  buffer.length + pipeSize fromEngine

/-- The `do ... while (strcmp(str, response) != 0 && !eof)` loop of `waitForResponse`
after a pass that produced `r`: test the condition, at most `fuel` times. -/
def waitForResponseLoop (str : List Char) : Nat → Response → Response
  | 0, r => r
  | fuel + 1, r =>
    if !strcmpEq str r.result && !r.eof then
      waitForResponseLoop str fuel (getResponse r.buffer r.fromEngine)
    else r

/-- `Engine::waitForResponse(const char *str)`.  The fuel is enough for the loop to leave
through its own condition (`waitForResponse_leaves_loop`). -/
def waitForResponse (g : Globals) (e : Engine) (str : List Char) : Bool × Globals × Engine :=
  let r := waitForResponseLoop str (readerSize g.buffer e.fromEngine + 1)
    (getResponse g.buffer e.fromEngine)
  (strcmpEq str r.result, { g with buffer := r.buffer }, { e with fromEngine := r.fromEngine })

/-- `Engine::checkIsReady`. -/
def checkIsReady (g : Globals) (e : Engine) : Bool × Globals × Engine :=
  let e := send e "isready".toList
  let r := getResponse g.buffer e.fromEngine
  (!r.eof && r.result == "readyok".toList,
    { g with buffer := r.buffer }, { e with fromEngine := r.fromEngine })

/-! ## Identity -/

/-- `std::string::find(const char *)`: position of the first occurrence of the C string
`pat` in `s`, or `none` for `npos`. -/
def find (s pat : List Char) : Option Nat :=
  if (cstr pat).isPrefixOf s then some 0
  else
    match s with
    | [] => none
    | _ :: t => (find t pat).map (· + 1)

/-- The constant `id_prefix` of `setIdentity`. -/
def id_prefix : List Char := "id name ".toList

/-- The variables of the `do ... while` loop in `setIdentity`. -/
structure IdentityState where
  identity : List Char
  identitySet : Bool
  eof : Bool
  buffer : List Char
  fromEngine : List (List Char)
deriving DecidableEq, Repr

/-- One pass through the body of the `do ... while` loop of `setIdentity`. -/
def setIdentityBody (s : IdentityState) : IdentityState :=
  let r := getResponse s.buffer s.fromEngine
  let s1 : IdentityState := { s with eof := r.eof, buffer := r.buffer, fromEngine := r.fromEngine }
  if !r.eof then
    if find r.result id_prefix == some 0 then
      { s1 with identity := r.result.drop (cstr id_prefix).length, identitySet := true }
    else s1
  else s1

/-- The loop of `setIdentity` after a pass that left `s`: test
`while (!identitySet && !eof)`, at most `fuel` times. -/
def setIdentityLoop : Nat → IdentityState → IdentityState
  | 0, s => s
  | fuel + 1, s =>
    if !s.identitySet && !s.eof then setIdentityLoop fuel (setIdentityBody s) else s

/-- `Engine::setIdentity`.  The fuel is enough for the loop to leave through its own
condition (`setIdentity_leaves_loop`). -/
def setIdentity (g : Globals) (e : Engine) : Bool × Globals × Engine :=
  let s := setIdentityLoop (readerSize g.buffer e.fromEngine + 1)
    (setIdentityBody { identity := e.identity, identitySet := false, eof := false,
                       buffer := g.buffer, fromEngine := e.fromEngine })
  (s.identitySet, { g with buffer := s.buffer },
    { e with identity := s.identity, fromEngine := s.fromEngine })

/-! ## Initialisation -/

/-- The two lines `initEngine` writes to `cerr` when no identity was found. -/
def identityDiagnostic : List Char :=
  "Failed to identify the engine.".toList ++ ['\n'] ++
    ("No ".toList ++ [Char.ofNat 34] ++ "id name".toList ++ [Char.ofNat 34] ++
      " found.".toList) ++ ['\n']

/-- `Engine::initEngine`. -/
def initEngine (g : Globals) (e : Engine) (variations searchDepth : Int)
    (options : StringMap) : Bool × Globals × Engine :=
  let e := { e with variations := variations, searchDepth := searchDepth }
  let e := send e "uci".toList
  let r := setIdentity g e
  if !r.1 then
    (false, { r.2.1 with cerr := r.2.1.cerr ++ identityDiagnostic }, r.2.2)
  else
    let w := waitForResponse r.2.1 r.2.2 "uciok".toList
    if w.1 then
      -- Set default options.
      let e := setOption w.2.2 "UCI_AnalyseMode".toList "true".toList
      let e := setOptionInt e "MultiPV".toList variations
      -- Set command-line options.
      let e := setOptions e options
      let e := startNewGame e
      let e := send e "isready".toList
      waitForResponse w.2.1 e "readyok".toList
    else
      (false, w.2.1, w.2.2)

/-! ## Runs of the line reader -/

/-- The text and `eof` flag of each of `n` successive calls of `getResponse`. -/
def getResponses : Nat → List Char → List (List Char) → List (List Char × Bool)
  | 0, _, _ => []
  | n + 1, buffer, fromEngine =>
    let r := getResponse buffer fromEngine
    (r.result, r.eof) :: getResponses n r.buffer r.fromEngine

/-- The static buffer and inbound stream left by `n` successive calls of `getResponse`. -/
def afterResponses : Nat → List Char → List (List Char) → List Char × List (List Char)
  | 0, buffer, fromEngine => (buffer, fromEngine)
  | n + 1, buffer, fromEngine =>
    let r := getResponse buffer fromEngine
    afterResponses n r.buffer r.fromEngine

/-! ## Auxiliary definitions for the proofs -/

/-- The first half of the loop body: the physical read, made when the buffer is empty. -/
def readPhase (s : LoopState) : LoopState :=
  if charAt s.buffer 0 == NUL then
    let r := ReadFile s.fromEngine MAXBUFF
    { s with buffer := r.2.1, eof := !r.1 || r.2.1.length == 0, fromEngine := r.2.2 }
  else s

/-- The second half of the loop body: the search for the end of the line. -/
def scanPhase (s1 : LoopState) : LoopState :=
  let index := scan s1.buffer
  let ch := charAt s1.buffer index
  if ch == '\n' || ch == '\r' then
    let index1 := index + 1
    let nextChar := charAt s1.buffer index1
    let index2 := if nextChar == '\n' || nextChar == '\r' then index1 + 1 else index1
    { s1 with
      endOfLine := true
      result := s1.result ++ s1.buffer.take index
      buffer := cstr (s1.buffer.drop index2) }
  else
    { s1 with result := s1.result ++ cstr s1.buffer, buffer := [] }

/-- Bound on the passes the loop of `getResponse` can still make: every pass that does not
end the loop lowers it. -/
def loopPotential (s : LoopState) : Nat :=
  pipeSize s.fromEngine + (if charAt s.buffer 0 == NUL then 0 else 1)

/-- Size of a loop state: the characters in the buffer and the pipe. -/
def loopSize (s : LoopState) : Nat :=
  readerSize s.buffer s.fromEngine

/-- No NUL character in a string. -/
@[reducible] def NulFree (s : List Char) : Prop :=
  ∀ c ∈ s, c ≠ NUL

/-- Text of a line: no `\n`, no `\r`, no NUL. -/
@[reducible] def Clean (w : List Char) : Prop :=
  ∀ c ∈ w, c ≠ '\n' ∧ c ≠ '\r' ∧ c ≠ NUL

/-- A line terminator character. -/
@[reducible] def IsTerm (c : Char) : Prop :=
  c = '\n' ∨ c = '\r'

/-- Physical reads: every burst is non-empty and fits the buffer. -/
@[reducible] def Chunked (cs : List (List Char)) : Prop :=
  ∀ c ∈ cs, c ≠ [] ∧ c.length ≤ MAXBUFF

/-- What `getResponse` retains of the characters `q` that follow a terminator in the
buffer: a second terminator character right after the first is dropped with it. -/
def dropTerm (q : List Char) : List Char :=
  q.drop (if charAt q 0 == '\n' || charAt q 0 == '\r' then 1 else 0)

/-- A loop state of `getResponse` that has seen neither the end of a line nor of the stream. -/
def running (result buffer : List Char) (fromEngine : List (List Char)) : LoopState :=
  { result := result, endOfLine := false, eof := false, buffer := buffer, fromEngine := fromEngine }

/-- A `\r\n` pair cut by a read boundary: one burst ends in `\r`, the next starts with `\n`. -/
@[reducible] def SplitsCRLF (x y : List Char) : Prop :=
  x.getLast? = some '\r' ∧ y.head? = some '\n'

/-- No read boundary falls between a `\r` and a `\n` that follows it directly. -/
@[reducible] def NoSplit (cs : List (List Char)) : Prop :=
  List.Chain' (fun x y => ¬ SplitsCRLF x y) cs

/-- The byte stream `line1 t line2 t ... lineN t`. -/
def streamOf (t : List Char) (lines : List (List Char)) : List Char :=
  (lines.map (fun l => l ++ t)).flatten

/-- What stays in the pipe after a read of at most `MAXBUFF` characters of the burst `c`. -/
def afterRead (c : List Char) (cs : List (List Char)) : List (List Char) :=
  if c.length ≤ MAXBUFF then cs else c.drop MAXBUFF :: cs

/-- The response of call number `n` (counted from 0) in a run of successive calls of
`getResponse`. -/
def nthResponse : Nat → List Char → List (List Char) → Response
  | 0, buffer, fromEngine => getResponse buffer fromEngine
  | n + 1, buffer, fromEngine =>
    nthResponse n (getResponse buffer fromEngine).buffer (getResponse buffer fromEngine).fromEngine

/-- The loop state with which `setIdentity` starts a pass while no identity is set. -/
def idState (identity buffer : List Char) (fromEngine : List (List Char)) : IdentityState :=
  { identity := identity, identitySet := false, eof := false,
    buffer := buffer, fromEngine := fromEngine }

/-- A call `getResponse(eof)` made on the Engine object `e`: it works on the one static
buffer of the process and on the inbound stream of `e`. -/
def sessionRead (g : Globals) (e : Engine) : (List Char × Bool) × Globals × Engine :=
  let r := getResponse g.buffer e.fromEngine
  ((r.result, r.eof), { g with buffer := r.buffer }, { e with fromEngine := r.fromEngine })

/-- What a sequence of commands adds to the outbound stream: each command text followed by
one newline. -/
def commandText (cmds : List (List Char)) : List Char :=
  (cmds.map (fun c => c ++ ['\n'])).flatten

/-- The text `setoption name <name> value <value>`. -/
def setoptionCommand (name value : List Char) : List Char :=
  "setoption name ".toList ++ name ++ " value ".toList ++ value

/-- The commands of a successful initialisation, in the order of the claim: `uci`, the
two default options, one `setoption` per entry of `options`, the new-game command,
`isready`. -/
def initCommands (variations : Int) (options : StringMap) : List (List Char) :=
  ["uci".toList, setoptionCommand "UCI_AnalyseMode".toList "true".toList,
    setoptionCommand "MultiPV".toList (decimal variations)] ++
  options.entries.map (fun it => setoptionCommand it.1 it.2) ++
  ["ucinewgame".toList, "isready".toList]

/-- The engine object as `initEngine` has it when it calls `setIdentity`. -/
def afterUci (e : Engine) (variations searchDepth : Int) : Engine :=
  { e with variations := variations, searchDepth := searchDepth,
           toEngine := e.toEngine ++ "uci\n".toList }

/-- What `send` writes for a sequence of commands: the C string of each, followed by one
newline. -/
def sentText (cmds : List (List Char)) : List Char :=
  (cmds.map (fun c => cstr c ++ ['\n'])).flatten

/-- One of the four terminators `\n`, `\r`, `\r\n`, `\n\r`. -/
@[reducible] def IsTerminator (t : List Char) : Prop :=
  t = ['\n'] ∨ t = ['\r'] ∨ t = ['\r', '\n'] ∨ t = ['\n', '\r']

/-- What `initEngine` reports to its caller: its return value and the text it has added
to `cerr`. -/
def initReport (g : Globals) (e : Engine) (variations searchDepth : Int)
    (options : StringMap) : Bool × List Char :=
  ((initEngine g e variations searchDepth options).1,
    (initEngine g e variations searchDepth options).2.1.cerr.drop g.cerr.length)

/-- The four ends of the two pipes that `startEngine` creates. -/
inductive PipeEnd
  | parentToChildRead
  | parentToChildWrite
  | childToParentRead
  | childToParentWrite
deriving DecidableEq, Repr

/-- The names under which `startEngine` holds a descriptor (unix branch) or a handle
(windows branch). -/
inductive HandleName
  | STDIN_FILENO
  | STDOUT_FILENO
  | parentToChild (index : Nat)
  | childToParent (index : Nat)
  | readFromEngine
  | writeToEngine
  | unusedChildStdinRead
  | unusedChildStdoutWrite
deriving DecidableEq, Repr

/-- One open descriptor or handle of a process: its name, the pipe end it refers to,
and whether a child process created with handle inheritance gets it. -/
structure OpenHandle where
  name : HandleName
  target : PipeEnd
  inherit : Bool
deriving DecidableEq, Repr

/-- The low-level index `READFD` of the source. -/
def READFD : Nat := 0

/-- The low-level index `WRITEFD` of the source. -/
def WRITEFD : Nat := 1

/-- The table after `close(name)` or `CloseHandle(name)`. -/
def closeHandle (table : List OpenHandle) (name : HandleName) : List OpenHandle :=
  table.filter (fun h => h.name != name)

/-- The pipe end a name refers to in a table, if the name is open. -/
def targetOf (table : List OpenHandle) (name : HandleName) : Option PipeEnd :=
  (table.find? (fun h => h.name == name)).map (fun h => h.target)

/-- The table after `dup2(oldfd, newfd)`: `newfd` is closed if open and then refers to
what `oldfd` refers to. -/
def dup2 (table : List OpenHandle) (oldfd newfd : HandleName) : List OpenHandle :=
  match targetOf table oldfd with
  | none => table
  | some target =>
    closeHandle table newfd ++ [{ name := newfd, target := target, inherit := true }]

/-- The pipe ends a process holds open. -/
def openEnds (table : List OpenHandle) : List PipeEnd :=
  table.map (fun h => h.target)

/-- Which of the fallible calls of the unix branch succeed.  The `ASSERT_IS` and
`ASSERT_NOT` macros are defined in `utils.h`, which is not among the sources: a failed
assertion is taken to stop the program. -/
structure UnixCalls where
  pipeParentToChild : Bool
  pipeChildToParent : Bool
  fork : Bool
  execlp : Bool
deriving DecidableEq, Repr

/-- What `startEngine` leaves behind: its return value in the parent, the pipe ends the
parent holds, and those the child holds when it runs the engine (`none` when there is no
such child). -/
structure Started where
  result : Bool
  parent : List OpenHandle
  child : Option (List OpenHandle)
deriving DecidableEq, Repr

/-- `Engine::startEngine`, unix branch, on the pipe ends held by the two processes.
`none` stands for a failed assertion. -/
def startEngineUnix (os : UnixCalls) : Option Started :=
  -- ASSERT_IS(0, pipe(parentToChild)); ASSERT_IS(0, pipe(childToParent));
  if !os.pipeParentToChild then none
  else if !os.pipeChildToParent then none
  else
    let table : List OpenHandle :=
      [ { name := .parentToChild READFD, target := .parentToChildRead, inherit := true },
        { name := .parentToChild WRITEFD, target := .parentToChildWrite, inherit := true },
        { name := .childToParent READFD, target := .childToParentRead, inherit := true },
        { name := .childToParent WRITEFD, target := .childToParentWrite, inherit := true } ]
    if !os.fork then
      -- case -1: FAIL("Fork failed"); return false;
      some { result := false, parent := table, child := none }
    else
      -- case 0: the child, which starts with a copy of the table
      let c := dup2 table (.parentToChild READFD) .STDIN_FILENO
      let c := dup2 c (.childToParent WRITEFD) .STDOUT_FILENO
      let c := closeHandle c (.parentToChild WRITEFD)
      let c := closeHandle c (.childToParent READFD)
      -- default: the parent
      let p := closeHandle table (.parentToChild READFD)
      let p := closeHandle p (.childToParent WRITEFD)
      some { result := true, parent := p, child := if os.execlp then some c else none }

/-- Which of the fallible calls of the windows branch succeed. -/
structure WindowsCalls where
  createPipeOut : Bool
  setHandleInformationOut : Bool
  createPipeIn : Bool
  setHandleInformationIn : Bool
  createProcess : Bool
deriving DecidableEq, Repr

/-- The table after `SetHandleInformation(name, HANDLE_FLAG_INHERIT, 0)`. -/
def clearInherit (table : List OpenHandle) (name : HandleName) : List OpenHandle :=
  table.map (fun h => if h.name == name then { h with inherit := false } else h)

/-- `Engine::startEngine`, windows branch, on the pipe ends held by the two processes.
`CreateProcess` with handle inheritance gives the child the inheritable handles of the
parent, three of which are its standard handles. -/
def startEngineWindows (os : WindowsCalls) : Started :=
  if !os.createPipeOut then { result := false, parent := [], child := none }
  else
    let t : List OpenHandle :=
      [ { name := .readFromEngine, target := .childToParentRead, inherit := true },
        { name := .unusedChildStdoutWrite, target := .childToParentWrite, inherit := true } ]
    if !os.setHandleInformationOut then { result := false, parent := t, child := none }
    else
      let t := clearInherit t .readFromEngine
      if !os.createPipeIn then { result := false, parent := t, child := none }
      else
        let t := t ++
          [ { name := .unusedChildStdinRead, target := .parentToChildRead, inherit := true },
            { name := .writeToEngine, target := .parentToChildWrite, inherit := true } ]
        if !os.setHandleInformationIn then { result := false, parent := t, child := none }
        else
          let t := clearInherit t .writeToEngine
          if !os.createProcess then { result := false, parent := t, child := none }
          else
            -- CloseHandle(piProcInfo.hProcess); CloseHandle(piProcInfo.hThread);
            { result := true, parent := t, child := some (t.filter (fun h => h.inherit)) }

/-- The stream with every `\n` and `\r` removed. -/
def stripTerminators (s : List Char) : List Char :=
  s.filter (fun c => c != '\n' && c != '\r')

/-- The build of `send` and what the operating system answers to its writes.  unix:
whether a process still holds the read end of the pipe behind `toEngine`; the parent
closes its own copy in `startEngine`, so once the child has exited nobody does, and a
write to such a pipe raises SIGPIPE, for which `engine.cpp` installs no handler: the
process ends.  windows: the results of the first and of the second `WriteFile`. -/
inductive WriteCalls
  | unix (readEndOpen : Bool)
  | windows (writeText writeNewl : Bool)
deriving DecidableEq, Repr

/-- Whether every write of a call of `send` succeeds. -/
def WriteCalls.written : WriteCalls → Bool
  | .unix readEndOpen => readEndOpen
  | .windows writeText writeNewl => writeText && writeNewl

/-- `Engine::send(const char *)` with the answers of the operating system to its writes.
`none`: the process has been ended by SIGPIPE.  When every write succeeds this is `send`
(`sendOn_written`). -/
def sendOn (os : WriteCalls) (e : Engine) (str : List Char) : Option Engine :=
  match os with
  | .unix readEndOpen =>
    -- fprintf(toEngine, "%s\n", str); fflush(toEngine);
    if readEndOpen then some { e with toEngine := e.toEngine ++ cstr str ++ ['\n'] }
    else none
  | .windows writeText writeNewl =>
    -- bSuccess = WriteFile(writeToEngine, str, strlen(str), &dwWritten, NULL);
    let bSuccess := writeText
    let e1 := if bSuccess then { e with toEngine := e.toEngine ++ cstr str } else e
    if bSuccess then
      -- bSuccess |= WriteFile(writeToEngine, newl, strlen(newl), &dwWritten, NULL);
      some (if writeNewl then { e1 with toEngine := e1.toEngine ++ ['\n'] } else e1)
    else some e1

/-- `Engine::go`, on `sendOn`. -/
def goOn (os : WriteCalls) (e : Engine) : Option Engine :=
  sendOn os e ("go depth ".toList ++ decimal e.searchDepth)

/-- `Engine::setFENPosition`, on `sendOn`. -/
def setFENPositionOn (os : WriteCalls) (e : Engine) (fenstring moves : List Char) :
    Option Engine :=
  sendOn os e ("position fen ".toList ++ fenstring ++ (" moves ".toList ++ moves))

/-- `Engine::setPosition`, on `sendOn`. -/
def setPositionOn (os : WriteCalls) (e : Engine) (moves fenstring : List Char) :
    Option Engine :=
  if fenstring.length == 0 then
    sendOn os e ("position startpos moves ".toList ++ moves)
  else
    setFENPositionOn os e fenstring moves

/-- `Engine::setOption(const string&, const string&)`, on `sendOn`. -/
def setOptionOn (os : WriteCalls) (e : Engine) (name value : List Char) : Option Engine :=
  sendOn os e ("setoption name ".toList ++ name ++ " value ".toList ++ value)

/-- `Engine::setOption(const string&, int)`, on `sendOn`. -/
def setOptionIntOn (os : WriteCalls) (e : Engine) (name : List Char) (value : Int) :
    Option Engine :=
  setOptionOn os e name (decimal value)

/-- `Engine::setOptions`, on `sendOn`: one `setOption` per entry, as long as the process
lives; the operating system answers every write alike. -/
def setOptionsOn (os : WriteCalls) (e : Engine) (options : StringMap) : Option Engine :=
  options.entries.foldl (fun r it => r.bind (fun e => setOptionOn os e it.1 it.2)) (some e)

/-- `Engine::searchMoves`, on `sendOn`. -/
def searchMovesOn (os : WriteCalls) (e : Engine) (moves : List Char) : Option Engine :=
  sendOn os e ("go depth ".toList ++ decimal e.searchDepth ++ (" searchmoves ".toList ++ moves))

/-- `Engine::quitEngine`, on `sendOn`. -/
def quitEngineOn (os : WriteCalls) (e : Engine) : Option Engine :=
  sendOn os e "quit".toList

/-- The session state that a write leaves alone, for the engine object `e` an operation is
called on and the result `after` it leads to (`none`: the process has ended): if the
process lives on, `identity`, `searchDepth`, `variations` and the inbound stream are as
before, and a call of `getResponse` finds the static buffer and the stream as before. -/
@[reducible] def SessionKept (g : Globals) (e : Engine) (after : Option Engine) : Prop :=
  ∀ e', after = some e' →
    e'.identity = e.identity ∧ e'.searchDepth = e.searchDepth ∧
    e'.variations = e.variations ∧ e'.fromEngine = e.fromEngine ∧
    getResponse g.buffer e'.fromEngine = getResponse g.buffer e.fromEngine

/-- The engine object `e` after the command texts `cmds`, each followed by one newline,
have been appended to its outbound stream. -/
def withCommands (e : Engine) (cmds : List (List Char)) : Engine :=
  { e with toEngine := e.toEngine ++ commandText cmds }

/-- The text of a run of lines, each given with the terminator character that ends it:
`line1 c1 line2 c2 ...`. -/
def terminated (lines : List (List Char × Char)) : List Char :=
  (lines.map (fun l => l.1 ++ [l.2])).flatten

/-! # Theorems -/

/-! ## The loop of `getResponse` ends -/

theorem getResponseBody_eq (s : LoopState) :
    getResponseBody s = if !(readPhase s).eof then scanPhase (readPhase s) else readPhase s := rfl

theorem charAt_nil (i : Nat) : charAt [] i = NUL := by
  simp [charAt]

theorem NUL_ne_lf : NUL ≠ '\n' := by decide

theorem NUL_ne_cr : NUL ≠ '\r' := by decide

theorem charAt_lt_of_ne {buffer : List Char} {i : Nat} (h : charAt buffer i ≠ NUL) :
    i < buffer.length := by
  by_contra hlt
  apply h
  simp only [charAt, List.getD_eq_getElem?_getD]
  rw [List.getElem?_eq_none (by omega)]
  rfl

theorem cstr_length_le (s : List Char) : (cstr s).length ≤ s.length := by
  unfold cstr
  exact (List.takeWhile_sublist _).length_le

theorem pipeSize_cons (c : List Char) (rest : List (List Char)) :
    pipeSize (c :: rest) = c.length + 1 + pipeSize rest := by
  simp [pipeSize]

theorem scanPhase_fromEngine (s : LoopState) : (scanPhase s).fromEngine = s.fromEngine := by
  unfold scanPhase
  simp only
  split_ifs <;> rfl

theorem scanPhase_eof (s : LoopState) : (scanPhase s).eof = s.eof := by
  unfold scanPhase
  simp only
  split_ifs <;> rfl

theorem scanPhase_cases (s : LoopState) :
    ((scanPhase s).endOfLine = true ∧ (scanPhase s).buffer.length < s.buffer.length) ∨
    ((scanPhase s).endOfLine = s.endOfLine ∧ (scanPhase s).buffer = []) := by
  unfold scanPhase
  simp only
  by_cases h : (charAt s.buffer (scan s.buffer) == '\n' || charAt s.buffer (scan s.buffer) == '\r') = true
  · left
    rw [if_pos h]
    refine ⟨rfl, ?_⟩
    have hne : charAt s.buffer (scan s.buffer) ≠ NUL := by
      intro h0
      rw [h0] at h
      revert h
      decide
    have hlt := charAt_lt_of_ne hne
    simp only
    refine lt_of_le_of_lt (cstr_length_le _) ?_
    rw [List.length_drop]
    split_ifs <;> omega
  · right
    rw [if_neg h]
    exact ⟨rfl, rfl⟩

theorem readPhase_endOfLine (s : LoopState) : (readPhase s).endOfLine = s.endOfLine := by
  unfold readPhase
  split_ifs <;> rfl

/-- The read either reports end of stream or takes something out of the pipe. -/
theorem readPhase_cases (s : LoopState) :
    (readPhase s = s ∧ (charAt s.buffer 0 == NUL) = false) ∨
    ((charAt s.buffer 0 == NUL) = true ∧
      (readPhase s).buffer.length + pipeSize (readPhase s).fromEngine ≤ pipeSize s.fromEngine ∧
      ((readPhase s).eof = true ∨ pipeSize (readPhase s).fromEngine < pipeSize s.fromEngine)) := by
  unfold readPhase
  by_cases hb : (charAt s.buffer 0 == NUL) = true
  · right
    refine ⟨hb, ?_⟩
    rw [if_pos hb]
    cases hfe : s.fromEngine with
    | nil => simp [ReadFile, pipeSize]
    | cons c rest =>
      have hsz : (c.take MAXBUFF).length +
          pipeSize (if c.length ≤ MAXBUFF then rest else c.drop MAXBUFF :: rest) ≤
          pipeSize (c :: rest) := by
        simp only [pipeSize_cons, List.length_take]
        split_ifs with hl
        · omega
        · rw [pipeSize_cons, List.length_drop]
          simp only [MAXBUFF] at hl ⊢
          omega
      refine ⟨hsz, ?_⟩
      by_cases hc : (c.take MAXBUFF).length = 0
      · left; simp [ReadFile, hc]
      · right
        simp only [ReadFile]
        omega
  · left
    rw [if_neg hb]
    exact ⟨rfl, by simpa using hb⟩

theorem getResponseBody_progress (s : LoopState) :
    (getResponseBody s).endOfLine = true ∨ (getResponseBody s).eof = true ∨
      loopPotential (getResponseBody s) < loopPotential s := by
  rw [getResponseBody_eq]
  by_cases he : (readPhase s).eof = true
  · right; left
    simp [he]
  · simp only [he, Bool.not_false, if_true]
    rcases scanPhase_cases (readPhase s) with ⟨h1, _⟩ | ⟨_, h2⟩
    · left; exact h1
    · right; right
      simp only [loopPotential, h2, charAt_nil, beq_self_eq_true, if_true, scanPhase_fromEngine,
        Nat.add_zero]
      rcases readPhase_cases s with ⟨h3, h4⟩ | ⟨h3, _, h4 | h4⟩
      · rw [h3, h4]; simp
      · exact absurd h4 he
      · rw [h3]; simp only [if_true]; omega

/-- With more fuel than the potential, the loop of `getResponse` leaves through its own
condition: it has seen the end of a line or the end of the stream. -/
theorem getResponseLoop_done (fuel : Nat) (s : LoopState) (h : loopPotential s < fuel) :
    (getResponseLoop fuel s).endOfLine = true ∨ (getResponseLoop fuel s).eof = true := by
  induction fuel generalizing s with
  | zero => omega
  | succ n ih =>
    unfold getResponseLoop
    by_cases hc : (!s.endOfLine && !s.eof) = true
    · rw [if_pos hc]
      rcases getResponseBody_progress s with h1 | h1 | h1
      · cases n with
        | zero => unfold getResponseLoop; left; exact h1
        | succ m => unfold getResponseLoop; simp [h1]
      · cases n with
        | zero => unfold getResponseLoop; right; exact h1
        | succ m => unfold getResponseLoop; simp [h1]
      · exact ih _ (by omega)
    · rw [if_neg hc]
      revert hc
      cases s.endOfLine <;> cases s.eof <;> simp

theorem readPhase_size_le (s : LoopState) : loopSize (readPhase s) ≤ loopSize s := by
  unfold loopSize readerSize
  rcases readPhase_cases s with ⟨h, _⟩ | ⟨_, h, _⟩
  · rw [h]
  · omega

theorem getResponseBody_size (s : LoopState) :
    loopSize (getResponseBody s) ≤ loopSize s ∧
      (s.endOfLine = false → (getResponseBody s).endOfLine = true →
        loopSize (getResponseBody s) < loopSize s) := by
  rw [getResponseBody_eq]
  have hr := readPhase_size_le s
  by_cases he : (readPhase s).eof = true
  · simp only [he, Bool.not_true, Bool.false_eq_true, if_false]
    refine ⟨hr, fun h0 h1 => ?_⟩
    rw [readPhase_endOfLine, h0] at h1
    exact absurd h1 Bool.false_ne_true
  · simp only [he, Bool.not_false, if_true]
    unfold loopSize readerSize at hr ⊢
    rw [scanPhase_fromEngine]
    rcases scanPhase_cases (readPhase s) with ⟨_, h2⟩ | ⟨h1, h2⟩
    · exact ⟨by omega, fun _ _ => by omega⟩
    · refine ⟨by rw [h2]; simp only [List.length_nil]; omega, fun h0 h3 => ?_⟩
      rw [h1, readPhase_endOfLine, h0] at h3
      exact absurd h3 Bool.false_ne_true

theorem getResponseLoop_of_endOfLine (fuel : Nat) (s : LoopState) (h : s.endOfLine = true) :
    getResponseLoop fuel s = s := by
  cases fuel with
  | zero => rfl
  | succ n => unfold getResponseLoop; simp [h]

theorem getResponseLoop_of_eof (fuel : Nat) (s : LoopState) (h : s.eof = true) :
    getResponseLoop fuel s = s := by
  cases fuel with
  | zero => rfl
  | succ n => unfold getResponseLoop; simp [h]

theorem getResponseLoop_size (fuel : Nat) (s : LoopState) (h0 : s.endOfLine = false) :
    loopSize (getResponseLoop fuel s) ≤ loopSize s ∧
      ((getResponseLoop fuel s).endOfLine = true →
        loopSize (getResponseLoop fuel s) < loopSize s) := by
  induction fuel generalizing s with
  | zero =>
    unfold getResponseLoop
    exact ⟨le_refl _, fun h => by rw [h0] at h; exact absurd h Bool.false_ne_true⟩
  | succ n ih =>
    unfold getResponseLoop
    by_cases hc : (!s.endOfLine && !s.eof) = true
    · rw [if_pos hc]
      have hb := getResponseBody_size s
      by_cases h1 : (getResponseBody s).endOfLine = true
      · rw [getResponseLoop_of_endOfLine _ _ h1]
        exact ⟨hb.1, fun _ => hb.2 h0 h1⟩
      · have h1' : (getResponseBody s).endOfLine = false := by simpa using h1
        have := ih _ h1'
        exact ⟨le_trans this.1 hb.1, fun h => lt_of_lt_of_le (this.2 h) hb.1⟩
    · rw [if_neg hc]
      exact ⟨le_refl _, fun h => by rw [h0] at h; exact absurd h Bool.false_ne_true⟩

theorem loopPotential_le (s : LoopState) : loopPotential s ≤ pipeSize s.fromEngine + 1 := by
  unfold loopPotential
  split_ifs <;> omega

/-- A call of `getResponse` never adds to what the buffer and the pipe hold. -/
theorem getResponse_size_le (buffer : List Char) (fromEngine : List (List Char)) :
    readerSize (getResponse buffer fromEngine).buffer (getResponse buffer fromEngine).fromEngine
      ≤ readerSize buffer fromEngine :=
  (getResponseLoop_size _ _ rfl).1

/-- A call of `getResponse` that does not report `eof` has consumed at least one
character of what the buffer and the pipe held. -/
theorem getResponse_size_lt (buffer : List Char) (fromEngine : List (List Char))
    (h : (getResponse buffer fromEngine).eof = false) :
    readerSize (getResponse buffer fromEngine).buffer (getResponse buffer fromEngine).fromEngine
      < readerSize buffer fromEngine := by
  have hd := getResponseLoop_done (pipeSize fromEngine + 2)
    { result := [], endOfLine := false, eof := false, buffer := buffer, fromEngine := fromEngine }
    (by have := loopPotential_le
          { result := [], endOfLine := false, eof := false, buffer := buffer,
            fromEngine := fromEngine }
        simp only at this
        omega)
  have hs := getResponseLoop_size (pipeSize fromEngine + 2)
    { result := [], endOfLine := false, eof := false, buffer := buffer, fromEngine := fromEngine }
    rfl
  rcases hd with hd | hd
  · exact hs.2 hd
  · unfold getResponse at h
    simp only at h
    rw [h] at hd
    exact absurd hd Bool.false_ne_true

/-! ## Scanning the buffer -/

theorem Clean.nil : Clean [] := by
  intro c hc; simp at hc

theorem Clean.cons_iff {a : Char} {w : List Char} :
    Clean (a :: w) ↔ (a ≠ '\n' ∧ a ≠ '\r' ∧ a ≠ NUL) ∧ Clean w := by
  simp [Clean]

theorem Clean.append_iff {u v : List Char} : Clean (u ++ v) ↔ Clean u ∧ Clean v := by
  simp only [Clean, List.mem_append]
  constructor
  · intro h
    exact ⟨fun c hc => h c (Or.inl hc), fun c hc => h c (Or.inr hc)⟩
  · rintro ⟨h1, h2⟩ c (hc | hc)
    · exact h1 c hc
    · exact h2 c hc

theorem cstr_of_clean {w : List Char} (h : Clean w) : cstr w = w := by
  unfold cstr
  rw [List.takeWhile_eq_self_iff]
  intro c hc
  simpa using (h c hc).2.2

theorem cstr_of_nulFree {w : List Char} (h : ∀ c ∈ w, c ≠ NUL) : cstr w = w := by
  unfold cstr
  rw [List.takeWhile_eq_self_iff]
  intro c hc
  simpa using h c hc

theorem scan_append_stop {p : List Char} (x : Char) (q : List Char) (hp : Clean p)
    (hx : x = '\n' ∨ x = '\r' ∨ x = NUL) : scan (p ++ x :: q) = p.length := by
  unfold scan
  rw [List.takeWhile_append_of_pos]
  · rw [List.takeWhile_cons_of_neg]
    · simp
    · rcases hx with h | h | h <;> simp [h]
  · intro c hc
    have := hp c hc
    simp [this.1, this.2.1, this.2.2]

theorem scan_clean {p : List Char} (hp : Clean p) : scan p = p.length := by
  unfold scan
  congr 1
  rw [List.takeWhile_eq_self_iff]
  intro c hc
  have := hp c hc
  simp [this.1, this.2.1, this.2.2]

theorem charAt_append_cons (p : List Char) (x : Char) (q : List Char) :
    charAt (p ++ x :: q) p.length = x := by
  simp only [charAt, List.getD_eq_getElem?_getD]
  rw [List.getElem?_append_right (le_refl _)]
  simp

theorem charAt_append_cons_succ (p : List Char) (x : Char) (q : List Char) :
    charAt (p ++ x :: q) (p.length + 1) = charAt q 0 := by
  simp only [charAt, List.getD_eq_getElem?_getD]
  rw [List.getElem?_append_right (by omega)]
  simp

theorem charAt_length (p : List Char) : charAt p p.length = NUL := by
  simp [charAt, List.getD_eq_getElem?_getD]

theorem dropTerm_nil : dropTerm [] = [] := by
  simp [dropTerm]

theorem dropTerm_cons_term {c : Char} (q : List Char) (h : IsTerm c) :
    dropTerm (c :: q) = q := by
  rcases h with h | h <;> simp [dropTerm, charAt, h]

theorem dropTerm_cons_not {c : Char} (q : List Char) (h : ¬ IsTerm c) :
    dropTerm (c :: q) = c :: q := by
  simp only [IsTerm, not_or] at h
  simp [dropTerm, charAt, h.1, h.2]

theorem scanPhase_eol (s : LoopState) {p q : List Char} {t : Char}
    (hb : s.buffer = p ++ t :: q) (hp : Clean p) (ht : IsTerm t) :
    scanPhase s = { s with endOfLine := true, result := s.result ++ p,
                           buffer := cstr (dropTerm q) } := by
  have hs : scan s.buffer = p.length := by
    rw [hb]; exact scan_append_stop t q hp (by rcases ht with h | h <;> simp [h])
  have hch : (charAt s.buffer (scan s.buffer) == '\n' ||
      charAt s.buffer (scan s.buffer) == '\r') = true := by
    rw [hs, hb, charAt_append_cons]
    rcases ht with h | h <;> simp [h]
  unfold scanPhase
  simp only [hch, if_true]
  rw [hs, hb, charAt_append_cons_succ]
  congr 1
  · simp
  · unfold dropTerm
    congr 1
    split_ifs
    · rw [show p.length + 1 + 1 = p.length + (1 + 1) by omega, List.drop_append]
      simp
    · rw [List.drop_append]
      simp

theorem scanPhase_clean (s : LoopState) (hp : Clean s.buffer) :
    scanPhase s = { s with result := s.result ++ s.buffer, buffer := [] } := by
  have hch : ¬ (charAt s.buffer (scan s.buffer) == '\n' ||
      charAt s.buffer (scan s.buffer) == '\r') = true := by
    rw [scan_clean hp, charAt_length]
    decide
  unfold scanPhase
  simp only
  rw [if_neg hch, cstr_of_clean hp]

theorem clean_or_split (b : List Char) :
    Clean b ∨ ∃ p x q, b = p ++ x :: q ∧ Clean p ∧ (x = '\n' ∨ x = '\r' ∨ x = NUL) := by
  induction b with
  | nil => left; exact Clean.nil
  | cons a b ih =>
    by_cases ha : a = '\n' ∨ a = '\r' ∨ a = NUL
    · right
      exact ⟨[], a, b, rfl, Clean.nil, ha⟩
    · simp only [not_or] at ha
      rcases ih with h | ⟨p, x, q, h1, h2, h3⟩
      · left
        exact Clean.cons_iff.mpr ⟨⟨ha.1, ha.2.1, ha.2.2⟩, h⟩
      · right
        refine ⟨a :: p, x, q, by rw [h1]; rfl, Clean.cons_iff.mpr ⟨⟨ha.1, ha.2.1, ha.2.2⟩, h2⟩, h3⟩

theorem first_stop_unique {p w : List Char} {x t : Char} {r1 r2 : List Char}
    (hp : Clean p) (hw : Clean w) (hx : x = '\n' ∨ x = '\r' ∨ x = NUL)
    (ht : t = '\n' ∨ t = '\r' ∨ t = NUL) (h : p ++ x :: r1 = w ++ t :: r2) :
    p = w ∧ x = t ∧ r1 = r2 := by
  induction p generalizing w with
  | nil =>
    cases w with
    | nil => simpa using h
    | cons a w =>
      simp only [List.nil_append, List.cons_append, List.cons.injEq] at h
      have := (Clean.cons_iff.mp hw).1
      rw [← h.1] at this
      rcases hx with e | e | e
      · exact absurd e this.1
      · exact absurd e this.2.1
      · exact absurd e this.2.2
  | cons a p ih =>
    cases w with
    | nil =>
      simp only [List.nil_append, List.cons_append, List.cons.injEq] at h
      have := (Clean.cons_iff.mp hp).1
      rw [h.1] at this
      rcases ht with e | e | e
      · exact absurd e this.1
      · exact absurd e this.2.1
      · exact absurd e this.2.2
    | cons a' w =>
      simp only [List.cons_append, List.cons.injEq] at h
      have := ih (Clean.cons_iff.mp hp).2 (Clean.cons_iff.mp hw).2 h.2
      exact ⟨by rw [h.1, this.1], this.2⟩

theorem clean_prefix_split {b w : List Char} {t : Char} {X rest : List Char}
    (hb : Clean b) (ht : t = '\n' ∨ t = '\r' ∨ t = NUL) (h : b ++ X = w ++ t :: rest) :
    ∃ w', w = b ++ w' ∧ X = w' ++ t :: rest := by
  induction b generalizing w with
  | nil => exact ⟨w, rfl, by simpa using h⟩
  | cons a b ih =>
    cases w with
    | nil =>
      simp only [List.nil_append, List.cons_append, List.cons.injEq] at h
      have := (Clean.cons_iff.mp hb).1
      rw [h.1] at this
      rcases ht with e | e | e
      · exact absurd e this.1
      · exact absurd e this.2.1
      · exact absurd e this.2.2
    | cons a' w =>
      simp only [List.cons_append, List.cons.injEq] at h
      obtain ⟨w', h1, h2⟩ := ih (Clean.cons_iff.mp hb).2 h.2
      exact ⟨w', by rw [h.1, h1]; rfl, h2⟩

/-! ## Reading one line -/

theorem getResponseBody_read (result : List Char) {c : List Char} (cs : List (List Char))
    (hc : c ≠ []) (hl : c.length ≤ MAXBUFF) :
    getResponseBody (running result [] (c :: cs)) = scanPhase (running result c cs) := by
  have hr : readPhase (running result [] (c :: cs)) = running result c cs := by
    have h0 : ¬ c.length = 0 := by
      intro h; exact hc (List.length_eq_zero.mp h)
    simp [readPhase, running, charAt_nil, ReadFile, List.take_of_length_le hl, hl, h0]
  rw [getResponseBody_eq, hr]
  rfl

theorem getResponseBody_closed (result : List Char) :
    getResponseBody (running result [] []) =
      { result := result, endOfLine := false, eof := true, buffer := [], fromEngine := [] } := by
  rfl

theorem getResponseBody_noread (result : List Char) {b : List Char} (cs : List (List Char))
    (hb : charAt b 0 ≠ NUL) :
    getResponseBody (running result b cs) = scanPhase (running result b cs) := by
  have hr : readPhase (running result b cs) = running result b cs := by
    simp [readPhase, running, hb]
  rw [getResponseBody_eq, hr]
  rfl

theorem getResponseLoop_running (fuel : Nat) (result b : List Char) (cs : List (List Char)) :
    getResponseLoop (fuel + 1) (running result b cs) =
      getResponseLoop fuel (getResponseBody (running result b cs)) := by
  rfl

theorem pipeSize_nil : pipeSize [] = 0 := rfl

/-- The loop of `getResponse` started on an empty buffer, when the pipe holds the text `w`
of a line and then a terminator: it returns `w`, and the buffer keeps what followed the
terminator in the burst that held it. -/
theorem getResponseLoop_line_nil (cs : List (List Char)) :
    ∀ (result w : List Char) (t : Char) (rest : List Char) (fuel : Nat),
      Chunked cs → cs.flatten = w ++ t :: rest → Clean w → IsTerm t → pipeSize cs < fuel →
      ∃ p q cs', (p ++ t :: q) :: cs' <:+ cs ∧ rest = q ++ cs'.flatten ∧
        getResponseLoop fuel (running result [] cs) =
          { result := result ++ w, endOfLine := true, eof := false,
            buffer := cstr (dropTerm q), fromEngine := cs' } := by
  induction cs with
  | nil =>
    intro result w t rest fuel _ hfl
    simp at hfl
  | cons c cs1 ih =>
    intro result w t rest fuel hch hfl hw ht hfuel
    have hc := hch c (List.mem_cons_self _ _)
    have hch1 : Chunked cs1 := fun x hx => hch x (List.mem_cons_of_mem _ hx)
    obtain ⟨n, rfl⟩ : ∃ n, fuel = n + 1 := ⟨fuel - 1, by omega⟩
    rw [getResponseLoop_running, getResponseBody_read result cs1 hc.1 hc.2]
    have ht' : t = '\n' ∨ t = '\r' ∨ t = NUL := by
      rcases ht with h | h
      · exact Or.inl h
      · exact Or.inr (Or.inl h)
    rw [List.flatten_cons] at hfl
    rcases clean_or_split c with hcl | ⟨p, x, q, hcq, hp, hx⟩
    · obtain ⟨w', hw1, hw2⟩ := clean_prefix_split hcl ht' hfl
      rw [scanPhase_clean _ hcl]
      have hw' : Clean w' := by
        rw [hw1] at hw
        exact (Clean.append_iff.mp hw).2
      rw [pipeSize_cons] at hfuel
      obtain ⟨p, q, cs', h1, h2, h3⟩ := ih (result ++ c) w' t rest n hch1 hw2 hw' ht (by omega)
      refine ⟨p, q, cs', List.IsSuffix.trans h1 (List.suffix_cons _ _), h2, ?_⟩
      have : ({ running result c cs1 with
          result := (running result c cs1).result ++ (running result c cs1).buffer,
          buffer := [] } : LoopState) = running (result ++ c) [] cs1 := rfl
      rw [this, h3, hw1, List.append_assoc]
    · rw [hcq, List.append_assoc, List.cons_append] at hfl
      obtain ⟨h1, h2, h3⟩ := first_stop_unique hp hw hx ht' hfl
      subst h1 h2
      rw [scanPhase_eol (running result c cs1) hcq hp ht]
      refine ⟨p, q, cs1, by rw [hcq], h3.symm, ?_⟩
      rw [getResponseLoop_of_endOfLine _ _ rfl]
      rfl

theorem charAt_zero_ne_of_clean_append {p : List Char} {t : Char} (q : List Char)
    (hp : Clean p) (ht : IsTerm t) : charAt (p ++ t :: q) 0 ≠ NUL := by
  cases p with
  | nil =>
    simp only [List.nil_append, charAt, List.getD_cons_zero]
    rcases ht with h | h <;> rw [h] <;> decide
  | cons a p =>
    simp only [List.cons_append, charAt, List.getD_cons_zero]
    exact (hp a (List.mem_cons_self _ _)).2.2

theorem charAt_zero_ne_of_clean {b : List Char} (hb : Clean b) (hne : b ≠ []) :
    charAt b 0 ≠ NUL := by
  cases b with
  | nil => exact absurd rfl hne
  | cons a p =>
    simp only [charAt, List.getD_cons_zero]
    exact (hb a (List.mem_cons_self _ _)).2.2

theorem loopPotential_running_nil (result : List Char) (cs : List (List Char)) :
    loopPotential (running result [] cs) = pipeSize cs := by
  simp [loopPotential, running, charAt_nil]

/-- The loop of `getResponse`, when the buffer and the pipe together hold the text `w` of
a line and then a terminator: it returns `w`, and the buffer keeps what followed the
terminator in the burst that held it. -/
theorem getResponseLoop_line (b : List Char) (cs : List (List Char))
    (result w : List Char) (t : Char) (rest : List Char) (fuel : Nat)
    (hch : Chunked cs) (hfl : b ++ cs.flatten = w ++ t :: rest) (hw : Clean w) (ht : IsTerm t)
    (hfuel : pipeSize cs + 1 < fuel) :
    ∃ p q cs', (p ++ t :: q) :: cs' <:+ b :: cs ∧ rest = q ++ cs'.flatten ∧
      getResponseLoop fuel (running result b cs) =
        { result := result ++ w, endOfLine := true, eof := false,
          buffer := cstr (dropTerm q), fromEngine := cs' } := by
  have ht' : t = '\n' ∨ t = '\r' ∨ t = NUL := by
    rcases ht with h | h
    · exact Or.inl h
    · exact Or.inr (Or.inl h)
  rcases clean_or_split b with hcl | ⟨p, x, q, hbq, hp, hx⟩
  · by_cases hne : b = []
    · subst hne
      obtain ⟨p, q, cs', h1, h2, h3⟩ :=
        getResponseLoop_line_nil cs result w t rest fuel hch (by simpa using hfl) hw ht (by omega)
      exact ⟨p, q, cs', List.IsSuffix.trans h1 (List.suffix_cons _ _), h2, h3⟩
    · obtain ⟨n, rfl⟩ : ∃ n, fuel = n + 1 := ⟨fuel - 1, by omega⟩
      obtain ⟨w', hw1, hw2⟩ := clean_prefix_split hcl ht' hfl
      have hw' : Clean w' := by
        rw [hw1] at hw
        exact (Clean.append_iff.mp hw).2
      rw [getResponseLoop_running,
        getResponseBody_noread result cs (charAt_zero_ne_of_clean hcl hne),
        scanPhase_clean _ hcl]
      obtain ⟨p, q, cs', h1, h2, h3⟩ :=
        getResponseLoop_line_nil cs (result ++ b) w' t rest n hch hw2 hw' ht (by omega)
      refine ⟨p, q, cs', List.IsSuffix.trans h1 (List.suffix_cons _ _), h2, ?_⟩
      have : ({ running result b cs with
          result := (running result b cs).result ++ (running result b cs).buffer,
          buffer := [] } : LoopState) = running (result ++ b) [] cs := rfl
      rw [this, h3, hw1, List.append_assoc]
  · obtain ⟨n, rfl⟩ : ∃ n, fuel = n + 1 := ⟨fuel - 1, by omega⟩
    rw [hbq, List.append_assoc, List.cons_append] at hfl
    obtain ⟨h1, h2, h3⟩ := first_stop_unique hp hw hx ht' hfl
    subst h1 h2
    have hhead : charAt b 0 ≠ NUL := by
      rw [hbq]; exact charAt_zero_ne_of_clean_append q hp ht
    rw [getResponseLoop_running, getResponseBody_noread result cs hhead,
      scanPhase_eol (running result b cs) hbq hp ht]
    refine ⟨p, q, cs, by rw [hbq], h3.symm, ?_⟩
    rw [getResponseLoop_of_endOfLine _ _ rfl]
    rfl

theorem getResponse_eq_loop (b : List Char) (cs : List (List Char)) :
    getResponse b cs =
      { result := (getResponseLoop (pipeSize cs + 2) (running [] b cs)).result,
        eof := (getResponseLoop (pipeSize cs + 2) (running [] b cs)).eof,
        buffer := (getResponseLoop (pipeSize cs + 2) (running [] b cs)).buffer,
        fromEngine := (getResponseLoop (pipeSize cs + 2) (running [] b cs)).fromEngine } := rfl

/-- One call of `getResponse`, when the buffer and the pipe together hold the text `w` of
a line and then a terminator `t`: the call returns `w` without `eof`; the pipe keeps the
bursts after the one that held `t`, and the buffer what followed `t` in that burst, less a
second terminator character right after `t`. -/
theorem getResponse_line (b : List Char) (cs : List (List Char)) (w : List Char) (t : Char)
    (rest : List Char) (hch : Chunked cs) (hfl : b ++ cs.flatten = w ++ t :: rest)
    (hw : Clean w) (ht : IsTerm t) :
    ∃ p q cs', (p ++ t :: q) :: cs' <:+ b :: cs ∧ rest = q ++ cs'.flatten ∧
      getResponse b cs =
        { result := w, eof := false, buffer := cstr (dropTerm q), fromEngine := cs' } := by
  obtain ⟨p, q, cs', h1, h2, h3⟩ :=
    getResponseLoop_line b cs [] w t rest (pipeSize cs + 2) hch hfl hw ht (by omega)
  refine ⟨p, q, cs', h1, h2, ?_⟩
  rw [getResponse_eq_loop, h3]
  rfl

/-- The loop of `getResponse` started on an empty buffer when the pipe holds no terminator:
everything is returned together with `eof`. -/
theorem getResponseLoop_eof_nil (cs : List (List Char)) :
    ∀ (result : List Char) (fuel : Nat),
      Chunked cs → Clean cs.flatten → pipeSize cs < fuel →
      getResponseLoop fuel (running result [] cs) =
        { result := result ++ cs.flatten, endOfLine := false, eof := true,
          buffer := [], fromEngine := [] } := by
  induction cs with
  | nil =>
    intro result fuel _ _ hfuel
    obtain ⟨n, rfl⟩ : ∃ n, fuel = n + 1 := ⟨fuel - 1, by omega⟩
    rw [getResponseLoop_running, getResponseBody_closed, getResponseLoop_of_eof _ _ rfl]
    simp
  | cons c cs1 ih =>
    intro result fuel hch hcl hfuel
    have hc := hch c (List.mem_cons_self _ _)
    have hch1 : Chunked cs1 := fun x hx => hch x (List.mem_cons_of_mem _ hx)
    obtain ⟨n, rfl⟩ : ∃ n, fuel = n + 1 := ⟨fuel - 1, by omega⟩
    rw [List.flatten_cons] at hcl
    have hcl' := Clean.append_iff.mp hcl
    rw [pipeSize_cons] at hfuel
    rw [getResponseLoop_running, getResponseBody_read result cs1 hc.1 hc.2,
      scanPhase_clean _ hcl'.1]
    have : ({ running result c cs1 with
        result := (running result c cs1).result ++ (running result c cs1).buffer,
        buffer := [] } : LoopState) = running (result ++ c) [] cs1 := rfl
    rw [this, ih (result ++ c) n hch1 hcl'.2 (by omega)]
    simp

/-- One call of `getResponse` when the buffer and the pipe hold no terminator: the call
returns all of it together with `eof`, and leaves the buffer and the pipe empty. -/
theorem getResponse_eof (b : List Char) (cs : List (List Char)) (hch : Chunked cs)
    (hcl : Clean (b ++ cs.flatten)) :
    getResponse b cs =
      { result := b ++ cs.flatten, eof := true, buffer := [], fromEngine := [] } := by
  have hcl' := Clean.append_iff.mp hcl
  rw [getResponse_eq_loop]
  by_cases hne : b = []
  · subst hne
    rw [getResponseLoop_eof_nil cs [] _ hch hcl'.2 (by omega)]
  · rw [getResponseLoop_running,
      getResponseBody_noread [] cs (charAt_zero_ne_of_clean hcl'.1 hne),
      scanPhase_clean _ hcl'.1]
    have : ({ running [] b cs with
        result := (running [] b cs).result ++ (running [] b cs).buffer,
        buffer := [] } : LoopState) = running ([] ++ b) [] cs := rfl
    rw [this, getResponseLoop_eof_nil cs ([] ++ b) _ hch hcl'.2 (by omega)]
    simp

/-! ## Streams of terminated lines -/

theorem Chunked.of_suffix {cs cs' : List (List Char)} (h : Chunked cs) (hs : cs' <:+ cs) :
    Chunked cs' :=
  fun c hc => h c (hs.subset hc)

theorem suffix_tail_of_cons_suffix {α : Type} {x b : α} {xs cs : List α}
    (h : x :: xs <:+ b :: cs) : xs <:+ cs := by
  rcases List.suffix_cons_iff.mp h with h1 | h1
  · simp only [List.cons.injEq] at h1
    rw [h1.2]
  · exact List.IsSuffix.trans (List.suffix_cons _ _) h1

theorem getLast?_of_suffix {b' seg : List Char} (hs : b' <:+ seg) (hne : b' ≠ []) :
    seg.getLast? = b'.getLast? := by
  obtain ⟨u, rfl⟩ := hs
  exact List.getLast?_append_of_ne_nil u hne

theorem NoSplit.next {b : List Char} {cs : List (List Char)} {seg b' : List Char}
    {cs' : List (List Char)} (h : NoSplit (b :: cs)) (hs : seg :: cs' <:+ b :: cs)
    (hb : b' <:+ seg) : NoSplit (b' :: cs') := by
  have h1 : NoSplit (seg :: cs') := List.Chain'.suffix h hs
  cases cs' with
  | nil => exact List.chain'_singleton _
  | cons y ys =>
    rw [NoSplit, List.chain'_cons] at h1 ⊢
    refine ⟨fun hsp => ?_, h1.2⟩
    apply h1.1
    refine ⟨?_, hsp.2⟩
    have hne : b' ≠ [] := by
      intro h0
      rw [h0] at hsp
      simp [SplitsCRLF] at hsp
    rw [getLast?_of_suffix hb hne]
    exact hsp.1

theorem dropTerm_suffix (q : List Char) : dropTerm q <:+ q := by
  unfold dropTerm
  exact List.drop_suffix _ _

theorem suffix_append_cons (p : List Char) (t : Char) (q : List Char) : q <:+ p ++ t :: q :=
  ⟨p ++ [t], by simp⟩

/-- A call of `getResponse` when a one-character terminator ends the line and what follows
does not start with another terminator character: exactly the line and its terminator
are consumed. -/
theorem getResponse_step_single (b : List Char) (cs : List (List Char)) (w : List Char)
    (t : Char) (rest : List Char) (hch : Chunked cs)
    (hfl : b ++ cs.flatten = w ++ t :: rest) (hw : Clean w) (ht : IsTerm t)
    (hrest : ∀ c, rest.head? = some c → ¬ IsTerm c) (hnul : ∀ c ∈ rest, c ≠ NUL) :
    ∃ b' cs', getResponse b cs = { result := w, eof := false, buffer := b', fromEngine := cs' } ∧
      b' ++ cs'.flatten = rest ∧ Chunked cs' ∧ (NoSplit (b :: cs) → NoSplit (b' :: cs')) := by
  obtain ⟨p, q, cs', h1, h2, h3⟩ := getResponse_line b cs w t rest hch hfl hw ht
  have hq : dropTerm q = q := by
    cases q with
    | nil => exact dropTerm_nil
    | cons c q =>
      apply dropTerm_cons_not
      apply hrest
      rw [h2]
      rfl
  have hqn : cstr q = q := by
    apply cstr_of_nulFree
    intro c hc
    exact hnul c (by rw [h2]; exact List.mem_append_left _ hc)
  refine ⟨q, cs', ?_, h2.symm, hch.of_suffix (suffix_tail_of_cons_suffix h1), fun hns => ?_⟩
  · rw [h3, hq, hqn]
  · exact hns.next h1 (suffix_append_cons p t q)

/-- A call of `getResponse` when `\r\n` ends the line and no read boundary cuts such a
pair: exactly the line and both terminator characters are consumed. -/
theorem getResponse_step_crlf (b : List Char) (cs : List (List Char)) (w : List Char)
    (rest : List Char) (hch : Chunked cs)
    (hfl : b ++ cs.flatten = w ++ '\r' :: '\n' :: rest) (hw : Clean w)
    (hnul : ∀ c ∈ rest, c ≠ NUL) (hns : NoSplit (b :: cs)) :
    ∃ b' cs', getResponse b cs = { result := w, eof := false, buffer := b', fromEngine := cs' } ∧
      b' ++ cs'.flatten = rest ∧ Chunked cs' ∧ NoSplit (b' :: cs') := by
  obtain ⟨p, q, cs', h1, h2, h3⟩ :=
    getResponse_line b cs w '\r' ('\n' :: rest) hch hfl hw (Or.inr rfl)
  have hch' : Chunked cs' := hch.of_suffix (suffix_tail_of_cons_suffix h1)
  cases q with
  | nil =>
    exfalso
    have hseg : NoSplit ((p ++ ['\r']) :: cs') := List.Chain'.suffix hns h1
    cases cs' with
    | nil => simp at h2
    | cons y ys =>
      have hy := hch' y (List.mem_cons_self _ _)
      cases y with
      | nil => exact hy.1 rfl
      | cons a y =>
        simp only [List.nil_append, List.flatten_cons, List.cons_append, List.cons.injEq] at h2
        rw [NoSplit, List.chain'_cons] at hseg
        apply hseg.1
        refine ⟨by simp, ?_⟩
        rw [← h2.1]
        rfl
  | cons c q =>
    simp only [List.cons_append, List.cons.injEq] at h2
    obtain ⟨hc, h2⟩ := h2
    subst hc
    have hq : dropTerm ('\n' :: q) = q := dropTerm_cons_term q (Or.inl rfl)
    have hqn : cstr q = q := by
      apply cstr_of_nulFree
      intro c hc
      exact hnul c (by rw [h2]; exact List.mem_append_left _ hc)
    refine ⟨q, cs', ?_, h2.symm, hch', ?_⟩
    · rw [h3, hq, hqn]
    · exact hns.next h1 ⟨p ++ ['\r', '\n'], by simp⟩

theorem getResponses_succ (n : Nat) (b : List Char) (cs : List (List Char)) :
    getResponses (n + 1) b cs =
      ((getResponse b cs).result, (getResponse b cs).eof) ::
        getResponses n (getResponse b cs).buffer (getResponse b cs).fromEngine := rfl

theorem streamOf_cons (t l : List Char) (ls : List (List Char)) :
    streamOf t (l :: ls) = l ++ t ++ streamOf t ls := by
  simp [streamOf]

theorem streamOf_nulFree (t : List Char) (ht : ∀ c ∈ t, c ≠ NUL) (lines : List (List Char))
    (hl : ∀ l ∈ lines, Clean l) : ∀ c ∈ streamOf t lines, c ≠ NUL := by
  induction lines with
  | nil => intro c hc; simp [streamOf] at hc
  | cons l ls ih =>
    intro c hc
    rw [streamOf_cons] at hc
    rcases List.mem_append.mp hc with hc | hc
    · rcases List.mem_append.mp hc with hc | hc
      · exact (hl l (List.mem_cons_self _ _) c hc).2.2
      · exact ht c hc
    · exact ih (fun l' hl' => hl l' (List.mem_cons_of_mem _ hl')) c hc

theorem streamOf_head_not_term (t : List Char) (ls : List (List Char))
    (hl : ∀ l ∈ ls, Clean l) (hne : ∀ l ∈ ls, l ≠ []) :
    ∀ c, (streamOf t ls).head? = some c → ¬ IsTerm c := by
  intro c hc
  cases ls with
  | nil => simp [streamOf] at hc
  | cons l ls =>
    rw [streamOf_cons] at hc
    have h1 := hne l (List.mem_cons_self _ _)
    cases l with
    | nil => exact absurd rfl h1
    | cons a l =>
      simp only [List.cons_append, List.head?_cons, Option.some.injEq] at hc
      subst hc
      have := hl _ (List.mem_cons_self _ _) a (List.mem_cons_self _ _)
      rintro (h | h)
      · exact this.1 h
      · exact this.2.1 h

theorem flatten_eq_nil_of_chunked {cs : List (List Char)} (hch : Chunked cs)
    (h : cs.flatten = []) : cs = [] := by
  cases cs with
  | nil => rfl
  | cons c cs =>
    exfalso
    have := hch c (List.mem_cons_self _ _)
    rw [List.flatten_cons, List.append_eq_nil] at h
    exact this.1 h.1

/-- Successive calls of `getResponse` on a stream of terminated lines, from any buffer
and pipe that together hold the stream. -/
theorem getResponses_streamOf (t : List Char)
    (ht : t = ['\n'] ∨ t = ['\r'] ∨ t = ['\r', '\n']) (lines : List (List Char)) :
    ∀ (b : List Char) (cs : List (List Char)), Chunked cs →
      b ++ cs.flatten = streamOf t lines → (∀ l ∈ lines, Clean l) →
      (t ≠ ['\r', '\n'] → ∀ l ∈ lines.tail, l ≠ []) →
      (t = ['\r', '\n'] → NoSplit (b :: cs)) →
      getResponses (lines.length + 1) b cs =
        lines.map (fun l => (l, false)) ++ [([], true)] := by
  have htn : ∀ c ∈ t, c ≠ NUL := by
    rcases ht with h | h | h <;> subst h <;> decide
  induction lines with
  | nil =>
    intro b cs hch hfl _ _ _
    simp only [streamOf, List.map_nil, List.flatten_nil, List.append_eq_nil] at hfl
    obtain ⟨rfl, hcs⟩ := hfl
    rw [flatten_eq_nil_of_chunked hch hcs]
    rfl
  | cons l ls ih =>
    intro b cs hch hfl hl hne hns
    have hl' : ∀ l' ∈ ls, Clean l' := fun l' h => hl l' (List.mem_cons_of_mem _ h)
    have hnul := streamOf_nulFree t htn ls hl'
    rw [streamOf_cons] at hfl
    have key : ∃ b' cs', getResponse b cs =
        { result := l, eof := false, buffer := b', fromEngine := cs' } ∧
        b' ++ cs'.flatten = streamOf t ls ∧ Chunked cs' ∧
        (t = ['\r', '\n'] → NoSplit (b' :: cs')) := by
      by_cases hcr : t = ['\r', '\n']
      · subst hcr
        obtain ⟨b', cs', h1, h2, h3, h4⟩ := getResponse_step_crlf b cs l (streamOf _ ls) hch
          (by simpa using hfl) (hl l (List.mem_cons_self _ _)) hnul (hns rfl)
        exact ⟨b', cs', h1, h2, h3, fun _ => h4⟩
      · obtain ⟨t0, rfl, ht0⟩ : ∃ t0, t = [t0] ∧ IsTerm t0 := by
          rcases ht with h | h | h
          · exact ⟨'\n', h, Or.inl rfl⟩
          · exact ⟨'\r', h, Or.inr rfl⟩
          · exact absurd h hcr
        obtain ⟨b', cs', h1, h2, h3, _⟩ := getResponse_step_single b cs l t0 (streamOf _ ls) hch
          (by simpa using hfl) (hl l (List.mem_cons_self _ _)) ht0
          (streamOf_head_not_term _ ls hl' (hne hcr)) hnul
        exact ⟨b', cs', h1, h2, h3, fun h => absurd h hcr⟩
    obtain ⟨b', cs', h1, h2, h3, h4⟩ := key
    rw [List.length_cons, getResponses_succ, h1]
    simp only [List.map_cons, List.cons_append, List.cons.injEq, true_and]
    apply ih b' cs' h3 h2 hl' _ h4
    intro hcr l' hl'
    exact hne hcr l' (List.mem_of_mem_tail hl')

/-! ## C1: reading a stream of lines -/

theorem NoSplit.cons_nil {cs : List (List Char)} (h : NoSplit cs) : NoSplit ([] :: cs) := by
  cases cs with
  | nil => exact List.chain'_singleton _
  | cons y ys =>
    rw [NoSplit, List.chain'_cons]
    exact ⟨fun hsp => by simp [SplitsCRLF] at hsp, h⟩

/-- C1 (amended): from an empty pending buffer, for each terminator `t` among `\n`, `\r`
and `\r\n`, every list of `N` lines free of `\n`, `\r` and NUL, and every division of the
stream `line1 t ... lineN t` into physical reads (non-empty, no longer than the buffer
capacity), the first `N` calls of `getResponse` return the lines in order with `eof = false`
and call `N + 1` returns the empty text with `eof = true`, provided that for `\r\n` no
read boundary falls between the `\r` and the `\n` of a terminator, and that for `\n` and
`\r` every line after the first is non-empty. -/
theorem getResponse_reads_lines (t : List Char)
    (ht : t = ['\n'] ∨ t = ['\r'] ∨ t = ['\r', '\n']) (lines : List (List Char))
    (hl : ∀ l ∈ lines, Clean l) (chunks : List (List Char)) (hch : Chunked chunks)
    (hfl : chunks.flatten = streamOf t lines)
    (hne : t ≠ ['\r', '\n'] → ∀ l ∈ lines.tail, l ≠ [])
    (hns : t = ['\r', '\n'] → NoSplit chunks) :
    getResponses (lines.length + 1) [] chunks =
      lines.map (fun l => (l, false)) ++ [([], true)] :=
  getResponses_streamOf t ht lines [] chunks hch (by simpa using hfl) hl hne
    (fun h => (hns h).cons_nil)

/-- C1, witness: the lines `ab` and `c` ended by `\r\n`, read as `ab\r\n`, `c`, `\r\n`. -/
theorem getResponse_reads_lines_witness :
    getResponses 3 [] ["ab\r\n".toList, "c".toList, "\r\n".toList] =
      [("ab".toList, false), ("c".toList, false), ([], true)] :=
  getResponse_reads_lines ['\r', '\n'] (Or.inr (Or.inr rfl)) ["ab".toList, "c".toList]
    (by decide) ["ab\r\n".toList, "c".toList, "\r\n".toList] (by decide) (by decide)
    (by decide) (fun _ => by simp [NoSplit, SplitsCRLF])

/-- C1, counterexample: the one line `a` ended by `\r\n` and read as `a\r` then `\n`
meets every condition of the claim, yet the second call returns an empty line with
`eof = false`; and of the three lines `a`, empty, `b` ended by `\n` and read at once, the
second call returns `b`, not the empty line. -/
theorem getResponse_reads_lines_counterexample :
    (Clean ['a'] ∧ Chunked [['a', '\r'], ['\n']] ∧
      [['a', '\r'], ['\n']].flatten = streamOf ['\r', '\n'] [['a']] ∧
      getResponses 2 [] [['a', '\r'], ['\n']] = [(['a'], false), ([], false)]) ∧
    ((∀ l ∈ [['a'], [], ['b']], Clean l) ∧ Chunked [['a', '\n', '\n', 'b', '\n']] ∧
      [['a', '\n', '\n', 'b', '\n']].flatten = streamOf ['\n'] [['a'], [], ['b']] ∧
      getResponses 4 [] [['a', '\n', '\n', 'b', '\n']] =
        [(['a'], false), (['b'], false), ([], true), ([], true)]) := by
  decide

/-! ## C2: a line split across physical reads -/

theorem getResponseBody_read_any (result : List Char) {c : List Char} (cs : List (List Char))
    (hc : c ≠ []) :
    getResponseBody (running result [] (c :: cs)) =
      scanPhase (running result (c.take MAXBUFF) (afterRead c cs)) := by
  have hr : readPhase (running result [] (c :: cs)) =
      running result (c.take MAXBUFF) (afterRead c cs) := by
    have h0 : ¬ c.length = 0 := by
      intro h; exact hc (List.length_eq_zero.mp h)
    have h1 : ¬ MAXBUFF = 0 := by decide
    simp [readPhase, running, charAt_nil, ReadFile, afterRead, h0, h1]
  rw [getResponseBody_eq, hr]
  rfl

theorem take_append_afterRead (c : List Char) (cs : List (List Char)) :
    c.take MAXBUFF ++ (afterRead c cs).flatten = c ++ cs.flatten := by
  unfold afterRead
  split_ifs with h
  · rw [List.take_of_length_le h]
  · rw [List.flatten_cons, ← List.append_assoc, List.take_append_drop]

theorem pipeSize_afterRead_lt {c : List Char} (cs : List (List Char)) (hc : c ≠ []) :
    pipeSize (afterRead c cs) < pipeSize (c :: cs) := by
  have h0 : 0 < c.length := List.length_pos.mpr hc
  unfold afterRead
  rw [pipeSize_cons]
  split_ifs with h
  · omega
  · rw [pipeSize_cons, List.length_drop]
    simp only [MAXBUFF] at h ⊢
    omega

theorem afterRead_nonempty {c : List Char} {cs : List (List Char)}
    (hcs : ∀ x ∈ cs, x ≠ []) : ∀ x ∈ afterRead c cs, x ≠ [] := by
  unfold afterRead
  split_ifs with h
  · exact hcs
  · intro x hx
    rcases List.mem_cons.mp hx with hx | hx
    · rw [hx]
      intro h0
      have := congrArg List.length h0
      rw [List.length_drop] at this
      simp at this
      omega
    · exact hcs x hx

/-- The loop of `getResponse` on an empty buffer and bursts of any length: when the pipe
holds the text `w` of a line and then a terminator, the loop returns `w`. -/
theorem getResponseLoop_line_any (n : Nat) :
    ∀ (cs : List (List Char)), pipeSize cs ≤ n →
      ∀ (result w : List Char) (t : Char) (rest : List Char) (fuel : Nat),
      (∀ c ∈ cs, c ≠ []) → cs.flatten = w ++ t :: rest → Clean w → IsTerm t →
      pipeSize cs < fuel →
      ∃ q cs', rest = q ++ cs'.flatten ∧ (∀ c ∈ cs', c ≠ []) ∧
        getResponseLoop fuel (running result [] cs) =
          { result := result ++ w, endOfLine := true, eof := false,
            buffer := cstr (dropTerm q), fromEngine := cs' } := by
  induction n with
  | zero =>
    intro cs hn result w t rest fuel _ hfl
    cases cs with
    | nil => simp at hfl
    | cons c cs1 => rw [pipeSize_cons] at hn; omega
  | succ n ih =>
    intro cs hn result w t rest fuel hne hfl hw ht hfuel
    cases cs with
    | nil => simp at hfl
    | cons c cs1 =>
      have hc := hne c (List.mem_cons_self _ _)
      have hne1 : ∀ x ∈ cs1, x ≠ [] := fun x hx => hne x (List.mem_cons_of_mem _ hx)
      obtain ⟨m, rfl⟩ : ∃ m, fuel = m + 1 := ⟨fuel - 1, by omega⟩
      rw [getResponseLoop_running, getResponseBody_read_any result cs1 hc]
      have ht' : t = '\n' ∨ t = '\r' ∨ t = NUL := by
        rcases ht with h | h
        · exact Or.inl h
        · exact Or.inr (Or.inl h)
      rw [List.flatten_cons, ← take_append_afterRead] at hfl
      have hlt := pipeSize_afterRead_lt cs1 hc
      rcases clean_or_split (c.take MAXBUFF) with hcl | ⟨p, x, q, hcq, hp, hx⟩
      · obtain ⟨w', hw1, hw2⟩ := clean_prefix_split hcl ht' hfl
        rw [scanPhase_clean _ hcl]
        have hw' : Clean w' := by
          rw [hw1] at hw
          exact (Clean.append_iff.mp hw).2
        obtain ⟨q, cs', h2, h3, h4⟩ := ih (afterRead c cs1) (by omega)
          (result ++ c.take MAXBUFF) w' t rest m (afterRead_nonempty hne1) hw2 hw' ht (by omega)
        refine ⟨q, cs', h2, h3, ?_⟩
        have : ({ running result (c.take MAXBUFF) (afterRead c cs1) with
            result := (running result (c.take MAXBUFF) (afterRead c cs1)).result ++
              (running result (c.take MAXBUFF) (afterRead c cs1)).buffer,
            buffer := [] } : LoopState) =
            running (result ++ c.take MAXBUFF) [] (afterRead c cs1) := rfl
        rw [this, h4, hw1, List.append_assoc]
      · rw [hcq, List.append_assoc, List.cons_append] at hfl
        obtain ⟨h1, h2, h3⟩ := first_stop_unique hp hw hx ht' hfl
        subst h1 h2
        rw [scanPhase_eol (running result (c.take MAXBUFF) (afterRead c cs1)) hcq hp ht]
        refine ⟨q, afterRead c cs1, h3.symm, afterRead_nonempty hne1, ?_⟩
        rw [getResponseLoop_of_endOfLine _ _ rfl]
        rfl

/-- C2: for every text `w` free of `\n`, `\r` and NUL and every division of `w` followed
by `\n` into non-empty physical reads (two or more, or just one; of any length), a
single call of `getResponse` from an empty pending buffer returns `w` with `eof = false`
and leaves the pending buffer, and the pipe, empty. -/
theorem getResponse_reassembles (w : List Char) (hw : Clean w) (chunks : List (List Char))
    (hne : ∀ c ∈ chunks, c ≠ []) (hfl : chunks.flatten = w ++ ['\n']) :
    getResponse [] chunks = { result := w, eof := false, buffer := [], fromEngine := [] } := by
  obtain ⟨q, cs', h2, h3, h4⟩ := getResponseLoop_line_any (pipeSize chunks) chunks (le_refl _)
    [] w '\n' [] (pipeSize chunks + 2) hne hfl hw (Or.inl rfl) (by omega)
  have hq := List.append_eq_nil.mp h2.symm
  have hcs : cs' = [] := by
    cases cs' with
    | nil => rfl
    | cons y ys =>
      exfalso
      have := hq.2
      rw [List.flatten_cons, List.append_eq_nil] at this
      exact h3 y (List.mem_cons_self _ _) this.1
  rw [getResponse_eq_loop, h4, hq.1, hcs]
  rfl

/-- C2, witness: `read` then `y\n` is reassembled into `ready`. -/
theorem getResponse_reassembles_witness :
    getResponse [] ["read".toList, "y\n".toList] =
      { result := "ready".toList, eof := false, buffer := [], fromEngine := [] } :=
  getResponse_reassembles "ready".toList (by decide) ["read".toList, "y\n".toList]
    (by decide) (by decide)

/-! ## Runs of calls -/

theorem nthResponse_succ (n : Nat) (b : List Char) (cs : List (List Char)) :
    nthResponse (n + 1) b cs =
      nthResponse n (getResponse b cs).buffer (getResponse b cs).fromEngine := rfl

theorem nthResponse_zero (b : List Char) (cs : List (List Char)) :
    nthResponse 0 b cs = getResponse b cs := rfl

/-- Calls that do not report `eof` each consume a character, so there are at most
`readerSize` of them in a row. -/
theorem eof_false_bound (n : Nat) :
    ∀ (b : List Char) (cs : List (List Char)),
      (∀ m < n, (nthResponse m b cs).eof = false) → n ≤ readerSize b cs := by
  induction n with
  | zero => intro b cs _; exact Nat.zero_le _
  | succ n ih =>
    intro b cs h
    have h0 := getResponse_size_lt b cs (h 0 (Nat.succ_pos _))
    have := ih (getResponse b cs).buffer (getResponse b cs).fromEngine
      (fun m hm => by rw [← nthResponse_succ]; exact h (m + 1) (by omega))
    omega

theorem exists_eof (b : List Char) (cs : List (List Char)) :
    ∃ n, (nthResponse n b cs).eof = true := by
  by_contra hcon
  have h : ∀ m < readerSize b cs + 1, (nthResponse m b cs).eof = false := by
    intro m _
    have := fun h => hcon ⟨m, h⟩
    simpa using this
  have := eof_false_bound _ b cs h
  omega

/-- Every run of calls reaches a first call that reports `eof` or satisfies `Q`. -/
theorem exists_first_stop (b : List Char) (cs : List (List Char)) (Q : Response → Prop) :
    ∃ n, ((nthResponse n b cs).eof = true ∨ Q (nthResponse n b cs)) ∧
      ∀ m < n, (nthResponse m b cs).eof = false ∧ ¬ Q (nthResponse m b cs) := by
  classical
  have hex : ∃ n, (nthResponse n b cs).eof = true ∨ Q (nthResponse n b cs) := by
    obtain ⟨n, hn⟩ := exists_eof b cs
    exact ⟨n, Or.inl hn⟩
  refine ⟨Nat.find hex, Nat.find_spec hex, fun m hm => ?_⟩
  have := Nat.find_min hex hm
  simp only [not_or] at this
  exact ⟨by simpa using this.1, this.2⟩

/-! ## C3: the identity line -/

theorem find_eq_zero_iff (s pat : List Char) :
    (find s pat == some 0) = true ↔ cstr pat <+: s := by
  rw [← List.isPrefixOf_iff_prefix]
  cases s with
  | nil =>
    unfold find
    by_cases h : (cstr pat).isPrefixOf [] = true
    · simp [h]
    · simp [h]
  | cons a t =>
    unfold find
    by_cases h : (cstr pat).isPrefixOf (a :: t) = true
    · simp [h]
    · simp only [h, Bool.false_eq_true, if_false, iff_false]
      cases find t pat <;> simp

theorem cstr_id_prefix_eq : cstr id_prefix = id_prefix := by decide

theorem setIdentityBody_found (identity b : List Char) (cs : List (List Char))
    (he : (getResponse b cs).eof = false) (hp : id_prefix <+: (getResponse b cs).result) :
    setIdentityBody (idState identity b cs) =
      { identity := (getResponse b cs).result.drop 8, identitySet := true, eof := false,
        buffer := (getResponse b cs).buffer, fromEngine := (getResponse b cs).fromEngine } := by
  have hf : (find (getResponse b cs).result id_prefix == some 0) = true := by
    rw [find_eq_zero_iff, cstr_id_prefix_eq]; exact hp
  unfold setIdentityBody
  simp only [idState, he, hf, Bool.not_false, if_true, cstr_id_prefix_eq]
  rfl

theorem setIdentityBody_other (identity b : List Char) (cs : List (List Char))
    (he : (getResponse b cs).eof = false) (hp : ¬ id_prefix <+: (getResponse b cs).result) :
    setIdentityBody (idState identity b cs) =
      idState identity (getResponse b cs).buffer (getResponse b cs).fromEngine := by
  have hf : ¬ (find (getResponse b cs).result id_prefix == some 0) = true := by
    rw [find_eq_zero_iff, cstr_id_prefix_eq]; exact hp
  unfold setIdentityBody
  simp only [idState, he, hf, Bool.not_false, if_true, if_false, Bool.false_eq_true]

theorem setIdentityBody_eof (identity b : List Char) (cs : List (List Char))
    (he : (getResponse b cs).eof = true) :
    setIdentityBody (idState identity b cs) =
      { identity := identity, identitySet := false, eof := true,
        buffer := (getResponse b cs).buffer, fromEngine := (getResponse b cs).fromEngine } := by
  unfold setIdentityBody
  simp only [idState, he, Bool.not_true, Bool.false_eq_true, if_false]

theorem setIdentityLoop_of_set (fuel : Nat) (s : IdentityState) (h : s.identitySet = true) :
    setIdentityLoop fuel s = s := by
  cases fuel with
  | zero => rfl
  | succ n => unfold setIdentityLoop; simp [h]

theorem setIdentityLoop_of_eof (fuel : Nat) (s : IdentityState) (h : s.eof = true) :
    setIdentityLoop fuel s = s := by
  cases fuel with
  | zero => rfl
  | succ n => unfold setIdentityLoop; simp [h]

theorem setIdentityLoop_idState (fuel : Nat) (identity b : List Char) (cs : List (List Char)) :
    setIdentityLoop (fuel + 1) (idState identity b cs) =
      setIdentityLoop fuel (setIdentityBody (idState identity b cs)) := rfl

/-- The loop of `setIdentity` when call `n` is the first to return a line with the
prefix and no call before it reports `eof`. -/
theorem setIdentityLoop_found (n : Nat) :
    ∀ (identity b : List Char) (cs : List (List Char)) (fuel : Nat), n ≤ fuel →
      (∀ m ≤ n, (nthResponse m b cs).eof = false) →
      id_prefix <+: (nthResponse n b cs).result →
      (∀ m < n, ¬ id_prefix <+: (nthResponse m b cs).result) →
      setIdentityLoop fuel (setIdentityBody (idState identity b cs)) =
        { identity := (nthResponse n b cs).result.drop 8, identitySet := true, eof := false,
          buffer := (nthResponse n b cs).buffer,
          fromEngine := (nthResponse n b cs).fromEngine } := by
  induction n with
  | zero =>
    intro identity b cs fuel _ he hp _
    rw [setIdentityBody_found identity b cs (he 0 (le_refl _)) hp,
      setIdentityLoop_of_set _ _ rfl]
    rfl
  | succ n ih =>
    intro identity b cs fuel hfuel he hp hnp
    obtain ⟨f, rfl⟩ : ∃ f, fuel = f + 1 := ⟨fuel - 1, by omega⟩
    rw [setIdentityBody_other identity b cs (he 0 (Nat.zero_le _)) (hnp 0 (Nat.succ_pos _)),
      setIdentityLoop_idState]
    rw [ih identity _ _ f (by omega)
      (fun m hm => by rw [← nthResponse_succ]; exact he (m + 1) (by omega))
      (by rw [← nthResponse_succ]; exact hp)
      (fun m hm => by rw [← nthResponse_succ]; exact hnp (m + 1) (by omega))]
    rfl

/-- The loop of `setIdentity` when call `n` reports `eof` and no call before it returned
a line with the prefix. -/
theorem setIdentityLoop_eof (n : Nat) :
    ∀ (identity b : List Char) (cs : List (List Char)) (fuel : Nat), n ≤ fuel →
      (∀ m < n, (nthResponse m b cs).eof = false ∧
        ¬ id_prefix <+: (nthResponse m b cs).result) →
      (nthResponse n b cs).eof = true →
      setIdentityLoop fuel (setIdentityBody (idState identity b cs)) =
        { identity := identity, identitySet := false, eof := true,
          buffer := (nthResponse n b cs).buffer,
          fromEngine := (nthResponse n b cs).fromEngine } := by
  induction n with
  | zero =>
    intro identity b cs fuel _ _ he
    rw [setIdentityBody_eof identity b cs he, setIdentityLoop_of_eof _ _ rfl]
    rfl
  | succ n ih =>
    intro identity b cs fuel hfuel hm he
    obtain ⟨f, rfl⟩ : ∃ f, fuel = f + 1 := ⟨fuel - 1, by omega⟩
    have h0 := hm 0 (Nat.succ_pos _)
    rw [setIdentityBody_other identity b cs h0.1 h0.2, setIdentityLoop_idState]
    rw [ih identity _ _ f (by omega)
      (fun m hm' => by rw [← nthResponse_succ]; exact hm (m + 1) (by omega))
      (by rw [← nthResponse_succ]; exact he)]
    rfl

theorem setIdentity_eq (g : Globals) (e : Engine) :
    setIdentity g e =
      ((setIdentityLoop (readerSize g.buffer e.fromEngine + 1)
          (setIdentityBody (idState e.identity g.buffer e.fromEngine))).identitySet,
        { g with buffer := (setIdentityLoop (readerSize g.buffer e.fromEngine + 1)
          (setIdentityBody (idState e.identity g.buffer e.fromEngine))).buffer },
        { e with
          identity := (setIdentityLoop (readerSize g.buffer e.fromEngine + 1)
            (setIdentityBody (idState e.identity g.buffer e.fromEngine))).identity
          fromEngine := (setIdentityLoop (readerSize g.buffer e.fromEngine + 1)
            (setIdentityBody (idState e.identity g.buffer e.fromEngine))).fromEngine }) := rfl

/-- `setIdentity` when call `n` is the first to return a line with the prefix. -/
theorem setIdentity_found (g : Globals) (e : Engine) (n : Nat)
    (he : ∀ m ≤ n, (nthResponse m g.buffer e.fromEngine).eof = false)
    (hp : id_prefix <+: (nthResponse n g.buffer e.fromEngine).result)
    (hnp : ∀ m < n, ¬ id_prefix <+: (nthResponse m g.buffer e.fromEngine).result) :
    setIdentity g e =
      (true, { g with buffer := (nthResponse n g.buffer e.fromEngine).buffer },
        { e with identity := (nthResponse n g.buffer e.fromEngine).result.drop 8
                 fromEngine := (nthResponse n g.buffer e.fromEngine).fromEngine }) := by
  have hb := eof_false_bound (n + 1) g.buffer e.fromEngine (fun m hm => he m (by omega))
  rw [setIdentity_eq, setIdentityLoop_found n e.identity g.buffer e.fromEngine _ (by omega) he hp hnp]

/-- `setIdentity` when call `n` reports `eof` before any line with the prefix. -/
theorem setIdentity_eof (g : Globals) (e : Engine) (n : Nat)
    (hm : ∀ m < n, (nthResponse m g.buffer e.fromEngine).eof = false ∧
      ¬ id_prefix <+: (nthResponse m g.buffer e.fromEngine).result)
    (he : (nthResponse n g.buffer e.fromEngine).eof = true) :
    setIdentity g e =
      (false, { g with buffer := (nthResponse n g.buffer e.fromEngine).buffer },
        { e with fromEngine := (nthResponse n g.buffer e.fromEngine).fromEngine }) := by
  have hb := eof_false_bound n g.buffer e.fromEngine (fun m h => (hm m h).1)
  rw [setIdentity_eq, setIdentityLoop_eof n e.identity g.buffer e.fromEngine _ (by omega) hm he]

/-- C3: `setIdentity` returns true if and only if some call of `getResponse`, with no
`eof` up to and including it, returns a line that begins with `id name `; and when call
`n` is the first such call, `identity` becomes the rest of that line after the 8
characters of the prefix, and the static buffer and the inbound stream are left exactly
as call `n` left them: the earlier lines are gone and nothing after that line is
consumed.  Nothing else of the state changes. -/
theorem setIdentity_spec (g : Globals) (e : Engine) :
    ((setIdentity g e).1 = true ↔
      ∃ n, (∀ m ≤ n, (nthResponse m g.buffer e.fromEngine).eof = false) ∧
        id_prefix <+: (nthResponse n g.buffer e.fromEngine).result) ∧
    (∀ n, (∀ m ≤ n, (nthResponse m g.buffer e.fromEngine).eof = false) →
      id_prefix <+: (nthResponse n g.buffer e.fromEngine).result →
      (∀ m < n, ¬ id_prefix <+: (nthResponse m g.buffer e.fromEngine).result) →
      setIdentity g e =
        (true, { g with buffer := (nthResponse n g.buffer e.fromEngine).buffer },
          { e with identity := (nthResponse n g.buffer e.fromEngine).result.drop 8
                   fromEngine := (nthResponse n g.buffer e.fromEngine).fromEngine })) := by
  refine ⟨?_, fun n he hp hnp => setIdentity_found g e n he hp hnp⟩
  obtain ⟨n0, hstop, hmin⟩ := exists_first_stop g.buffer e.fromEngine
    (fun r => id_prefix <+: r.result)
  by_cases he0 : (nthResponse n0 g.buffer e.fromEngine).eof = true
  · rw [setIdentity_eof g e n0 hmin he0]
    simp only [Bool.false_eq_true, false_iff, not_exists, not_and]
    intro n he hp
    rcases Nat.lt_or_ge n n0 with hlt | hge
    · exact (hmin n hlt).2 hp
    · have := he n0 hge
      rw [he0] at this
      exact absurd this (by simp)
  · have he0' : (nthResponse n0 g.buffer e.fromEngine).eof = false := by simpa using he0
    have hp0 : id_prefix <+: (nthResponse n0 g.buffer e.fromEngine).result := by
      rcases hstop with h | h
      · exact absurd h he0
      · exact h
    have hall : ∀ m ≤ n0, (nthResponse m g.buffer e.fromEngine).eof = false := by
      intro m hm
      rcases Nat.lt_or_ge m n0 with hlt | hge
      · exact (hmin m hlt).1
      · have : m = n0 := by omega
        rw [this]; exact he0'
    rw [setIdentity_found g e n0 hall hp0 (fun m hm => (hmin m hm).2)]
    simp only [true_iff]
    exact ⟨n0, hall, hp0⟩

/-- C3, witness: after the line `info`, the line `id name Stockfish` (split across two
reads) sets the identity, and the line `uciok` stays in the buffer. -/
theorem setIdentity_spec_witness :
    setIdentity { buffer := [], cerr := [] }
        { identity := [], searchDepth := 0, variations := 0, toEngine := [],
          fromEngine := ["info\nid name Stock".toList, "fish\nuciok\n".toList] } =
      (true, { buffer := "uciok\n".toList, cerr := [] },
        { identity := "Stockfish".toList, searchDepth := 0, variations := 0, toEngine := [],
          fromEngine := [] }) :=
  (setIdentity_spec { buffer := [], cerr := [] }
      { identity := [], searchDepth := 0, variations := 0, toEngine := [],
        fromEngine := ["info\nid name Stock".toList, "fish\nuciok\n".toList] }).2 1
    (by decide) (by decide) (by decide)

/-! ## C4: waiting for a response -/

theorem cstr_nulFree (s : List Char) : NulFree (cstr s) := by
  intro c hc
  have := List.mem_takeWhile_imp hc
  simpa using this

theorem take_length_takeWhile (p : Char → Bool) (s : List Char) :
    s.take (s.takeWhile p).length = s.takeWhile p := by
  induction s with
  | nil => rfl
  | cons a s ih =>
    by_cases h : p a = true
    · rw [List.takeWhile_cons_of_pos h, List.length_cons, List.take_succ_cons, ih]
    · rw [List.takeWhile_cons_of_neg h]
      rfl

theorem take_scan_nulFree (s : List Char) : NulFree (s.take (scan s)) := by
  intro c hc
  unfold scan at hc
  rw [take_length_takeWhile] at hc
  have := List.mem_takeWhile_imp hc
  simp only [Bool.and_eq_true, bne_iff_ne, ne_eq] at this
  exact this.1.1

theorem NulFree.append {u v : List Char} (hu : NulFree u) (hv : NulFree v) :
    NulFree (u ++ v) := by
  intro c hc
  rcases List.mem_append.mp hc with h | h
  · exact hu c h
  · exact hv c h

theorem scanPhase_result_nulFree (s : LoopState) (h : NulFree s.result) :
    NulFree (scanPhase s).result := by
  unfold scanPhase
  simp only
  by_cases hc : (charAt s.buffer (scan s.buffer) == '\n' ||
      charAt s.buffer (scan s.buffer) == '\r') = true
  · rw [if_pos hc]
    exact h.append (take_scan_nulFree _)
  · rw [if_neg hc]
    exact h.append (cstr_nulFree _)

theorem readPhase_result (s : LoopState) : (readPhase s).result = s.result := by
  unfold readPhase
  split_ifs <;> rfl

theorem getResponseBody_result_nulFree (s : LoopState) (h : NulFree s.result) :
    NulFree (getResponseBody s).result := by
  rw [getResponseBody_eq]
  have h' : NulFree (readPhase s).result := by rw [readPhase_result]; exact h
  split_ifs
  · exact scanPhase_result_nulFree _ h'
  · exact h'

theorem getResponseLoop_result_nulFree (fuel : Nat) :
    ∀ (s : LoopState), NulFree s.result → NulFree (getResponseLoop fuel s).result := by
  induction fuel with
  | zero => intro s h; exact h
  | succ n ih =>
    intro s h
    unfold getResponseLoop
    split_ifs
    · exact ih _ (getResponseBody_result_nulFree s h)
    · exact h

/-- The text that `getResponse` returns never holds a NUL. -/
theorem getResponse_result_nulFree (b : List Char) (cs : List (List Char)) :
    NulFree (getResponse b cs).result :=
  getResponseLoop_result_nulFree _ _ (by intro c hc; simp at hc)

theorem nthResponse_result_nulFree (n : Nat) :
    ∀ (b : List Char) (cs : List (List Char)), NulFree (nthResponse n b cs).result := by
  induction n with
  | zero => intro b cs; exact getResponse_result_nulFree b cs
  | succ n ih => intro b cs; exact ih _ _

/-- For a C string `str`, `strcmp(str, response.c_str()) == 0` says that the response
returned by `getResponse` is `str`. -/
theorem strcmpEq_nthResponse {str : List Char} (hs : NulFree str) (n : Nat) (b : List Char)
    (cs : List (List Char)) :
    strcmpEq str (nthResponse n b cs).result = true ↔ (nthResponse n b cs).result = str := by
  unfold strcmpEq
  rw [cstr_of_nulFree hs, cstr_of_nulFree (nthResponse_result_nulFree n b cs)]
  simp only [beq_iff_eq]
  exact eq_comm

theorem waitForResponseLoop_of_stop (str : List Char) (fuel : Nat) (r : Response)
    (h : r.eof = true ∨ strcmpEq str r.result = true) :
    waitForResponseLoop str fuel r = r := by
  cases fuel with
  | zero => rfl
  | succ n =>
    unfold waitForResponseLoop
    rcases h with h | h <;> simp [h]

/-- The loop of `waitForResponse` returns the first response that reports `eof` or
compares equal to `str`. -/
theorem waitForResponseLoop_stop (str : List Char) (n : Nat) :
    ∀ (b : List Char) (cs : List (List Char)) (fuel : Nat), n ≤ fuel →
      (∀ m < n, (nthResponse m b cs).eof = false ∧
        ¬ strcmpEq str (nthResponse m b cs).result = true) →
      ((nthResponse n b cs).eof = true ∨ strcmpEq str (nthResponse n b cs).result = true) →
      waitForResponseLoop str fuel (getResponse b cs) = nthResponse n b cs := by
  induction n with
  | zero =>
    intro b cs fuel _ _ h
    exact waitForResponseLoop_of_stop str fuel _ h
  | succ n ih =>
    intro b cs fuel hfuel hm h
    obtain ⟨f, rfl⟩ : ∃ f, fuel = f + 1 := ⟨fuel - 1, by omega⟩
    have h0 := hm 0 (Nat.succ_pos _)
    rw [nthResponse_zero] at h0
    unfold waitForResponseLoop
    have hc : (!strcmpEq str (getResponse b cs).result && !(getResponse b cs).eof) = true := by
      simp [h0.1, h0.2]
    rw [if_pos hc, nthResponse_succ]
    exact ih _ _ f (by omega)
      (fun m hm' => by rw [← nthResponse_succ]; exact hm (m + 1) (by omega))
      (by rw [← nthResponse_succ]; exact h)

/-- `waitForResponse` in terms of the first call that reports `eof` or returns `str`. -/
theorem waitForResponse_stop (g : Globals) (e : Engine) (str : List Char) (n : Nat)
    (hm : ∀ m < n, (nthResponse m g.buffer e.fromEngine).eof = false ∧
      ¬ strcmpEq str (nthResponse m g.buffer e.fromEngine).result = true)
    (h : (nthResponse n g.buffer e.fromEngine).eof = true ∨
      strcmpEq str (nthResponse n g.buffer e.fromEngine).result = true) :
    waitForResponse g e str =
      (strcmpEq str (nthResponse n g.buffer e.fromEngine).result,
        { g with buffer := (nthResponse n g.buffer e.fromEngine).buffer },
        { e with fromEngine := (nthResponse n g.buffer e.fromEngine).fromEngine }) := by
  have hb := eof_false_bound n g.buffer e.fromEngine (fun m h' => (hm m h').1)
  unfold waitForResponse
  simp only
  rw [waitForResponseLoop_stop str n g.buffer e.fromEngine _ (by omega) hm h]

/-- C4, the code at the failing input: when the stream is the unterminated text `uciok`
followed by end of stream, the only call of `getResponse` returns `uciok` together with
`eof = true`, and `waitForResponse("uciok")` returns true. -/
theorem waitForResponse_true_at_eof :
    getResponses 1 [] ["uciok".toList] = [("uciok".toList, true)] ∧
    (waitForResponse { buffer := [], cerr := [] }
        { identity := [], searchDepth := 0, variations := 0, toEngine := [],
          fromEngine := ["uciok".toList] } "uciok".toList).1 = true := by
  decide

/-! ## C5: checkIsReady -/

theorem send_toEngine (e : Engine) (str : List Char) (h : NulFree str) :
    send e str = { e with toEngine := e.toEngine ++ str ++ ['\n'] } := by
  unfold send
  rw [cstr_of_nulFree h]

/-- C5: `checkIsReady` writes exactly `isready` and a newline, makes exactly one call of
`getResponse`, and returns true if and only if that call returned `readyok` without
`eof`.  So when the pending input is a line `l`, a terminator, and further input `rest`,
the result is true exactly when `l` is `readyok`, and all of `rest` is left pending: a
`readyok` line that comes later is neither looked for nor consumed. -/
theorem checkIsReady_one_line (g : Globals) (e : Engine) :
    (((checkIsReady g e).1 = true ↔
        (getResponse g.buffer e.fromEngine).eof = false ∧
          (getResponse g.buffer e.fromEngine).result = "readyok".toList) ∧
      (checkIsReady g e).2.1 = { g with buffer := (getResponse g.buffer e.fromEngine).buffer } ∧
      (checkIsReady g e).2.2 =
        { e with toEngine := e.toEngine ++ "isready\n".toList
                 fromEngine := (getResponse g.buffer e.fromEngine).fromEngine }) ∧
    (∀ (l : List Char) (t : Char) (rest : List Char), Chunked e.fromEngine →
      g.buffer ++ e.fromEngine.flatten = l ++ t :: rest → Clean l → IsTerm t →
      (∀ c, rest.head? = some c → ¬ IsTerm c) → NulFree rest →
      ∃ b' cs', b' ++ cs'.flatten = rest ∧
        checkIsReady g e =
          (l == "readyok".toList, { g with buffer := b' },
            { e with toEngine := e.toEngine ++ "isready\n".toList, fromEngine := cs' })) := by
  have hsend : send e "isready".toList =
      { e with toEngine := e.toEngine ++ "isready\n".toList } := by
    rw [send_toEngine e _ (by decide)]
    simp
  have hdef : checkIsReady g e =
      (!(getResponse g.buffer e.fromEngine).eof &&
          (getResponse g.buffer e.fromEngine).result == "readyok".toList,
        { g with buffer := (getResponse g.buffer e.fromEngine).buffer },
        { e with toEngine := e.toEngine ++ "isready\n".toList
                 fromEngine := (getResponse g.buffer e.fromEngine).fromEngine }) := by
    unfold checkIsReady
    simp only [hsend]
  refine ⟨⟨?_, ?_, ?_⟩, ?_⟩
  · rw [hdef]
    simp
  · rw [hdef]
  · rw [hdef]
  · intro l t rest hch hfl hl ht hrest hnul
    obtain ⟨b', cs', h1, h2, _, _⟩ :=
      getResponse_step_single g.buffer e.fromEngine l t rest hch hfl hl ht hrest hnul
    refine ⟨b', cs', h2, ?_⟩
    rw [hdef, h1]
    rfl

/-- C5, witness: with `info` as the next line and `readyok` after it, `checkIsReady`
returns false and leaves the line `readyok` pending. -/
theorem checkIsReady_one_line_witness :
    ∃ b' cs', b' ++ cs'.flatten = "readyok\n".toList ∧
      checkIsReady { buffer := [], cerr := [] }
          { identity := [], searchDepth := 0, variations := 0, toEngine := [],
            fromEngine := ["info\nreadyok\n".toList] } =
        (false, { buffer := b', cerr := [] },
          { identity := [], searchDepth := 0, variations := 0,
            toEngine := [] ++ "isready\n".toList, fromEngine := cs' }) :=
  (checkIsReady_one_line { buffer := [], cerr := [] }
      { identity := [], searchDepth := 0, variations := 0, toEngine := [],
        fromEngine := ["info\nreadyok\n".toList] }).2
    "info".toList '\n' "readyok\n".toList (by decide) (by decide) (by decide) (by decide)
    (by decide) (by decide)

/-! ## C6: the static buffer is shared -/

/-- C6, the code at the failing input: session `A` has `a1\na2\n` in its pipe and
session `B` has `b1\n`.  Alone, `B` reads `b1`.  After one read by `A`, the static buffer
holds `a2\n`, and the read by `B` returns the line `a2` of `A` and leaves the stream of
`B` untouched. -/
theorem sessionRead_shares_buffer :
    (sessionRead { buffer := [], cerr := [] }
        { identity := [], searchDepth := 0, variations := 0, toEngine := [],
          fromEngine := ["b1\n".toList] }).1 = ("b1".toList, false) ∧
    (sessionRead { buffer := [], cerr := [] }
        { identity := [], searchDepth := 0, variations := 0, toEngine := [],
          fromEngine := ["a1\na2\n".toList] }).2.1 = { buffer := "a2\n".toList, cerr := [] } ∧
    sessionRead { buffer := "a2\n".toList, cerr := [] }
        { identity := [], searchDepth := 0, variations := 0, toEngine := [],
          fromEngine := ["b1\n".toList] } =
      (("a2".toList, false), { buffer := [], cerr := [] },
        { identity := [], searchDepth := 0, variations := 0, toEngine := [],
          fromEngine := ["b1\n".toList] }) := by
  decide

theorem nthResponse_add (n : Nat) :
    ∀ (m : Nat) (b : List Char) (cs : List (List Char)),
      nthResponse (n + 1 + m) b cs =
        nthResponse m (nthResponse n b cs).buffer (nthResponse n b cs).fromEngine := by
  induction n with
  | zero =>
    intro m b cs
    rw [show 0 + 1 + m = m + 1 by omega, nthResponse_succ, nthResponse_zero]
  | succ n ih =>
    intro m b cs
    rw [show n + 1 + 1 + m = (n + 1 + m) + 1 by omega, nthResponse_succ, ih, nthResponse_succ]

theorem getResponses_length (n : Nat) :
    ∀ (b : List Char) (cs : List (List Char)), (getResponses n b cs).length = n := by
  induction n with
  | zero => intro b cs; rfl
  | succ n ih => intro b cs; rw [getResponses_succ, List.length_cons, ih]

theorem getResponses_getElem? (n : Nat) :
    ∀ (i : Nat) (b : List Char) (cs : List (List Char)), i < n →
      (getResponses n b cs)[i]? =
        some ((nthResponse i b cs).result, (nthResponse i b cs).eof) := by
  induction n with
  | zero => intro i b cs h; omega
  | succ n ih =>
    intro i b cs h
    rw [getResponses_succ]
    cases i with
    | zero => rw [List.getElem?_cons_zero, nthResponse_zero]
    | succ i =>
      rw [List.getElem?_cons_succ, ih i _ _ (by omega), nthResponse_succ]

/-- Reading off call `i` from a known run of responses. -/
theorem nthResponse_of_getResponses {n : Nat} {b : List Char} {cs : List (List Char)}
    {rs : List (List Char × Bool)} (h : getResponses n b cs = rs) {i : Nat}
    {x : List Char × Bool} (hx : rs[i]? = some x) :
    (nthResponse i b cs).result = x.1 ∧ (nthResponse i b cs).eof = x.2 := by
  have hi : i < n := by
    have := (List.getElem?_eq_some.mp hx).1
    rw [← h, getResponses_length] at this
    exact this
  have := getResponses_getElem? n i b cs hi
  rw [h, hx] at this
  simp only [Option.some.injEq] at this
  rw [this]
  exact ⟨rfl, rfl⟩

/-! ## Decimal text -/

theorem ite_ne_NUL (c : Prop) [Decidable c] (a b : Char) (ha : a ≠ NUL) (hb : b ≠ NUL) :
    (if c then a else b) ≠ NUL := by
  split <;> assumption

theorem digitChar_ne_NUL (d : Nat) : Nat.digitChar d ≠ NUL := by
  unfold Nat.digitChar
  repeat (apply ite_ne_NUL _ _ _ (by decide))
  decide

theorem toDigitsCore_nulFree (base : Nat) (fuel : Nat) :
    ∀ (n : Nat) (acc : List Char), NulFree acc → NulFree (Nat.toDigitsCore base fuel n acc) := by
  induction fuel with
  | zero => intro n acc h; exact h
  | succ f ih =>
    intro n acc h
    unfold Nat.toDigitsCore
    simp only
    have hacc : NulFree (Nat.digitChar (n % base) :: acc) := by
      intro c hc
      rcases List.mem_cons.mp hc with hc | hc
      · rw [hc]; exact digitChar_ne_NUL _
      · exact h c hc
    split_ifs
    · exact hacc
    · exact ih _ _ hacc

theorem nat_repr_nulFree (n : Nat) : NulFree (Nat.repr n).toList := by
  unfold Nat.repr Nat.toDigits
  exact toDigitsCore_nulFree _ _ _ _ (by intro c hc; simp at hc)

/-- The decimal text of an `int` holds no NUL. -/
theorem decimal_nulFree (value : Int) : NulFree (decimal value) := by
  unfold decimal
  cases value with
  | ofNat m =>
    show NulFree (Nat.repr m).toList
    exact nat_repr_nulFree m
  | negSucc m =>
    show NulFree ("-" ++ Nat.repr (m + 1)).data
    rw [String.data_append]
    exact NulFree.append (by decide) (nat_repr_nulFree _)

/-! ## Commands sent by initEngine -/

theorem commandText_append (c1 c2 : List (List Char)) :
    commandText (c1 ++ c2) = commandText c1 ++ commandText c2 := by
  simp [commandText]

theorem commandText_cons (c : List Char) (cs : List (List Char)) :
    commandText (c :: cs) = c ++ ['\n'] ++ commandText cs := by
  simp [commandText]

theorem send_uci (e : Engine) (variations searchDepth : Int) :
    send { e with variations := variations, searchDepth := searchDepth } "uci".toList =
      afterUci e variations searchDepth := by
  rw [send_toEngine _ _ (by decide)]
  simp [afterUci]




theorem initEngine_of_no_identity (g : Globals) (e : Engine) (variations searchDepth : Int)
    (options : StringMap)
    (h : (setIdentity g (afterUci e variations searchDepth)).1 = false) :
    initEngine g e variations searchDepth options =
      (false,
        { (setIdentity g (afterUci e variations searchDepth)).2.1 with
          cerr := (setIdentity g (afterUci e variations searchDepth)).2.1.cerr ++
            identityDiagnostic },
        (setIdentity g (afterUci e variations searchDepth)).2.2) := by
  unfold initEngine
  simp only [send_uci, h, Bool.not_false, if_true]

theorem initEngine_of_no_uciok (g : Globals) (e : Engine) (variations searchDepth : Int)
    (options : StringMap)
    (h : (setIdentity g (afterUci e variations searchDepth)).1 = true)
    (hw : (waitForResponse (setIdentity g (afterUci e variations searchDepth)).2.1
      (setIdentity g (afterUci e variations searchDepth)).2.2 "uciok".toList).1 = false) :
    initEngine g e variations searchDepth options =
      (false,
        (waitForResponse (setIdentity g (afterUci e variations searchDepth)).2.1
          (setIdentity g (afterUci e variations searchDepth)).2.2 "uciok".toList).2.1,
        (waitForResponse (setIdentity g (afterUci e variations searchDepth)).2.1
          (setIdentity g (afterUci e variations searchDepth)).2.2 "uciok".toList).2.2) := by
  unfold initEngine
  simp only [send_uci, h, hw, Bool.not_true, Bool.false_eq_true, if_false]

theorem initEngine_of_uciok (g : Globals) (e : Engine) (variations searchDepth : Int)
    (options : StringMap)
    (h : (setIdentity g (afterUci e variations searchDepth)).1 = true)
    (hw : (waitForResponse (setIdentity g (afterUci e variations searchDepth)).2.1
      (setIdentity g (afterUci e variations searchDepth)).2.2 "uciok".toList).1 = true) :
    initEngine g e variations searchDepth options =
      waitForResponse
        (waitForResponse (setIdentity g (afterUci e variations searchDepth)).2.1
          (setIdentity g (afterUci e variations searchDepth)).2.2 "uciok".toList).2.1
        (send (startNewGame (setOptions (setOptionInt
          (setOption
            (waitForResponse (setIdentity g (afterUci e variations searchDepth)).2.1
              (setIdentity g (afterUci e variations searchDepth)).2.2 "uciok".toList).2.2
            "UCI_AnalyseMode".toList "true".toList) "MultiPV".toList variations)
          options)) "isready".toList)
        "readyok".toList := by
  unfold initEngine
  simp only [send_uci, h, hw, Bool.not_true, Bool.false_eq_true, if_false, if_true]

theorem strcmpEq_nthResponse_false {str : List Char} (hs : NulFree str) (n : Nat) (b : List Char)
    (cs : List (List Char)) (h : (nthResponse n b cs).result ≠ str) :
    ¬ strcmpEq str (nthResponse n b cs).result = true := by
  rw [strcmpEq_nthResponse hs]
  exact h

theorem sentText_cons (c : List Char) (cs : List (List Char)) :
    sentText (c :: cs) = cstr c ++ ['\n'] ++ sentText cs := by
  simp [sentText]

theorem sentText_append (c1 c2 : List (List Char)) :
    sentText (c1 ++ c2) = sentText c1 ++ sentText c2 := by
  simp [sentText]

theorem sentText_eq_commandText (cmds : List (List Char)) (h : ∀ c ∈ cmds, NulFree c) :
    sentText cmds = commandText cmds := by
  induction cmds with
  | nil => rfl
  | cons c cs ih =>
    rw [sentText_cons, commandText_cons, cstr_of_nulFree (h c (List.mem_cons_self _ _)),
      ih (fun x hx => h x (List.mem_cons_of_mem _ hx))]

theorem send_sentText (e : Engine) (str : List Char) :
    send e str = { e with toEngine := e.toEngine ++ sentText [str] } := by
  simp [send, sentText]

theorem setOption_sentText (e : Engine) (name value : List Char) :
    setOption e name value =
      { e with toEngine := e.toEngine ++ sentText [setoptionCommand name value] } := by
  unfold setOption
  rw [send_sentText]
  rfl

theorem setOptions_sentText (entries : List (List Char × List Char)) :
    ∀ (e : Engine), entries.foldl (fun e it => setOption e it.1 it.2) e =
      { e with toEngine := e.toEngine ++
          sentText (entries.map (fun it => setoptionCommand it.1 it.2)) } := by
  induction entries with
  | nil => intro e; simp [sentText]
  | cons it rest ih =>
    intro e
    rw [List.foldl_cons, ih, setOption_sentText e it.1 it.2]
    simp only [List.map_cons]
    rw [sentText_cons (setoptionCommand it.1 it.2), sentText_cons]
    simp [sentText]

/-- What `initEngine` sends between `uciok` and its wait for `readyok`. -/
theorem configure_sentText (e : Engine) (variations : Int) (options : StringMap) :
    send (startNewGame (setOptions (setOptionInt
        (setOption e "UCI_AnalyseMode".toList "true".toList) "MultiPV".toList variations)
        options)) "isready".toList =
      { e with toEngine := e.toEngine ++
          sentText ([setoptionCommand "UCI_AnalyseMode".toList "true".toList,
              setoptionCommand "MultiPV".toList (decimal variations)] ++
            options.entries.map (fun it => setoptionCommand it.1 it.2) ++
            ["ucinewgame".toList, "isready".toList]) } := by
  unfold startNewGame setOptions setOptionInt
  rw [setOption_sentText e, setOption_sentText, setOptions_sentText, send_sentText,
    send_sentText]
  simp [sentText]

theorem setoptionCommand_nulFree {name value : List Char} (hn : NulFree name)
    (hv : NulFree value) : NulFree (setoptionCommand name value) :=
  NulFree.append (NulFree.append (NulFree.append (by decide) hn) (by decide)) hv

theorem initCommands_nulFree (variations : Int) (options : StringMap)
    (ho : ∀ it ∈ options.entries, NulFree it.1 ∧ NulFree it.2) :
    ∀ c ∈ initCommands variations options, NulFree c := by
  intro c hc
  unfold initCommands at hc
  simp only [List.mem_append, List.mem_cons, List.mem_map, List.mem_singleton,
    List.not_mem_nil, or_false] at hc
  rcases hc with (((h | h | h) | ⟨it, hit, h⟩) | (h | h))
  · rw [h]; decide
  · rw [h]; exact setoptionCommand_nulFree (by decide) (by decide)
  · rw [h]; exact setoptionCommand_nulFree (by decide) (decimal_nulFree _)
  · rw [← h]; exact setoptionCommand_nulFree (ho it hit).1 (ho it hit).2
  · rw [h]; decide
  · rw [h]; decide

/-- `initEngine` along a run of calls in which call `I` is the first to return an identity
line, call `J` the first after it to return `uciok`, and call `K` the first after that to
report `eof` or return `readyok`. -/
theorem initEngine_run (g : Globals) (e : Engine) (variations searchDepth : Int)
    (options : StringMap) (I n1 n2 : Nat)
    (hid : ∀ m ≤ I, (nthResponse m g.buffer e.fromEngine).eof = false)
    (hidp : id_prefix <+: (nthResponse I g.buffer e.fromEngine).result)
    (hidn : ∀ m < I, ¬ id_prefix <+: (nthResponse m g.buffer e.fromEngine).result)
    (hun : ∀ m < n1, (nthResponse (I + 1 + m) g.buffer e.fromEngine).eof = false ∧
      (nthResponse (I + 1 + m) g.buffer e.fromEngine).result ≠ "uciok".toList)
    (hu : (nthResponse (I + 1 + n1) g.buffer e.fromEngine).result = "uciok".toList)
    (hrn : ∀ m < n2, (nthResponse (I + 1 + n1 + 1 + m) g.buffer e.fromEngine).eof = false ∧
      (nthResponse (I + 1 + n1 + 1 + m) g.buffer e.fromEngine).result ≠ "readyok".toList)
    (hr : (nthResponse (I + 1 + n1 + 1 + n2) g.buffer e.fromEngine).eof = true ∨
      (nthResponse (I + 1 + n1 + 1 + n2) g.buffer e.fromEngine).result = "readyok".toList) :
    initEngine g e variations searchDepth options =
      ((nthResponse (I + 1 + n1 + 1 + n2) g.buffer e.fromEngine).result == "readyok".toList,
        { g with buffer := (nthResponse (I + 1 + n1 + 1 + n2) g.buffer e.fromEngine).buffer },
        { e with
          variations := variations
          searchDepth := searchDepth
          identity := (nthResponse I g.buffer e.fromEngine).result.drop 8
          toEngine := e.toEngine ++ sentText (initCommands variations options)
          fromEngine :=
            (nthResponse (I + 1 + n1 + 1 + n2) g.buffer e.fromEngine).fromEngine }) := by
  have huok : NulFree "uciok".toList := by decide
  have hrok : NulFree "readyok".toList := by decide
  -- the identity
  have h1 : setIdentity g (afterUci e variations searchDepth) =
      (true, { g with buffer := (nthResponse I g.buffer e.fromEngine).buffer },
        { afterUci e variations searchDepth with
          identity := (nthResponse I g.buffer e.fromEngine).result.drop 8
          fromEngine := (nthResponse I g.buffer e.fromEngine).fromEngine }) :=
    setIdentity_found g (afterUci e variations searchDepth) I hid hidp hidn
  -- the wait for uciok
  have hu' : strcmpEq "uciok".toList
      (nthResponse (I + 1 + n1) g.buffer e.fromEngine).result = true :=
    (strcmpEq_nthResponse huok _ _ _).mpr hu
  have h2 : waitForResponse
      { g with buffer := (nthResponse I g.buffer e.fromEngine).buffer }
      { afterUci e variations searchDepth with
        identity := (nthResponse I g.buffer e.fromEngine).result.drop 8
        fromEngine := (nthResponse I g.buffer e.fromEngine).fromEngine }
      "uciok".toList =
      (true, { g with buffer := (nthResponse (I + 1 + n1) g.buffer e.fromEngine).buffer },
        { afterUci e variations searchDepth with
          identity := (nthResponse I g.buffer e.fromEngine).result.drop 8
          fromEngine := (nthResponse (I + 1 + n1) g.buffer e.fromEngine).fromEngine }) := by
    have := waitForResponse_stop
      { g with buffer := (nthResponse I g.buffer e.fromEngine).buffer }
      { afterUci e variations searchDepth with
        identity := (nthResponse I g.buffer e.fromEngine).result.drop 8
        fromEngine := (nthResponse I g.buffer e.fromEngine).fromEngine }
      "uciok".toList n1
      (fun m hm => by
        simp only
        rw [← nthResponse_add]
        exact ⟨(hun m hm).1, strcmpEq_nthResponse_false huok _ _ _ (hun m hm).2⟩)
      (by
        simp only
        rw [← nthResponse_add]
        exact Or.inr hu')
    simp only at this
    rw [← nthResponse_add, hu'] at this
    exact this
  -- the wait for readyok
  have hcmp : strcmpEq "readyok".toList
      (nthResponse (I + 1 + n1 + 1 + n2) g.buffer e.fromEngine).result =
      ((nthResponse (I + 1 + n1 + 1 + n2) g.buffer e.fromEngine).result == "readyok".toList) := by
    by_cases hx : (nthResponse (I + 1 + n1 + 1 + n2) g.buffer e.fromEngine).result =
        "readyok".toList
    · rw [(strcmpEq_nthResponse hrok _ _ _).mpr hx]
      exact (beq_iff_eq.mpr hx).symm
    · have := strcmpEq_nthResponse_false hrok _ _ _ hx
      simp only [Bool.not_eq_true] at this
      rw [this]
      exact (beq_eq_false_iff_ne.mpr hx).symm
  have h3 : waitForResponse
      { g with buffer := (nthResponse (I + 1 + n1) g.buffer e.fromEngine).buffer }
      { e with
        variations := variations
        searchDepth := searchDepth
        identity := (nthResponse I g.buffer e.fromEngine).result.drop 8
        toEngine := e.toEngine ++ sentText (initCommands variations options)
        fromEngine := (nthResponse (I + 1 + n1) g.buffer e.fromEngine).fromEngine }
      "readyok".toList =
      ((nthResponse (I + 1 + n1 + 1 + n2) g.buffer e.fromEngine).result == "readyok".toList,
        { g with buffer := (nthResponse (I + 1 + n1 + 1 + n2) g.buffer e.fromEngine).buffer },
        { e with
          variations := variations
          searchDepth := searchDepth
          identity := (nthResponse I g.buffer e.fromEngine).result.drop 8
          toEngine := e.toEngine ++ sentText (initCommands variations options)
          fromEngine :=
            (nthResponse (I + 1 + n1 + 1 + n2) g.buffer e.fromEngine).fromEngine }) := by
    have := waitForResponse_stop
      { g with buffer := (nthResponse (I + 1 + n1) g.buffer e.fromEngine).buffer }
      { e with
        variations := variations
        searchDepth := searchDepth
        identity := (nthResponse I g.buffer e.fromEngine).result.drop 8
        toEngine := e.toEngine ++ sentText (initCommands variations options)
        fromEngine := (nthResponse (I + 1 + n1) g.buffer e.fromEngine).fromEngine }
      "readyok".toList n2
      (fun m hm => by
        simp only
        rw [← nthResponse_add]
        exact ⟨(hrn m hm).1, strcmpEq_nthResponse_false hrok _ _ _ (hrn m hm).2⟩)
      (by
        simp only
        rw [← nthResponse_add]
        rcases hr with h | h
        · exact Or.inl h
        · exact Or.inr ((strcmpEq_nthResponse hrok _ _ _).mpr h))
    simp only at this
    rw [← nthResponse_add, hcmp] at this
    exact this
  have hs1 : (setIdentity g (afterUci e variations searchDepth)).1 = true := by rw [h1]
  have hw1 : (waitForResponse (setIdentity g (afterUci e variations searchDepth)).2.1
      (setIdentity g (afterUci e variations searchDepth)).2.2 "uciok".toList).1 = true := by
    rw [h1]
    show (waitForResponse
      { g with buffer := (nthResponse I g.buffer e.fromEngine).buffer }
      { afterUci e variations searchDepth with
        identity := (nthResponse I g.buffer e.fromEngine).result.drop 8
        fromEngine := (nthResponse I g.buffer e.fromEngine).fromEngine }
      "uciok".toList).1 = true
    rw [h2]
  rw [initEngine_of_uciok g e variations searchDepth options hs1 hw1, h1]
  show waitForResponse
      (waitForResponse
        { g with buffer := (nthResponse I g.buffer e.fromEngine).buffer }
        { afterUci e variations searchDepth with
          identity := (nthResponse I g.buffer e.fromEngine).result.drop 8
          fromEngine := (nthResponse I g.buffer e.fromEngine).fromEngine }
        "uciok".toList).2.1
      (send (startNewGame (setOptions (setOptionInt
        (setOption
          (waitForResponse
            { g with buffer := (nthResponse I g.buffer e.fromEngine).buffer }
            { afterUci e variations searchDepth with
              identity := (nthResponse I g.buffer e.fromEngine).result.drop 8
              fromEngine := (nthResponse I g.buffer e.fromEngine).fromEngine }
            "uciok".toList).2.2
          "UCI_AnalyseMode".toList "true".toList) "MultiPV".toList variations)
        options)) "isready".toList)
      "readyok".toList = _
  rw [h2]
  show waitForResponse
      { g with buffer := (nthResponse (I + 1 + n1) g.buffer e.fromEngine).buffer }
      (send (startNewGame (setOptions (setOptionInt
        (setOption
          { afterUci e variations searchDepth with
            identity := (nthResponse I g.buffer e.fromEngine).result.drop 8
            fromEngine := (nthResponse (I + 1 + n1) g.buffer e.fromEngine).fromEngine }
          "UCI_AnalyseMode".toList "true".toList) "MultiPV".toList variations)
        options)) "isready".toList)
      "readyok".toList = _
  rw [configure_sentText _ variations options]
  have hcmd : e.toEngine ++ "uci\n".toList ++
      sentText ([setoptionCommand "UCI_AnalyseMode".toList "true".toList,
          setoptionCommand "MultiPV".toList (decimal variations)] ++
        options.entries.map (fun it => setoptionCommand it.1 it.2) ++
        ["ucinewgame".toList, "isready".toList]) =
      e.toEngine ++ sentText (initCommands variations options) := by
    have hinit : initCommands variations options = "uci".toList ::
        ([setoptionCommand "UCI_AnalyseMode".toList "true".toList,
            setoptionCommand "MultiPV".toList (decimal variations)] ++
          options.entries.map (fun it => setoptionCommand it.1 it.2) ++
          ["ucinewgame".toList, "isready".toList]) := rfl
    have hu : cstr "uci".toList = "uci".toList := by decide
    have hn : "uci\n".toList = "uci".toList ++ ['\n'] := rfl
    rw [hinit, sentText_cons, hu, hn]
    simp only [List.append_assoc]
  simp only [afterUci]
  rw [hcmd]
  exact h3

/-! ## C7: the handshake -/

theorem id_prefix_clean : Clean id_prefix := by decide

theorem drop_id_prefix_append (X : List Char) : ( id_prefix ++ X).drop 8 = X := by
  have : id_prefix.length = 8 := by decide
  rw [← this, List.drop_left]

/-- Runs of `initEngine` on the lines `id name X`, `uciok` and, with `ready`, `readyok`. -/
theorem handshake_responses (X : List Char) (hX : Clean X) (cs : List (List Char))
    (hch : Chunked cs) (tail : List (List Char))
    (htail : tail = [] ∨ tail = ["readyok".toList])
    (hfl : cs.flatten = streamOf ['\n'] ([ id_prefix ++ X, "uciok".toList] ++ tail)) :
    getResponses (2 + tail.length + 1) [] cs =
      ([ id_prefix ++ X, "uciok".toList] ++ tail).map (fun l => (l, false)) ++ [([], true)] := by
  have hlen : 2 + tail.length + 1 = ([ id_prefix ++ X, "uciok".toList] ++ tail).length + 1 := by
    simp; omega
  rw [hlen]
  apply getResponses_streamOf ['\n'] (Or.inl rfl) _ [] cs hch (by simpa using hfl)
  · intro l hl
    simp only [List.cons_append, List.nil_append, List.mem_cons] at hl
    rcases hl with h | h | h
    · rw [h]; exact Clean.append_iff.mpr ⟨id_prefix_clean, hX⟩
    · rw [h]; decide
    · rcases htail with ht | ht
      · rw [ht] at h; simp at h
      · rw [ht] at h
        simp only [List.mem_singleton] at h
        rw [h]; decide
  · intro _ l hl
    simp only [List.cons_append, List.nil_append, List.tail_cons, List.mem_cons] at hl
    rcases hl with h | h
    · rw [h]; decide
    · rcases htail with ht | ht
      · rw [ht] at h; simp at h
      · rw [ht] at h
        simp only [List.mem_singleton] at h
        rw [h]; decide
  · intro h
    exact absurd h (by decide)

/-- C7 (amended): for every engine name `X` free of `\n`, `\r` and NUL, from an empty
pending buffer and for every division of the output into physical reads: when the
engine's entire output is the two lines `id name X` and `uciok`, `initEngine` sets
`identity` to `X` but returns false, because no `readyok` line answers its `isready`; when
the output is the three lines `id name X`, `uciok`, `readyok`, `initEngine` returns true
and `identity` equals `X`. -/
theorem initEngine_handshake (g : Globals) (e : Engine) (variations searchDepth : Int)
    (options : StringMap) (X : List Char) (hg : g.buffer = []) (hX : Clean X)
    (hch : Chunked e.fromEngine) :
    (e.fromEngine.flatten = id_prefix ++ X ++ "\nuciok\n".toList →
      (initEngine g e variations searchDepth options).1 = false ∧
      (initEngine g e variations searchDepth options).2.2.identity = X) ∧
    (e.fromEngine.flatten = id_prefix ++ X ++ "\nuciok\nreadyok\n".toList →
      (initEngine g e variations searchDepth options).1 = true ∧
      (initEngine g e variations searchDepth options).2.2.identity = X) := by
  obtain ⟨gb, gc⟩ := g
  simp only at hg
  subst hg
  constructor
  · intro hfl
    have hrs := handshake_responses X hX e.fromEngine hch [] (Or.inl rfl)
      (by rw [hfl]; simp [streamOf])
    have r0 := nthResponse_of_getResponses hrs (i := 0) (x := ( id_prefix ++ X, false)) rfl
    have r1 := nthResponse_of_getResponses hrs (i := 1) (x := ("uciok".toList, false)) rfl
    have r2 := nthResponse_of_getResponses hrs (i := 2) (x := ([], true)) rfl
    have hrun := initEngine_run { buffer := [], cerr := gc } e variations searchDepth options
      0 0 0
      (fun m hm => by rw [Nat.le_zero.mp hm]; exact r0.2)
      (by rw [r0.1]; exact List.prefix_append _ _)
      (fun m hm => absurd hm (Nat.not_lt_zero _))
      (fun m hm => absurd hm (Nat.not_lt_zero _))
      r1.1
      (fun m hm => absurd hm (Nat.not_lt_zero _))
      (Or.inl r2.2)
    rw [hrun]
    refine ⟨?_, ?_⟩
    · show ((nthResponse 2 [] e.fromEngine).result == "readyok".toList) = false
      rw [r2.1]
      decide
    · show (nthResponse 0 [] e.fromEngine).result.drop 8 = X
      rw [r0.1]
      exact drop_id_prefix_append X
  · intro hfl
    have hrs := handshake_responses X hX e.fromEngine hch ["readyok".toList] (Or.inr rfl)
      (by rw [hfl]; simp [streamOf])
    have r0 := nthResponse_of_getResponses hrs (i := 0) (x := ( id_prefix ++ X, false)) rfl
    have r1 := nthResponse_of_getResponses hrs (i := 1) (x := ("uciok".toList, false)) rfl
    have r2 := nthResponse_of_getResponses hrs (i := 2) (x := ("readyok".toList, false)) rfl
    have hrun := initEngine_run { buffer := [], cerr := gc } e variations searchDepth options
      0 0 0
      (fun m hm => by rw [Nat.le_zero.mp hm]; exact r0.2)
      (by rw [r0.1]; exact List.prefix_append _ _)
      (fun m hm => absurd hm (Nat.not_lt_zero _))
      (fun m hm => absurd hm (Nat.not_lt_zero _))
      r1.1
      (fun m hm => absurd hm (Nat.not_lt_zero _))
      (Or.inr r2.1)
    rw [hrun]
    refine ⟨?_, ?_⟩
    · show ((nthResponse 2 [] e.fromEngine).result == "readyok".toList) = true
      rw [r2.1]
      decide
    · show (nthResponse 0 [] e.fromEngine).result.drop 8 = X
      rw [r0.1]
      exact drop_id_prefix_append X

/-- C7, witness: the scripted output `id name Stockfish 15`, `uciok`. -/
theorem initEngine_handshake_witness :
    (initEngine { buffer := [], cerr := [] }
        { identity := [], searchDepth := 0, variations := 0, toEngine := [],
          fromEngine := ["id name Stockfish 15\nuciok\n".toList] }
        3 20 { entries := [], ascending := List.Pairwise.nil }).1 = false ∧
    (initEngine { buffer := [], cerr := [] }
        { identity := [], searchDepth := 0, variations := 0, toEngine := [],
          fromEngine := ["id name Stockfish 15\nuciok\n".toList] }
        3 20 { entries := [], ascending := List.Pairwise.nil }).2.2.identity =
      "Stockfish 15".toList :=
  (initEngine_handshake { buffer := [], cerr := [] }
      { identity := [], searchDepth := 0, variations := 0, toEngine := [],
        fromEngine := ["id name Stockfish 15\nuciok\n".toList] }
      3 20 { entries := [], ascending := List.Pairwise.nil } "Stockfish 15".toList rfl
      (by decide) (by decide)).1 (by decide)

/-- C7, counterexample: on the scripted output `id name Stockfish 15\nuciok\n` of the
claim, `initEngine` returns false. -/
theorem initEngine_handshake_counterexample :
    Clean "Stockfish 15".toList ∧
    ["id name Stockfish 15\nuciok\n".toList].flatten =
      "id name ".toList ++ "Stockfish 15".toList ++ "\n".toList ++ "uciok\n".toList ∧
    (initEngine { buffer := [], cerr := [] }
        { identity := [], searchDepth := 0, variations := 0, toEngine := [],
          fromEngine := ["id name Stockfish 15\nuciok\n".toList] }
        3 20 { entries := [], ascending := List.Pairwise.nil }).1 = false := by
  decide

/-! ## C8: failed handshakes -/

/-- The first identity line of a run in which some call, with no `eof` up to it, returns
an identity line. -/
theorem exists_first_identity (b : List Char) (cs : List (List Char)) (i : Nat)
    (he : ∀ m ≤ i, (nthResponse m b cs).eof = false)
    (hp : id_prefix <+: (nthResponse i b cs).result) :
    ∃ I ≤ i, id_prefix <+: (nthResponse I b cs).result ∧
      ∀ m < I, ¬ id_prefix <+: (nthResponse m b cs).result := by
  obtain ⟨n0, hstop, hmin⟩ := exists_first_stop b cs (fun r => id_prefix <+: r.result)
  have hle : n0 ≤ i := by
    by_contra hlt
    exact (hmin i (by omega)).2 hp
  refine ⟨n0, hle, ?_, fun m hm => (hmin m hm).2⟩
  rcases hstop with h | h
  · rw [he n0 hle] at h
    exact absurd h (by simp)
  · exact h

/-- The first call at or after call `a` that returns `str`, in a run in which call `j`
does. -/
theorem exists_first_line (b : List Char) (cs : List (List Char)) (str : List Char)
    (a j : Nat) (haj : a ≤ j) (hj : (nthResponse j b cs).result = str) :
    ∃ n, a + n ≤ j ∧ (nthResponse (a + n) b cs).result = str ∧
      ∀ m < n, (nthResponse (a + m) b cs).result ≠ str := by
  classical
  have hex : ∃ n, (nthResponse (a + n) b cs).result = str :=
    ⟨j - a, by rw [show a + (j - a) = j by omega]; exact hj⟩
  refine ⟨Nat.find hex, ?_, Nat.find_spec hex, fun m hm => Nat.find_min hex hm⟩
  have := Nat.find_min' hex (show (nthResponse (a + (j - a)) b cs).result = str by
    rw [show a + (j - a) = j by omega]; exact hj)
  omega

/-- C8: for every static buffer and inbound stream (the empty one too), if no call of
`getResponse` made before end of stream returns a line that begins with `id name `, then
`initEngine` returns false and all it has written to the outbound stream is `uci` and a
newline; and if some call made before end of stream does return such a line, but no call
ever returns `uciok`, then again `initEngine` returns false having written only `uci` and
a newline. -/
theorem initEngine_handshake_failure (g : Globals) (e : Engine) (variations searchDepth : Int)
    (options : StringMap) :
    ((∀ n, (∀ m ≤ n, (nthResponse m g.buffer e.fromEngine).eof = false) →
        ¬ id_prefix <+: (nthResponse n g.buffer e.fromEngine).result) →
      (initEngine g e variations searchDepth options).1 = false ∧
      (initEngine g e variations searchDepth options).2.2.toEngine =
        e.toEngine ++ "uci\n".toList) ∧
    ((∃ i, (∀ m ≤ i, (nthResponse m g.buffer e.fromEngine).eof = false) ∧
        id_prefix <+: (nthResponse i g.buffer e.fromEngine).result) →
      (∀ k, (nthResponse k g.buffer e.fromEngine).result ≠ "uciok".toList) →
      (initEngine g e variations searchDepth options).1 = false ∧
      (initEngine g e variations searchDepth options).2.2.toEngine =
        e.toEngine ++ "uci\n".toList) := by
  constructor
  · intro hno
    obtain ⟨n0, hstop, hmin⟩ := exists_first_stop g.buffer e.fromEngine
      (fun r => id_prefix <+: r.result)
    have he0 : (nthResponse n0 g.buffer e.fromEngine).eof = true := by
      by_contra hne
      have hne' : (nthResponse n0 g.buffer e.fromEngine).eof = false := by simpa using hne
      rcases hstop with h | h
      · exact hne h
      · refine hno n0 (fun m hm => ?_) h
        rcases Nat.lt_or_ge m n0 with hlt | hge
        · exact (hmin m hlt).1
        · rw [show m = n0 by omega]; exact hne'
    have h1 : setIdentity g (afterUci e variations searchDepth) =
        (false, { g with buffer := (nthResponse n0 g.buffer e.fromEngine).buffer },
          { afterUci e variations searchDepth with
            fromEngine := (nthResponse n0 g.buffer e.fromEngine).fromEngine }) :=
      setIdentity_eof g (afterUci e variations searchDepth) n0 hmin he0
    rw [initEngine_of_no_identity g e variations searchDepth options (by rw [h1]), h1]
    exact ⟨rfl, rfl⟩
  · rintro ⟨i, hie, hip⟩ hnu
    obtain ⟨I, hIi, hIp, hIn⟩ := exists_first_identity g.buffer e.fromEngine i hie hip
    have h1 : setIdentity g (afterUci e variations searchDepth) =
        (true, { g with buffer := (nthResponse I g.buffer e.fromEngine).buffer },
          { afterUci e variations searchDepth with
            identity := (nthResponse I g.buffer e.fromEngine).result.drop 8
            fromEngine := (nthResponse I g.buffer e.fromEngine).fromEngine }) :=
      setIdentity_found g (afterUci e variations searchDepth) I
        (fun m hm => hie m (by omega)) hIp hIn
    obtain ⟨n1, hstop, hmin⟩ := exists_first_stop
      (nthResponse I g.buffer e.fromEngine).buffer
      (nthResponse I g.buffer e.fromEngine).fromEngine
      (fun r => strcmpEq "uciok".toList r.result = true)
    have hnot : ∀ m, ¬ strcmpEq "uciok".toList
        (nthResponse m (nthResponse I g.buffer e.fromEngine).buffer
          (nthResponse I g.buffer e.fromEngine).fromEngine).result = true := by
      intro m
      rw [← nthResponse_add]
      exact strcmpEq_nthResponse_false (by decide) _ _ _ (hnu _)
    have h2 := waitForResponse_stop
      { g with buffer := (nthResponse I g.buffer e.fromEngine).buffer }
      { afterUci e variations searchDepth with
        identity := (nthResponse I g.buffer e.fromEngine).result.drop 8
        fromEngine := (nthResponse I g.buffer e.fromEngine).fromEngine }
      "uciok".toList n1 hmin hstop
    have hf : strcmpEq "uciok".toList
        (nthResponse n1 (nthResponse I g.buffer e.fromEngine).buffer
          (nthResponse I g.buffer e.fromEngine).fromEngine).result = false := by
      simpa using hnot n1
    simp only at h2
    rw [hf] at h2
    have hs1 : (setIdentity g (afterUci e variations searchDepth)).1 = true := by rw [h1]
    have hw1 : (waitForResponse (setIdentity g (afterUci e variations searchDepth)).2.1
        (setIdentity g (afterUci e variations searchDepth)).2.2 "uciok".toList).1 = false := by
      rw [h1]
      show (waitForResponse
        { g with buffer := (nthResponse I g.buffer e.fromEngine).buffer }
        { afterUci e variations searchDepth with
          identity := (nthResponse I g.buffer e.fromEngine).result.drop 8
          fromEngine := (nthResponse I g.buffer e.fromEngine).fromEngine }
        "uciok".toList).1 = false
      rw [h2]
    rw [initEngine_of_no_uciok g e variations searchDepth options hs1 hw1, h1]
    refine ⟨rfl, ?_⟩
    show (waitForResponse
      { g with buffer := (nthResponse I g.buffer e.fromEngine).buffer }
      { afterUci e variations searchDepth with
        identity := (nthResponse I g.buffer e.fromEngine).result.drop 8
        fromEngine := (nthResponse I g.buffer e.fromEngine).fromEngine }
      "uciok".toList).2.2.toEngine = _
    rw [h2]
    rfl

/-- C8, witness: an engine that closes its output at once, and one that identifies itself
and then closes its output. -/
theorem initEngine_handshake_failure_witness :
    ((initEngine { buffer := [], cerr := [] }
        { identity := [], searchDepth := 0, variations := 0, toEngine := [], fromEngine := [] }
        3 20 { entries := [], ascending := List.Pairwise.nil }).1 = false ∧
      (initEngine { buffer := [], cerr := [] }
        { identity := [], searchDepth := 0, variations := 0, toEngine := [], fromEngine := [] }
        3 20 { entries := [], ascending := List.Pairwise.nil }).2.2.toEngine =
        [] ++ "uci\n".toList) ∧
    ((initEngine { buffer := [], cerr := [] }
        { identity := [], searchDepth := 0, variations := 0, toEngine := [],
          fromEngine := ["id name X\n".toList] }
        3 20 { entries := [], ascending := List.Pairwise.nil }).1 = false ∧
      (initEngine { buffer := [], cerr := [] }
        { identity := [], searchDepth := 0, variations := 0, toEngine := [],
          fromEngine := ["id name X\n".toList] }
        3 20 { entries := [], ascending := List.Pairwise.nil }).2.2.toEngine =
        [] ++ "uci\n".toList) :=
  ⟨(initEngine_handshake_failure { buffer := [], cerr := [] }
      { identity := [], searchDepth := 0, variations := 0, toEngine := [], fromEngine := [] }
      3 20 { entries := [], ascending := List.Pairwise.nil }).1
      (fun n h => absurd (h 0 (Nat.zero_le n)) (by decide)),
    (initEngine_handshake_failure { buffer := [], cerr := [] }
      { identity := [], searchDepth := 0, variations := 0, toEngine := [],
        fromEngine := ["id name X\n".toList] }
      3 20 { entries := [], ascending := List.Pairwise.nil }).2
      ⟨0, fun m hm => by rw [Nat.le_zero.mp hm]; decide, by decide⟩
      (fun k => by
        cases k with
        | zero => decide
        | succ k =>
          have h : ∀ k, (nthResponse k [] []).result = [] := by
            intro k
            induction k with
            | zero => rfl
            | succ k ih => exact ih
          show (nthResponse k [] []).result ≠ "uciok".toList
          rw [h k]
          decide)⟩

/-! ## C9 and C10: commands sent -/

/-- C9 (amended): for every static buffer and inbound stream in which, before any end of
stream, a call of `getResponse` returns a line with the prefix `id name `, a later call
returns `uciok` and a still later call returns `readyok`, and for option names and values
that hold no NUL character, `initEngine` returns true and what it writes to the outbound
stream is exactly, each followed by one newline and in this order: `uci`;
`setoption name UCI_AnalyseMode value true`; `setoption name MultiPV value` and the
decimal `variations`; one `setoption name k value v` per entry of `options`, in the
map's order, which is ascending in `k`; `ucinewgame`; `isready`.  The text is a function
of `variations` and `options` alone. -/
theorem initEngine_configuration_order (g : Globals) (e : Engine)
    (variations searchDepth : Int) (options : StringMap)
    (ho : ∀ it ∈ options.entries, NulFree it.1 ∧ NulFree it.2) (i j k : Nat)
    (hij : i < j) (hjk : j < k)
    (he : ∀ m ≤ k, (nthResponse m g.buffer e.fromEngine).eof = false)
    (hi : id_prefix <+: (nthResponse i g.buffer e.fromEngine).result)
    (hj : (nthResponse j g.buffer e.fromEngine).result = "uciok".toList)
    (hk : (nthResponse k g.buffer e.fromEngine).result = "readyok".toList) :
    (initEngine g e variations searchDepth options).1 = true ∧
    (initEngine g e variations searchDepth options).2.2.toEngine =
      e.toEngine ++ commandText (initCommands variations options) ∧
    options.entries.Pairwise (fun a b => a.1 < b.1) := by
  obtain ⟨I, hIi, hIp, hIn⟩ := exists_first_identity g.buffer e.fromEngine i
    (fun m hm => he m (by omega)) hi
  obtain ⟨n1, h1le, h1eq, h1min⟩ := exists_first_line g.buffer e.fromEngine "uciok".toList
    (I + 1) j (by omega) hj
  obtain ⟨n2, h2le, h2eq, h2min⟩ := exists_first_line g.buffer e.fromEngine "readyok".toList
    (I + 1 + n1 + 1) k (by omega) hk
  have hrun := initEngine_run g e variations searchDepth options I n1 n2
    (fun m hm => he m (by omega)) hIp hIn
    (fun m hm => ⟨he _ (by omega), h1min m hm⟩) h1eq
    (fun m hm => ⟨he _ (by omega), h2min m hm⟩) (Or.inr h2eq)
  rw [hrun]
  refine ⟨?_, ?_, options.ascending⟩
  · exact beq_iff_eq.mpr h2eq
  · show e.toEngine ++ sentText (initCommands variations options) = _
    rw [sentText_eq_commandText _ (initCommands_nulFree variations options ho)]

/-- C9, witness: an engine that answers `id name X`, `uciok`, `readyok`, with the options
`Hash = 16` and `Threads = 2`. -/
theorem initEngine_configuration_order_witness :
    (initEngine { buffer := [], cerr := [] }
        { identity := [], searchDepth := 0, variations := 0, toEngine := [],
          fromEngine := ["id name X\nuciok\nreadyok\n".toList] }
        3 20 { entries := [("Hash".toList, "16".toList), ("Threads".toList, "2".toList)],
               ascending := by decide }).1 = true ∧
    (initEngine { buffer := [], cerr := [] }
        { identity := [], searchDepth := 0, variations := 0, toEngine := [],
          fromEngine := ["id name X\nuciok\nreadyok\n".toList] }
        3 20 { entries := [("Hash".toList, "16".toList), ("Threads".toList, "2".toList)],
               ascending := by decide }).2.2.toEngine =
      [] ++ commandText (initCommands 3
        { entries := [("Hash".toList, "16".toList), ("Threads".toList, "2".toList)],
          ascending := by decide }) ∧
    [("Hash".toList, "16".toList), ("Threads".toList, "2".toList)].Pairwise
      (fun a b => a.1 < b.1) :=
  initEngine_configuration_order { buffer := [], cerr := [] }
    { identity := [], searchDepth := 0, variations := 0, toEngine := [],
      fromEngine := ["id name X\nuciok\nreadyok\n".toList] }
    3 20 { entries := [("Hash".toList, "16".toList), ("Threads".toList, "2".toList)],
           ascending := by decide }
    (by decide) 0 1 2 (by decide) (by decide)
    (fun m hm => by
      have : m = 0 ∨ m = 1 ∨ m = 2 := by omega
      rcases this with h | h | h <;> subst h <;> decide)
    (by decide) (by decide) (by decide)

/-- C9, counterexample: with an option whose name holds a NUL, here the three characters
`a`, NUL, `b`, the engine answering `id name X`, `uciok`, `readyok`, `initEngine` returns
true but the `setoption` line it writes stops at the NUL, so the outbound text is not the
text of the claim. -/
theorem initEngine_configuration_order_counterexample :
    getResponses 3 [] ["id name X\nuciok\nreadyok\n".toList] =
      [("id name X".toList, false), ("uciok".toList, false), ("readyok".toList, false)] ∧
    (initEngine { buffer := [], cerr := [] }
        { identity := [], searchDepth := 0, variations := 0, toEngine := [],
          fromEngine := ["id name X\nuciok\nreadyok\n".toList] }
        3 20 { entries := [(['a', NUL, 'b'], ['1'])],
               ascending := List.pairwise_singleton _ _ }).1 = true ∧
    (initEngine { buffer := [], cerr := [] }
        { identity := [], searchDepth := 0, variations := 0, toEngine := [],
          fromEngine := ["id name X\nuciok\nreadyok\n".toList] }
        3 20 { entries := [(['a', NUL, 'b'], ['1'])],
               ascending := List.pairwise_singleton _ _ }).2.2.toEngine ≠
      [] ++ commandText (initCommands 3
        { entries := [(['a', NUL, 'b'], ['1'])], ascending := List.pairwise_singleton _ _ }) ∧
    (initEngine { buffer := [], cerr := [] }
        { identity := [], searchDepth := 0, variations := 0, toEngine := [],
          fromEngine := ["id name X\nuciok\nreadyok\n".toList] }
        3 20 { entries := [(['a', NUL, 'b'], ['1'])],
               ascending := List.pairwise_singleton _ _ }).2.2.toEngine =
      commandText ["uci".toList, "setoption name UCI_AnalyseMode value true".toList,
        "setoption name MultiPV value 3".toList, "setoption name a".toList,
        "ucinewgame".toList, "isready".toList] := by
  decide

/-- C10 (amended): for all strings `moves` and `fen` that hold no NUL character,
`setPosition(moves, fen)` appends to the outbound stream exactly
`position startpos moves ` followed by `moves` and a newline when `fen` is empty, and
exactly `position fen `, `fen`, ` moves `, `moves` and a newline when `fen` is non-empty;
nothing else of the engine object changes. -/
theorem setPosition_format (e : Engine) (moves fen : List Char) (hm : NulFree moves)
    (hf : NulFree fen) :
    setPosition e moves fen =
      { e with toEngine := e.toEngine ++
          (if fen = [] then "position startpos moves ".toList ++ moves ++ ['\n']
           else "position fen ".toList ++ fen ++ " moves ".toList ++ moves ++ ['\n']) } := by
  unfold setPosition
  by_cases h : fen = []
  · subst h
    simp only [List.length_nil, beq_self_eq_true, if_true]
    rw [send_toEngine _ _ (NulFree.append (by decide) hm)]
    simp only [List.append_assoc]
  · have hl : (fen.length == 0) = false := by
      simpa [List.length_eq_zero] using h
    rw [hl]
    simp only [Bool.false_eq_true, if_false, h]
    unfold setFENPosition
    rw [send_toEngine _ _
      (NulFree.append (NulFree.append (by decide) hf) (NulFree.append (by decide) hm))]
    simp only [List.append_assoc]

/-- C10, witness: `setPosition("e2e4", "")` sends `position startpos moves e2e4`, and with
a board-state string it sends the `position fen` form. -/
theorem setPosition_format_witness :
    setPosition { identity := [], searchDepth := 0, variations := 0, toEngine := [],
                  fromEngine := [] } "e2e4".toList [] =
      { identity := [], searchDepth := 0, variations := 0,
        toEngine := "position startpos moves e2e4\n".toList, fromEngine := [] } ∧
    setPosition { identity := [], searchDepth := 0, variations := 0, toEngine := [],
                  fromEngine := [] } "e2e4".toList "8/8/8/8/8/8/8/K1k5 w - - 0 1".toList =
      { identity := [], searchDepth := 0, variations := 0,
        toEngine := "position fen 8/8/8/8/8/8/8/K1k5 w - - 0 1 moves e2e4\n".toList,
        fromEngine := [] } :=
  ⟨setPosition_format _ "e2e4".toList [] (by decide) (by decide),
    setPosition_format _ "e2e4".toList "8/8/8/8/8/8/8/K1k5 w - - 0 1".toList (by decide)
      (by decide)⟩

/-- C10, counterexample: for the five-character string `e2`, NUL, `e4` as `moves` and an
empty `fen`, what is appended is `position startpos moves e2` and a newline: the text
stops at the NUL. -/
theorem setPosition_format_counterexample :
    (setPosition { identity := [], searchDepth := 0, variations := 0, toEngine := [],
                   fromEngine := [] } ['e', '2', NUL, 'e', '4'] []).toEngine =
      "position startpos moves e2\n".toList ∧
    (setPosition { identity := [], searchDepth := 0, variations := 0, toEngine := [],
                   fromEngine := [] } ['e', '2', NUL, 'e', '4'] []).toEngine ≠
      [] ++ ("position startpos moves ".toList ++ ['e', '2', NUL, 'e', '4'] ++ "\n".toList) := by
  decide

/-! ## The loops always end -/

/-- The fuel that `getResponse` gives its loop is enough: the loop stops because it has
seen the end of a line or the end of the stream, never because the fuel ran out. -/
theorem getResponse_leaves_loop (b : List Char) (cs : List (List Char)) :
    (getResponseLoop (pipeSize cs + 2) (running [] b cs)).endOfLine = true ∨
      (getResponseLoop (pipeSize cs + 2) (running [] b cs)).eof = true := by
  apply getResponseLoop_done
  have := loopPotential_le (running [] b cs)
  simp only [running] at this ⊢
  omega

/-- The fuel that `waitForResponse` gives its loop is enough: the value it returns comes
from the first call of `getResponse` that reports `eof` or compares equal to `str`. -/
theorem waitForResponse_leaves_loop (g : Globals) (e : Engine) (str : List Char) :
    ∃ n, ((nthResponse n g.buffer e.fromEngine).eof = true ∨
        strcmpEq str (nthResponse n g.buffer e.fromEngine).result = true) ∧
      (∀ m < n, (nthResponse m g.buffer e.fromEngine).eof = false ∧
        ¬ strcmpEq str (nthResponse m g.buffer e.fromEngine).result = true) ∧
      waitForResponse g e str =
        (strcmpEq str (nthResponse n g.buffer e.fromEngine).result,
          { g with buffer := (nthResponse n g.buffer e.fromEngine).buffer },
          { e with fromEngine := (nthResponse n g.buffer e.fromEngine).fromEngine }) := by
  obtain ⟨n, hstop, hmin⟩ := exists_first_stop g.buffer e.fromEngine
    (fun r => strcmpEq str r.result = true)
  exact ⟨n, hstop, hmin, waitForResponse_stop g e str n hmin hstop⟩

/-- The fuel that `setIdentity` gives its loop is enough: the loop stops at the first call
of `getResponse` that reports `eof` or returns a line with the prefix. -/
theorem setIdentity_leaves_loop (g : Globals) (e : Engine) :
    ∃ n, (∀ m < n, (nthResponse m g.buffer e.fromEngine).eof = false ∧
        ¬ id_prefix <+: (nthResponse m g.buffer e.fromEngine).result) ∧
      (((nthResponse n g.buffer e.fromEngine).eof = true ∧
          setIdentity g e =
            (false, { g with buffer := (nthResponse n g.buffer e.fromEngine).buffer },
              { e with fromEngine := (nthResponse n g.buffer e.fromEngine).fromEngine })) ∨
        ((nthResponse n g.buffer e.fromEngine).eof = false ∧
          id_prefix <+: (nthResponse n g.buffer e.fromEngine).result ∧
          setIdentity g e =
            (true, { g with buffer := (nthResponse n g.buffer e.fromEngine).buffer },
              { e with identity := (nthResponse n g.buffer e.fromEngine).result.drop 8
                       fromEngine := (nthResponse n g.buffer e.fromEngine).fromEngine }))) := by
  obtain ⟨n, hstop, hmin⟩ := exists_first_stop g.buffer e.fromEngine
    (fun r => id_prefix <+: r.result)
  refine ⟨n, hmin, ?_⟩
  by_cases he : (nthResponse n g.buffer e.fromEngine).eof = true
  · exact Or.inl ⟨he, setIdentity_eof g e n hmin he⟩
  · have he' : (nthResponse n g.buffer e.fromEngine).eof = false := by simpa using he
    have hp : id_prefix <+: (nthResponse n g.buffer e.fromEngine).result := by
      rcases hstop with h | h
      · exact absurd h he
      · exact h
    refine Or.inr ⟨he', hp, setIdentity_found g e n (fun m hm => ?_) hp
      (fun m hm => (hmin m hm).2)⟩
    rcases Nat.lt_or_ge m n with hlt | hge
    · exact (hmin m hlt).1
    · rw [show m = n by omega]; exact he'

/-! ## C11: search commands -/

/-- `initEngine` stores its `searchDepth` argument, on every path. -/
theorem initEngine_searchDepth (g : Globals) (e : Engine) (variations searchDepth : Int)
    (options : StringMap) :
    (initEngine g e variations searchDepth options).2.2.searchDepth = searchDepth := by
  by_cases h : (setIdentity g (afterUci e variations searchDepth)).1 = true
  · by_cases hw : (waitForResponse (setIdentity g (afterUci e variations searchDepth)).2.1
        (setIdentity g (afterUci e variations searchDepth)).2.2 "uciok".toList).1 = true
    · rw [initEngine_of_uciok g e variations searchDepth options h hw, configure_sentText]
      rfl
    · rw [initEngine_of_no_uciok g e variations searchDepth options h (by simpa using hw)]
      rfl
  · rw [initEngine_of_no_identity g e variations searchDepth options (by simpa using h)]
    rfl

/-- C11 (amended): `initEngine` stores its depth argument `d` in `searchDepth` on every
path, and for every engine object whose `searchDepth` is `d` (the operations that follow
`initEngine` leave it alone), `go()` appends to the outbound stream exactly `go depth `,
the decimal `d` and one newline, and for every string `moves` that holds no NUL character
`searchMoves(moves)` appends exactly `go depth `, the decimal `d`, ` searchmoves `,
`moves` and one newline; nothing else of the engine object changes. -/
theorem go_searchMoves_format (g : Globals) (e : Engine) (variations d : Int)
    (options : StringMap) (moves : List Char) (hm : NulFree moves) :
    (initEngine g e variations d options).2.2.searchDepth = d ∧
    ∀ e1 : Engine, e1.searchDepth = d →
      go e1 = { e1 with toEngine := e1.toEngine ++
          ("go depth ".toList ++ decimal d ++ ['\n']) } ∧
      searchMoves e1 moves = { e1 with toEngine := e1.toEngine ++
          ("go depth ".toList ++ decimal d ++ " searchmoves ".toList ++ moves ++ ['\n']) } := by
  refine ⟨initEngine_searchDepth g e variations d options, fun e1 hd => ?_⟩
  subst hd
  constructor
  · unfold go
    rw [send_toEngine _ _ (NulFree.append (by decide) (decimal_nulFree _))]
    simp only [List.append_assoc]
  · unfold searchMoves
    rw [send_toEngine _ _ (NulFree.append (NulFree.append (by decide) (decimal_nulFree _))
      (NulFree.append (by decide) hm))]
    simp only [List.append_assoc]

/-- C11, witness: after `initEngine` with depth 20, `searchMoves("e2e4 d2d4")` sends
`go depth 20 searchmoves e2e4 d2d4`. -/
theorem go_searchMoves_format_witness :
    (searchMoves (initEngine { buffer := [], cerr := [] }
        { identity := [], searchDepth := 0, variations := 0, toEngine := [],
          fromEngine := [] } 3 20 { entries := [], ascending := List.Pairwise.nil }).2.2
        "e2e4 d2d4".toList).toEngine =
      "uci\n".toList ++ "go depth 20 searchmoves e2e4 d2d4\n".toList :=
  (congrArg Engine.toEngine
    ((go_searchMoves_format { buffer := [], cerr := [] }
      { identity := [], searchDepth := 0, variations := 0, toEngine := [],
        fromEngine := [] } 3 20 { entries := [], ascending := List.Pairwise.nil }
      "e2e4 d2d4".toList (by decide)).2 _
      (go_searchMoves_format { buffer := [], cerr := [] }
        { identity := [], searchDepth := 0, variations := 0, toEngine := [],
          fromEngine := [] } 3 20 { entries := [], ascending := List.Pairwise.nil }
        "e2e4 d2d4".toList (by decide)).1).2).trans (by decide)

/-- C11, counterexample: after `initEngine` with depth 20, and with the five-character
string `e2`, NUL, `e4` as `moves`, `searchMoves` appends `go depth 20 searchmoves e2` and
a newline: the text stops at the NUL. -/
theorem go_searchMoves_format_counterexample :
    (searchMoves (initEngine { buffer := [], cerr := [] }
        { identity := [], searchDepth := 0, variations := 0, toEngine := [],
          fromEngine := [] } 3 20 { entries := [], ascending := List.Pairwise.nil }).2.2
        ['e', '2', NUL, 'e', '4']).toEngine =
      "uci\n".toList ++ "go depth 20 searchmoves e2\n".toList ∧
    (searchMoves (initEngine { buffer := [], cerr := [] }
        { identity := [], searchDepth := 0, variations := 0, toEngine := [],
          fromEngine := [] } 3 20 { entries := [], ascending := List.Pairwise.nil }).2.2
        ['e', '2', NUL, 'e', '4']).toEngine ≠
      "uci\n".toList ++ ("go depth ".toList ++ decimal 20 ++ " searchmoves ".toList ++
        ['e', '2', NUL, 'e', '4'] ++ "\n".toList) := by
  decide

/-! ## Reads of any length, and reads within one burst -/

/-- The loop of `getResponse` on an empty buffer and bursts of any length, when the pipe
holds no terminator: everything is returned together with `eof`. -/
theorem getResponseLoop_eof_any (n : Nat) :
    ∀ (cs : List (List Char)), pipeSize cs ≤ n →
      ∀ (result : List Char) (fuel : Nat),
      (∀ c ∈ cs, c ≠ []) → Clean cs.flatten → pipeSize cs < fuel →
      getResponseLoop fuel (running result [] cs) =
        { result := result ++ cs.flatten, endOfLine := false, eof := true,
          buffer := [], fromEngine := [] } := by
  induction n with
  | zero =>
    intro cs hn result fuel _ _ hfuel
    cases cs with
    | nil =>
      obtain ⟨m, rfl⟩ : ∃ m, fuel = m + 1 := ⟨fuel - 1, by omega⟩
      rw [getResponseLoop_running, getResponseBody_closed, getResponseLoop_of_eof _ _ rfl]
      simp
    | cons c cs1 => rw [pipeSize_cons] at hn; omega
  | succ n ih =>
    intro cs hn result fuel hne hcl hfuel
    obtain ⟨m, rfl⟩ : ∃ m, fuel = m + 1 := ⟨fuel - 1, by omega⟩
    cases cs with
    | nil =>
      rw [getResponseLoop_running, getResponseBody_closed, getResponseLoop_of_eof _ _ rfl]
      simp
    | cons c cs1 =>
      have hc := hne c (List.mem_cons_self _ _)
      have hne1 : ∀ x ∈ cs1, x ≠ [] := fun x hx => hne x (List.mem_cons_of_mem _ hx)
      rw [List.flatten_cons, ← take_append_afterRead] at hcl
      have hcl' := Clean.append_iff.mp hcl
      have hlt := pipeSize_afterRead_lt cs1 hc
      rw [getResponseLoop_running, getResponseBody_read_any result cs1 hc,
        scanPhase_clean _ hcl'.1]
      have : ({ running result (c.take MAXBUFF) (afterRead c cs1) with
          result := (running result (c.take MAXBUFF) (afterRead c cs1)).result ++
            (running result (c.take MAXBUFF) (afterRead c cs1)).buffer,
          buffer := [] } : LoopState) =
          running (result ++ c.take MAXBUFF) [] (afterRead c cs1) := rfl
      rw [this, ih (afterRead c cs1) (by omega) _ m (afterRead_nonempty hne1) hcl'.2
        (by omega), List.append_assoc, take_append_afterRead, List.flatten_cons]

/-- One call of `getResponse`, for bursts of any length, when the buffer and the pipe
hold no terminator: the call returns all of it together with `eof`, and leaves the buffer
and the pipe empty. -/
theorem getResponse_eof_any (b : List Char) (cs : List (List Char))
    (hne : ∀ c ∈ cs, c ≠ []) (hcl : Clean (b ++ cs.flatten)) :
    getResponse b cs =
      { result := b ++ cs.flatten, eof := true, buffer := [], fromEngine := [] } := by
  have hcl' := Clean.append_iff.mp hcl
  rw [getResponse_eq_loop]
  by_cases hb : b = []
  · subst hb
    rw [getResponseLoop_eof_any (pipeSize cs) cs (le_refl _) [] _ hne hcl'.2 (by omega)]
  · rw [getResponseLoop_running,
      getResponseBody_noread [] cs (charAt_zero_ne_of_clean hcl'.1 hb),
      scanPhase_clean _ hcl'.1]
    have : ({ running [] b cs with
        result := (running [] b cs).result ++ (running [] b cs).buffer,
        buffer := [] } : LoopState) = running ([] ++ b) [] cs := rfl
    rw [this, getResponseLoop_eof_any (pipeSize cs) cs (le_refl _) ([] ++ b) _ hne hcl'.2
      (by omega)]
    simp

/-- One call of `getResponse`, for bursts of any length, when the buffer and the pipe
together hold the text `w` of a line and then a terminator `t`. -/
theorem getResponse_line_any (b : List Char) (cs : List (List Char)) (w : List Char)
    (t : Char) (rest : List Char) (hne : ∀ c ∈ cs, c ≠ [])
    (hfl : b ++ cs.flatten = w ++ t :: rest) (hw : Clean w) (ht : IsTerm t) :
    ∃ q cs', rest = q ++ cs'.flatten ∧ (∀ c ∈ cs', c ≠ []) ∧
      getResponse b cs =
        { result := w, eof := false, buffer := cstr (dropTerm q), fromEngine := cs' } := by
  have ht' : t = '\n' ∨ t = '\r' ∨ t = NUL := by
    rcases ht with h | h
    · exact Or.inl h
    · exact Or.inr (Or.inl h)
  rw [getResponse_eq_loop]
  rcases clean_or_split b with hcl | ⟨p, x, q, hbq, hp, hx⟩
  · by_cases hb : b = []
    · subst hb
      obtain ⟨q, cs', h2, h3, h4⟩ := getResponseLoop_line_any (pipeSize cs) cs (le_refl _)
        [] w t rest (pipeSize cs + 2) hne (by simpa using hfl) hw ht (by omega)
      exact ⟨q, cs', h2, h3, by rw [h4]; rfl⟩
    · obtain ⟨w', hw1, hw2⟩ := clean_prefix_split hcl ht' hfl
      have hw' : Clean w' := by
        rw [hw1] at hw
        exact (Clean.append_iff.mp hw).2
      rw [getResponseLoop_running,
        getResponseBody_noread [] cs (charAt_zero_ne_of_clean hcl hb),
        scanPhase_clean _ hcl]
      obtain ⟨q, cs', h2, h3, h4⟩ := getResponseLoop_line_any (pipeSize cs) cs (le_refl _)
        ([] ++ b) w' t rest (pipeSize cs + 1) hne hw2 hw' ht (by omega)
      refine ⟨q, cs', h2, h3, ?_⟩
      have : ({ running [] b cs with
          result := (running [] b cs).result ++ (running [] b cs).buffer,
          buffer := [] } : LoopState) = running ([] ++ b) [] cs := rfl
      rw [this, h4, hw1]
      rfl
  · rw [hbq, List.append_assoc, List.cons_append] at hfl
    obtain ⟨h1, h2, h3⟩ := first_stop_unique hp hw hx ht' hfl
    subst h1 h2
    have hhead : charAt b 0 ≠ NUL := by
      rw [hbq]; exact charAt_zero_ne_of_clean_append q hp ht
    rw [getResponseLoop_running, getResponseBody_noread [] cs hhead,
      scanPhase_eol (running [] b cs) hbq hp ht, getResponseLoop_of_endOfLine _ _ rfl]
    exact ⟨q, cs, h3.symm, hne, rfl⟩

/-- A call of `getResponse` that finds a terminator in the static buffer returns the
text before it and reads nothing from the pipe. -/
theorem getResponse_from_buffer {p q : List Char} {t : Char} (cs : List (List Char))
    (hp : Clean p) (ht : IsTerm t) :
    getResponse (p ++ t :: q) cs =
      { result := p, eof := false, buffer := cstr (dropTerm q), fromEngine := cs } := by
  rw [getResponse_eq_loop, getResponseLoop_running,
    getResponseBody_noread [] cs (charAt_zero_ne_of_clean_append q hp ht),
    scanPhase_eol (running [] (p ++ t :: q) cs) rfl hp ht, getResponseLoop_of_endOfLine _ _ rfl]
  rfl

/-- A call of `getResponse` on an empty buffer when the first burst in the pipe holds a
terminator: one physical read, and what follows the terminator in the burst is kept. -/
theorem getResponse_first_burst {p q : List Char} {t : Char} (rest : List (List Char))
    (hp : Clean p) (ht : IsTerm t) (hl : (p ++ t :: q).length ≤ MAXBUFF) :
    getResponse [] ((p ++ t :: q) :: rest) =
      { result := p, eof := false, buffer := cstr (dropTerm q), fromEngine := rest } := by
  rw [getResponse_eq_loop, getResponseLoop_running,
    getResponseBody_read [] rest (by simp) hl,
    scanPhase_eol (running [] (p ++ t :: q) rest) rfl hp ht, getResponseLoop_of_endOfLine _ _ rfl]
  rfl

/-! ## C12, C13, C14, C18: boundaries and end of stream -/

theorem dropTerm_of_head {x : List Char} (hx : ∀ c, x.head? = some c → ¬ IsTerm c) :
    dropTerm x = x := by
  cases x with
  | nil => exact dropTerm_nil
  | cons c x => exact dropTerm_cons_not x (hx c rfl)

/-- A terminator is a terminator character followed by at most one more, and the reader
drops that second one together with the first. -/
theorem IsTerminator.split {t : List Char} (ht : IsTerminator t) :
    ∃ t0 ts, t = t0 :: ts ∧ IsTerm t0 ∧
      ∀ x, (∀ c, x.head? = some c → ¬ IsTerm c) → dropTerm (ts ++ x) = x := by
  rcases ht with h | h | h | h
  · exact ⟨'\n', [], h, Or.inl rfl, fun x hx => dropTerm_of_head hx⟩
  · exact ⟨'\r', [], h, Or.inr rfl, fun x hx => dropTerm_of_head hx⟩
  · exact ⟨'\r', ['\n'], h, Or.inr rfl, fun x _ => dropTerm_cons_term x (Or.inl rfl)⟩
  · exact ⟨'\n', ['\r'], h, Or.inl rfl, fun x _ => dropTerm_cons_term x (Or.inr rfl)⟩

theorem IsTerminator.isNulFree {t : List Char} (ht : IsTerminator t) : NulFree t := by
  rcases ht with h | h | h | h <;> subst h <;> decide

theorem Clean.toNulFree {w : List Char} (h : Clean w) : NulFree w :=
  fun c hc => (h c hc).2.2

theorem head_not_term_of_clean {l : List Char} (x : List Char) (hl : Clean l) (hne : l ≠ []) :
    ∀ c, (l ++ x).head? = some c → ¬ IsTerm c := by
  intro c hc
  cases l with
  | nil => exact absurd rfl hne
  | cons a l =>
    simp only [List.cons_append, List.head?_cons, Option.some.injEq] at hc
    subst hc
    have := hl a (List.mem_cons_self _ _)
    rintro (h | h)
    · exact this.1 h
    · exact this.2.1 h

/-- C12: when one physical read delivers `l1 t l2 t'`, with `l1` and `l2` free of `\n`,
`\r` and NUL, `l2` non-empty, and `t`, `t'` each one of `\n`, `\r`, `\r\n`, `\n\r`, the
first call of `getResponse` (from an empty buffer) returns `l1` and leaves exactly
`l2 t'` in the pending buffer, a two-character terminator being consumed as one boundary;
the second call returns `l2`, leaves the buffer empty and takes nothing from the pipe. -/
theorem getResponse_retains (l1 l2 t t' : List Char) (rest : List (List Char))
    (h1 : Clean l1) (h2 : Clean l2) (hne : l2 ≠ []) (ht : IsTerminator t)
    (ht' : IsTerminator t') (hlen : (l1 ++ t ++ l2 ++ t').length ≤ MAXBUFF) :
    getResponse [] ((l1 ++ t ++ l2 ++ t') :: rest) =
      { result := l1, eof := false, buffer := l2 ++ t', fromEngine := rest } ∧
    getResponse (l2 ++ t') rest =
      { result := l2, eof := false, buffer := [], fromEngine := rest } := by
  obtain ⟨t0, ts, rfl, ht0, hts⟩ := ht.split
  obtain ⟨u0, us, rfl, hu0, hus⟩ := ht'.split
  constructor
  · have hc : l1 ++ t0 :: ts ++ l2 ++ u0 :: us = l1 ++ t0 :: (ts ++ (l2 ++ u0 :: us)) := by
      simp only [List.append_assoc, List.cons_append]
    rw [hc] at hlen ⊢
    rw [getResponse_first_burst rest h1 ht0 hlen,
      hts _ (head_not_term_of_clean _ h2 hne),
      cstr_of_nulFree (NulFree.append h2.toNulFree ht'.isNulFree)]
  · rw [getResponse_from_buffer rest h2 hu0]
    have := hus [] (fun c hc => by simp at hc)
    rw [List.append_nil] at this
    rw [this]
    rfl

/-- C12, witness: one read delivers `info\r\nreadyok\n`. -/
theorem getResponse_retains_witness :
    getResponse [] ["info\r\nreadyok\n".toList] =
      { result := "info".toList, eof := false, buffer := "readyok\n".toList,
        fromEngine := [] } ∧
    getResponse "readyok\n".toList [] =
      { result := "readyok".toList, eof := false, buffer := [], fromEngine := [] } :=
  getResponse_retains "info".toList "readyok".toList ['\r', '\n'] ['\n'] [] (by decide)
    (by decide) (by decide) (by decide) (by decide) (by decide)

/-- C13, the code at the failing input: of the stream `a\n\nb\n` delivered by one
physical read, three successive calls of `getResponse` return `a`, `b` and then `eof`;
the same for `a\r\rb\r`.  The empty line between `a` and `b` is never returned: the second
of two identical terminator characters is consumed together with the first.  When the
same stream arrives one line per read, as `fgets` delivers it, the empty line is
returned. -/
theorem getResponse_swallows_blank_line :
    getResponses 3 [] ["a\n\nb\n".toList] =
      [("a".toList, false), ("b".toList, false), ([], true)] ∧
    getResponses 3 [] ["a\r\rb\r".toList] =
      [("a".toList, false), ("b".toList, false), ([], true)] ∧
    (getResponse [] ["a\n\nb\n".toList]).buffer = "b\n".toList ∧
    getResponses 3 [] ["a\n".toList, "\n".toList, "b\n".toList] =
      [("a".toList, false), ([], false), ("b".toList, false)] := by
  decide

theorem nthResponse_closed (n : Nat) :
    nthResponse n [] [] = { result := [], eof := true, buffer := [], fromEngine := [] } := by
  induction n with
  | zero => rfl
  | succ n ih => exact ih

/-- C14: when the static buffer and the pipe (non-empty bursts of any length) hold only
text `w` free of `\n`, `\r` and NUL, so that the read meets the end of the stream before
a line boundary, `getResponse` returns `eof = true` together with exactly `w`, which is
the empty text when the stream ended right after a terminator, and leaves the buffer and
the pipe empty; and every further call on the exhausted stream returns the empty text
with `eof = true` and leaves the buffer empty. -/
theorem getResponse_end_of_stream :
    (∀ (b : List Char) (cs : List (List Char)), (∀ c ∈ cs, c ≠ []) →
      Clean (b ++ cs.flatten) →
      getResponse b cs =
        { result := b ++ cs.flatten, eof := true, buffer := [], fromEngine := [] }) ∧
    (∀ n, nthResponse n [] [] =
      { result := [], eof := true, buffer := [], fromEngine := [] }) :=
  ⟨getResponse_eof_any, nthResponse_closed⟩

/-- C14, witness: after the line `uciok` the stream ends with the unterminated text
`rea` then `dy`; the second call returns `ready` with `eof`, the third the empty text. -/
theorem getResponse_end_of_stream_witness :
    getResponse [] ["rea".toList, "dy".toList] =
      { result := [] ++ ["rea".toList, "dy".toList].flatten, eof := true, buffer := [],
        fromEngine := [] } ∧
    getResponses 3 [] ["uciok\nrea".toList, "dy".toList] =
      [("uciok".toList, false), ("ready".toList, true), ([], true)] :=
  ⟨getResponse_end_of_stream.1 [] ["rea".toList, "dy".toList] (by decide) (by decide),
    by decide⟩

/-- C18: for `a` free of `\n`, `\r` and NUL and `b` likewise and non-empty, when the first
physical read delivers `a\r` and the next delivers `\n b \n`, three successive calls of
`getResponse` from an empty pending buffer return `a`, then a spurious empty line, then
`b`, all with `eof = false`. -/
theorem getResponse_split_terminator (a b : List Char) (rest : List (List Char))
    (ha : Clean a) (hb : Clean b) (hne : b ≠ [])
    (hla : (a ++ ['\r']).length ≤ MAXBUFF) (hlb : ('\n' :: (b ++ ['\n'])).length ≤ MAXBUFF) :
    getResponses 3 [] ((a ++ ['\r']) :: ('\n' :: (b ++ ['\n'])) :: rest) =
      [(a, false), ([], false), (b, false)] := by
  have h1 : getResponse [] ((a ++ ['\r']) :: ('\n' :: (b ++ ['\n'])) :: rest) =
      { result := a, eof := false, buffer := [], fromEngine := ('\n' :: (b ++ ['\n'])) :: rest } :=
    getResponse_first_burst _ ha (Or.inr rfl) hla
  have h2 : getResponse [] (('\n' :: (b ++ ['\n'])) :: rest) =
      { result := [], eof := false, buffer := b ++ ['\n'], fromEngine := rest } := by
    have := getResponse_first_burst (p := []) (q := b ++ ['\n']) (t := '\n') rest Clean.nil
      (Or.inl rfl) hlb
    rw [dropTerm_of_head (head_not_term_of_clean _ hb hne),
      cstr_of_nulFree (NulFree.append hb.toNulFree (by decide))] at this
    exact this
  have h3 : getResponse (b ++ ['\n']) rest =
      { result := b, eof := false, buffer := [], fromEngine := rest } :=
    getResponse_from_buffer rest hb (Or.inl rfl)
  rw [getResponses_succ, h1, getResponses_succ, h2, getResponses_succ, h3]
  rfl

/-- C18, witness: `uciok\r` then `\nreadyok\n`. -/
theorem getResponse_split_terminator_witness :
    getResponses 3 [] ["uciok\r".toList, "\nreadyok\n".toList] =
      [("uciok".toList, false), ([], false), ("readyok".toList, false)] :=
  getResponse_split_terminator "uciok".toList "readyok".toList [] (by decide) (by decide)
    (by decide) (by decide) (by decide)

/-- `initEngine` when call `n` reports `eof` before any identity line. -/
theorem initEngine_no_identity_run (g : Globals) (e : Engine) (variations searchDepth : Int)
    (options : StringMap) (n : Nat)
    (hmin : ∀ m < n, (nthResponse m g.buffer e.fromEngine).eof = false ∧
      ¬ id_prefix <+: (nthResponse m g.buffer e.fromEngine).result)
    (he : (nthResponse n g.buffer e.fromEngine).eof = true) :
    initEngine g e variations searchDepth options =
      (false,
        { buffer := (nthResponse n g.buffer e.fromEngine).buffer,
          cerr := g.cerr ++ identityDiagnostic },
        { afterUci e variations searchDepth with
          fromEngine := (nthResponse n g.buffer e.fromEngine).fromEngine }) := by
  have h1 : setIdentity g (afterUci e variations searchDepth) =
      (false, { g with buffer := (nthResponse n g.buffer e.fromEngine).buffer },
        { afterUci e variations searchDepth with
          fromEngine := (nthResponse n g.buffer e.fromEngine).fromEngine }) :=
    setIdentity_eof g (afterUci e variations searchDepth) n hmin he
  rw [initEngine_of_no_identity g e variations searchDepth options (by rw [h1]), h1]

/-- `initEngine` when call `I` is the first to return an identity line and the calls
after it reach `eof` without returning `uciok`. -/
theorem initEngine_no_uciok_run (g : Globals) (e : Engine) (variations searchDepth : Int)
    (options : StringMap) (I n1 : Nat)
    (hid : ∀ m ≤ I, (nthResponse m g.buffer e.fromEngine).eof = false)
    (hidp : id_prefix <+: (nthResponse I g.buffer e.fromEngine).result)
    (hidn : ∀ m < I, ¬ id_prefix <+: (nthResponse m g.buffer e.fromEngine).result)
    (hun : ∀ m < n1, (nthResponse (I + 1 + m) g.buffer e.fromEngine).eof = false ∧
      (nthResponse (I + 1 + m) g.buffer e.fromEngine).result ≠ "uciok".toList)
    (he : (nthResponse (I + 1 + n1) g.buffer e.fromEngine).eof = true)
    (hne : (nthResponse (I + 1 + n1) g.buffer e.fromEngine).result ≠ "uciok".toList) :
    initEngine g e variations searchDepth options =
      (false, { g with buffer := (nthResponse (I + 1 + n1) g.buffer e.fromEngine).buffer },
        { afterUci e variations searchDepth with
          identity := (nthResponse I g.buffer e.fromEngine).result.drop 8
          fromEngine := (nthResponse (I + 1 + n1) g.buffer e.fromEngine).fromEngine }) := by
  have huok : NulFree "uciok".toList := by decide
  have h1 : setIdentity g (afterUci e variations searchDepth) =
      (true, { g with buffer := (nthResponse I g.buffer e.fromEngine).buffer },
        { afterUci e variations searchDepth with
          identity := (nthResponse I g.buffer e.fromEngine).result.drop 8
          fromEngine := (nthResponse I g.buffer e.fromEngine).fromEngine }) :=
    setIdentity_found g (afterUci e variations searchDepth) I hid hidp hidn
  have hf : strcmpEq "uciok".toList
      (nthResponse (I + 1 + n1) g.buffer e.fromEngine).result = false := by
    have := strcmpEq_nthResponse_false huok _ _ _ hne
    simpa using this
  have h2 : waitForResponse
      { g with buffer := (nthResponse I g.buffer e.fromEngine).buffer }
      { afterUci e variations searchDepth with
        identity := (nthResponse I g.buffer e.fromEngine).result.drop 8
        fromEngine := (nthResponse I g.buffer e.fromEngine).fromEngine }
      "uciok".toList =
      (false, { g with buffer := (nthResponse (I + 1 + n1) g.buffer e.fromEngine).buffer },
        { afterUci e variations searchDepth with
          identity := (nthResponse I g.buffer e.fromEngine).result.drop 8
          fromEngine := (nthResponse (I + 1 + n1) g.buffer e.fromEngine).fromEngine }) := by
    have := waitForResponse_stop
      { g with buffer := (nthResponse I g.buffer e.fromEngine).buffer }
      { afterUci e variations searchDepth with
        identity := (nthResponse I g.buffer e.fromEngine).result.drop 8
        fromEngine := (nthResponse I g.buffer e.fromEngine).fromEngine }
      "uciok".toList n1
      (fun m hm => by
        simp only
        rw [← nthResponse_add]
        exact ⟨(hun m hm).1, strcmpEq_nthResponse_false huok _ _ _ (hun m hm).2⟩)
      (by
        simp only
        rw [← nthResponse_add]
        exact Or.inl he)
    simp only at this
    rw [← nthResponse_add, hf] at this
    exact this
  have hs1 : (setIdentity g (afterUci e variations searchDepth)).1 = true := by rw [h1]
  have hw1 : (waitForResponse (setIdentity g (afterUci e variations searchDepth)).2.1
      (setIdentity g (afterUci e variations searchDepth)).2.2 "uciok".toList).1 = false := by
    rw [h1]
    show (waitForResponse
      { g with buffer := (nthResponse I g.buffer e.fromEngine).buffer }
      { afterUci e variations searchDepth with
        identity := (nthResponse I g.buffer e.fromEngine).result.drop 8
        fromEngine := (nthResponse I g.buffer e.fromEngine).fromEngine }
      "uciok".toList).1 = false
    rw [h2]
  rw [initEngine_of_no_uciok g e variations searchDepth options hs1 hw1, h1]
  show (false,
    (waitForResponse
      { g with buffer := (nthResponse I g.buffer e.fromEngine).buffer }
      { afterUci e variations searchDepth with
        identity := (nthResponse I g.buffer e.fromEngine).result.drop 8
        fromEngine := (nthResponse I g.buffer e.fromEngine).fromEngine }
      "uciok".toList).2.1,
    (waitForResponse
      { g with buffer := (nthResponse I g.buffer e.fromEngine).buffer }
      { afterUci e variations searchDepth with
        identity := (nthResponse I g.buffer e.fromEngine).result.drop 8
        fromEngine := (nthResponse I g.buffer e.fromEngine).fromEngine }
      "uciok".toList).2.2) = _
  rw [h2]

/-! ## C16: what a failed initialisation reports -/

theorem drop_length_append (u v : List Char) : (u ++ v).drop u.length = v :=
  List.drop_left u v

/-- C16 (amended): what `initEngine` reports to its caller, its return value together
with the text it adds to `cerr`, is `false` with the two diagnostic lines when no line
with the prefix `id name ` is read before end of stream, and is `false` with no
diagnostic at all both when the identity is read but `uciok` never arrives and when
`uciok` is read but `readyok` never arrives.  So the first failure is distinguishable
from the other two, and the other two report the same. -/
theorem initEngine_failure_reports (g : Globals) (e : Engine) (variations searchDepth : Int)
    (options : StringMap) :
    ((∀ n, (∀ m ≤ n, (nthResponse m g.buffer e.fromEngine).eof = false) →
        ¬ id_prefix <+: (nthResponse n g.buffer e.fromEngine).result) →
      initReport g e variations searchDepth options = (false, identityDiagnostic)) ∧
    ((∃ i, (∀ m ≤ i, (nthResponse m g.buffer e.fromEngine).eof = false) ∧
        id_prefix <+: (nthResponse i g.buffer e.fromEngine).result) →
      (∀ k, (nthResponse k g.buffer e.fromEngine).result ≠ "uciok".toList) →
      initReport g e variations searchDepth options = (false, [])) ∧
    ((∃ i j, i < j ∧ (∀ m ≤ j, (nthResponse m g.buffer e.fromEngine).eof = false) ∧
        id_prefix <+: (nthResponse i g.buffer e.fromEngine).result ∧
        (nthResponse j g.buffer e.fromEngine).result = "uciok".toList) →
      (∀ k, (nthResponse k g.buffer e.fromEngine).result ≠ "readyok".toList) →
      initReport g e variations searchDepth options = (false, [])) ∧
    (false, identityDiagnostic) ≠ ((false, []) : Bool × List Char) := by
  refine ⟨?_, ?_, ?_, by decide⟩
  · intro hno
    obtain ⟨n0, hstop, hmin⟩ := exists_first_stop g.buffer e.fromEngine
      (fun r => id_prefix <+: r.result)
    have he0 : (nthResponse n0 g.buffer e.fromEngine).eof = true := by
      by_contra hne
      have hne' : (nthResponse n0 g.buffer e.fromEngine).eof = false := by simpa using hne
      rcases hstop with h | h
      · exact hne h
      · refine hno n0 (fun m hm => ?_) h
        rcases Nat.lt_or_ge m n0 with hlt | hge
        · exact (hmin m hlt).1
        · rw [show m = n0 by omega]; exact hne'
    unfold initReport
    rw [initEngine_no_identity_run g e variations searchDepth options n0 hmin he0]
    simp only [drop_length_append]
  · rintro ⟨i, hie, hip⟩ hnu
    obtain ⟨I, hIi, hIp, hIn⟩ := exists_first_identity g.buffer e.fromEngine i hie hip
    obtain ⟨n1, hstop, hmin⟩ := exists_first_stop
      (nthResponse I g.buffer e.fromEngine).buffer
      (nthResponse I g.buffer e.fromEngine).fromEngine
      (fun r => r.result = "uciok".toList)
    simp only [← nthResponse_add] at hstop hmin
    have he : (nthResponse (I + 1 + n1) g.buffer e.fromEngine).eof = true := by
      rcases hstop with h | h
      · exact h
      · exact absurd h (hnu _)
    unfold initReport
    rw [initEngine_no_uciok_run g e variations searchDepth options I n1
      (fun m hm => hie m (by omega)) hIp hIn hmin he (hnu _)]
    simp
  · rintro ⟨i, j, hij, hje, hip, hju⟩ hnr
    obtain ⟨I, hIi, hIp, hIn⟩ := exists_first_identity g.buffer e.fromEngine i
      (fun m hm => hje m (by omega)) hip
    obtain ⟨n1, h1le, h1eq, h1min⟩ := exists_first_line g.buffer e.fromEngine "uciok".toList
      (I + 1) j (by omega) hju
    obtain ⟨n2, hstop, hmin⟩ := exists_first_stop
      (nthResponse (I + 1 + n1) g.buffer e.fromEngine).buffer
      (nthResponse (I + 1 + n1) g.buffer e.fromEngine).fromEngine
      (fun r => r.result = "readyok".toList)
    simp only [← nthResponse_add] at hstop hmin
    have hrun := initEngine_run g e variations searchDepth options I n1 n2
      (fun m hm => hje m (by omega)) hIp hIn
      (fun m hm => ⟨hje _ (by omega), h1min m hm⟩) h1eq hmin hstop
    unfold initReport
    rw [hrun]
    have hf : ((nthResponse (I + 1 + n1 + 1 + n2) g.buffer e.fromEngine).result ==
        "readyok".toList) = false := beq_eq_false_iff_ne.mpr (hnr _)
    rw [hf]
    simp

/-- C16, witness: an engine that closes its output at once is reported with the
diagnostic; one that stops after `id name X`, and one that stops after `uciok`, are both
reported with `false` alone. -/
theorem initEngine_failure_reports_witness :
    initReport { buffer := [], cerr := [] }
        { identity := [], searchDepth := 0, variations := 0, toEngine := [], fromEngine := [] }
        3 20 { entries := [], ascending := List.Pairwise.nil } = (false, identityDiagnostic) :=
  (initEngine_failure_reports { buffer := [], cerr := [] }
      { identity := [], searchDepth := 0, variations := 0, toEngine := [], fromEngine := [] }
      3 20 { entries := [], ascending := List.Pairwise.nil }).1
    (fun n h => absurd (h 0 (Nat.zero_le n)) (by decide))

/-- C16, counterexample: the engine that sends `id name X` and then closes its output
(no `uciok`) and the engine that sends `id name X`, `uciok` and then closes its output
(no `readyok`) are reported to the caller in the same way: `false`, and nothing on
`cerr`. -/
theorem initEngine_failure_reports_counterexample :
    initReport { buffer := [], cerr := [] }
        { identity := [], searchDepth := 0, variations := 0, toEngine := [],
          fromEngine := ["id name X\n".toList] }
        3 20 { entries := [], ascending := List.Pairwise.nil } = (false, []) ∧
    initReport { buffer := [], cerr := [] }
        { identity := [], searchDepth := 0, variations := 0, toEngine := [],
          fromEngine := ["id name X\nuciok\n".toList] }
        3 20 { entries := [], ascending := List.Pairwise.nil } = (false, []) := by
  decide

/-! ## C17: pipe ends after startEngine -/

/-- C17, the code on a successful start.  In the unix branch the parent is left with
exactly the write end of the parent-to-child pipe and the read end of the child-to-parent
pipe, and the child holds neither of these two.  In the windows branch the child holds
only its own two ends, but the parent is left with all four pipe ends: it never closes
`unusedChildStdoutWrite` and `unusedChildStdinRead`. -/
theorem startEngine_pipe_ends :
    ((startEngineUnix (UnixCalls.mk true true true true)).map (fun s => (s.result, openEnds s.parent)) =
      some (true, [PipeEnd.parentToChildWrite, PipeEnd.childToParentRead]) ∧
     (startEngineUnix (UnixCalls.mk true true true true)).map (fun s => s.child.map openEnds) =
      some (some [PipeEnd.parentToChildRead, PipeEnd.childToParentWrite,
        PipeEnd.parentToChildRead, PipeEnd.childToParentWrite])) ∧
    ((startEngineWindows (WindowsCalls.mk true true true true true)).result = true ∧
     openEnds (startEngineWindows (WindowsCalls.mk true true true true true)).parent =
      [PipeEnd.childToParentRead, PipeEnd.childToParentWrite,
        PipeEnd.parentToChildRead, PipeEnd.parentToChildWrite] ∧
     (startEngineWindows (WindowsCalls.mk true true true true true)).child.map openEnds =
      some [PipeEnd.childToParentWrite, PipeEnd.parentToChildRead]) := by
  decide

/-! ## C20: conservation of bytes -/

theorem stripTerminators_append (u v : List Char) :
    stripTerminators (u ++ v) = stripTerminators u ++ stripTerminators v := by
  simp [stripTerminators]

theorem stripTerminators_of_clean {w : List Char} (h : Clean w) : stripTerminators w = w := by
  unfold stripTerminators
  rw [List.filter_eq_self]
  intro c hc
  have := h c hc
  simp [this.1, this.2.1]

theorem stripTerminators_cons_term {t : Char} (x : List Char) (ht : IsTerm t) :
    stripTerminators (t :: x) = stripTerminators x := by
  unfold stripTerminators
  rcases ht with h | h <;> subst h <;> simp

theorem stripTerminators_dropTerm (q : List Char) :
    stripTerminators (dropTerm q) = stripTerminators q := by
  cases q with
  | nil => rw [dropTerm_nil]
  | cons c q =>
    by_cases h : IsTerm c
    · rw [dropTerm_cons_term q h, stripTerminators_cons_term q h]
    · rw [dropTerm_cons_not q h]

theorem mem_stripTerminators {c : Char} {s : List Char} (h : c ∈ stripTerminators s) :
    c ≠ '\n' ∧ c ≠ '\r' := by
  unfold stripTerminators at h
  have := (List.mem_filter.mp h).2
  simpa using this

/-- The texts returned by the calls of a run up to and including the first that reports
`eof`, put together, are what the buffer and the pipe held, less the terminator
characters. -/
theorem responses_conserve (k : Nat) :
    ∀ (b : List Char) (cs : List (List Char)), (b ++ cs.flatten).length ≤ k →
      (∀ c ∈ cs, c ≠ []) → NulFree (b ++ cs.flatten) →
      ∃ n, (∀ m < n, (nthResponse m b cs).eof = false) ∧ (nthResponse n b cs).eof = true ∧
        ((getResponses (n + 1) b cs).map (fun r => r.1)).flatten =
          stripTerminators (b ++ cs.flatten) := by
  induction k with
  | zero =>
    intro b cs hk hne _
    have hnil : b ++ cs.flatten = [] := List.length_eq_zero.mp (Nat.le_zero.mp hk)
    have hr := getResponse_eof_any b cs hne (by rw [hnil]; exact Clean.nil)
    refine ⟨0, fun m hm => absurd hm (Nat.not_lt_zero _), by rw [nthResponse_zero, hr], ?_⟩
    rw [getResponses_succ, hr, hnil]
    rfl
  | succ k ih =>
    intro b cs hk hne hnul
    rcases clean_or_split (b ++ cs.flatten) with hcl | ⟨w, x, rest, hsplit, hw, hx⟩
    · have hr := getResponse_eof_any b cs hne hcl
      refine ⟨0, fun m hm => absurd hm (Nat.not_lt_zero _), by rw [nthResponse_zero, hr], ?_⟩
      rw [getResponses_succ, hr, stripTerminators_of_clean hcl]
      simp [getResponses]
    · have hxt : IsTerm x := by
        rcases hx with h | h | h
        · exact Or.inl h
        · exact Or.inr h
        · exact absurd h (hnul x (by rw [hsplit]; simp))
      obtain ⟨q, cs', h2, h3, h4⟩ := getResponse_line_any b cs w x rest hne hsplit hw hxt
      have hrestn : NulFree rest := fun c hc => hnul c (by rw [hsplit]; simp [hc])
      have hqn : NulFree q := fun c hc => hrestn c (by rw [h2]; exact List.mem_append_left _ hc)
      have hdq : cstr (dropTerm q) = dropTerm q :=
        cstr_of_nulFree (fun c hc => hqn c ((dropTerm_suffix q).subset hc))
      rw [hdq] at h4
      have hlen : (dropTerm q ++ cs'.flatten).length ≤ k := by
        have h5 := (dropTerm_suffix q).length_le
        have h6 : (b ++ cs.flatten).length = w.length + 1 + rest.length := by
          rw [hsplit]; simp; omega
        have h7 : rest.length = q.length + cs'.flatten.length := by rw [h2]; simp
        rw [List.length_append]
        omega
      have hnul' : NulFree (dropTerm q ++ cs'.flatten) := by
        intro c hc
        rcases List.mem_append.mp hc with h | h
        · exact hqn c ((dropTerm_suffix q).subset h)
        · exact hrestn c (by rw [h2]; exact List.mem_append_right _ h)
      obtain ⟨n, hn1, hn2, hn3⟩ := ih (dropTerm q) cs' hlen h3 hnul'
      refine ⟨n + 1, ?_, ?_, ?_⟩
      · intro m hm
        cases m with
        | zero => rw [nthResponse_zero, h4]
        | succ m =>
          rw [nthResponse_succ, h4]
          exact hn1 m (by omega)
      · rw [nthResponse_succ, h4]
        exact hn2
      · rw [getResponses_succ, h4]
        simp only [List.map_cons, List.flatten_cons]
        have hR : stripTerminators (w ++ x :: rest) =
            w ++ (stripTerminators q ++ stripTerminators cs'.flatten) := by
          rw [stripTerminators_append, stripTerminators_of_clean hw,
            stripTerminators_cons_term rest hxt, h2, stripTerminators_append]
        rw [hn3, hsplit, hR, stripTerminators_append, stripTerminators_dropTerm]

/-- C20: for every NUL-free inbound stream, every division of it into non-empty physical
reads (of any length) and an initially empty pending buffer, there is a first call of
`getResponse` that reports `eof = true`, and the texts returned by the calls up to and
including it, put together, are the stream with every `\n` and `\r` removed; so no
returned text holds `\n` or `\r`, and no other character is lost, duplicated or
reordered. -/
theorem getResponse_conserves_bytes (chunks : List (List Char))
    (hne : ∀ c ∈ chunks, c ≠ []) (hnul : NulFree chunks.flatten) :
    ∃ n, (∀ m < n, (nthResponse m [] chunks).eof = false) ∧
      (nthResponse n [] chunks).eof = true ∧
      ((getResponses (n + 1) [] chunks).map (fun r => r.1)).flatten =
        stripTerminators chunks.flatten ∧
      ∀ r ∈ getResponses (n + 1) [] chunks, ∀ c ∈ r.1, c ≠ '\n' ∧ c ≠ '\r' := by
  obtain ⟨n, h1, h2, h3⟩ := responses_conserve _ [] chunks (le_refl _) hne
    (by simpa using hnul)
  rw [List.nil_append] at h3
  refine ⟨n, h1, h2, h3, fun r hr c hc => ?_⟩
  apply mem_stripTerminators (s := chunks.flatten)
  rw [← h3]
  exact List.mem_flatten.mpr ⟨r.1, List.mem_map.mpr ⟨r, hr, rfl⟩, hc⟩

/-- C20, witness: the stream `a\r\nbc\n\nd` read as `a\r`, `\nbc\n\n`, `d`. -/
theorem getResponse_conserves_bytes_witness :
    ∃ n, (∀ m < n, (nthResponse m [] ["a\r".toList, "\nbc\n\n".toList, "d".toList]).eof
        = false) ∧
      (nthResponse n [] ["a\r".toList, "\nbc\n\n".toList, "d".toList]).eof = true ∧
      ((getResponses (n + 1) [] ["a\r".toList, "\nbc\n\n".toList, "d".toList]).map
        (fun r => r.1)).flatten =
        stripTerminators ["a\r".toList, "\nbc\n\n".toList, "d".toList].flatten ∧
      ∀ r ∈ getResponses (n + 1) [] ["a\r".toList, "\nbc\n\n".toList, "d".toList],
        ∀ c ∈ r.1, c ≠ '\n' ∧ c ≠ '\r' :=
  getResponse_conserves_bytes ["a\r".toList, "\nbc\n\n".toList, "d".toList] (by decide)
    (by decide)

/-! ## C15: operations that only write -/

theorem sendOn_written (os : WriteCalls) (e : Engine) (str : List Char)
    (h : os.written = true) : sendOn os e str = some (send e str) := by
  cases os with
  | unix r =>
    simp only [WriteCalls.written] at h
    subst h
    rfl
  | windows a b =>
    simp only [WriteCalls.written, Bool.and_eq_true] at h
    obtain ⟨rfl, rfl⟩ := h
    simp [sendOn, send]

/-- What one call of `sendOn` can do to the engine object: nothing but extend `toEngine`. -/
theorem sendOn_frame (os : WriteCalls) (e e' : Engine) (str : List Char)
    (h : sendOn os e str = some e') :
    e'.identity = e.identity ∧ e'.searchDepth = e.searchDepth ∧
    e'.variations = e.variations ∧ e'.fromEngine = e.fromEngine := by
  cases os with
  | unix r =>
    cases r with
    | false => simp [sendOn] at h
    | true =>
      simp only [sendOn, if_true, Option.some.injEq] at h
      subst h
      exact ⟨rfl, rfl, rfl, rfl⟩
  | windows a b =>
    cases a <;> cases b <;> simp only [sendOn, Bool.false_eq_true, if_true, if_false,
      Option.some.injEq] at h <;> subst h <;> exact ⟨rfl, rfl, rfl, rfl⟩

theorem sendOn_failed (e : Engine) (str : List Char) (writeNewl : Bool) :
    sendOn (WriteCalls.windows false writeNewl) e str = some e := by
  simp [sendOn]

theorem sendOn_sessionKept (os : WriteCalls) (g : Globals) (e : Engine) (str : List Char) :
    SessionKept g e (sendOn os e str) := by
  intro e' he
  obtain ⟨h1, h2, h3, h4⟩ := sendOn_frame os e e' str he
  exact ⟨h1, h2, h3, h4, by rw [h4]⟩

theorem sendOn_withCommands (os : WriteCalls) (e : Engine) (str : List Char)
    (hw : os.written = true) (h : NulFree str) :
    sendOn os e str = some (withCommands e [str]) := by
  rw [sendOn_written os e str hw, send_toEngine e str h]
  simp [withCommands, commandText]

theorem foldl_bind_none {α β : Type} (f : α → β → Option α) (l : List β) :
    l.foldl (fun r it => r.bind (fun a => f a it)) none = none := by
  induction l with
  | nil => rfl
  | cons x l ih => simpa using ih

theorem setOptionOn_written (os : WriteCalls) (e : Engine) (name value : List Char)
    (h : os.written = true) : setOptionOn os e name value = some (setOption e name value) :=
  sendOn_written os e _ h

theorem setOptionsOn_written (os : WriteCalls) (h : os.written = true)
    (entries : List (List Char × List Char)) :
    ∀ e : Engine,
      entries.foldl (fun r it => r.bind (fun e => setOptionOn os e it.1 it.2)) (some e) =
        some (entries.foldl (fun e it => setOption e it.1 it.2) e) := by
  induction entries with
  | nil => intro e; rfl
  | cons it rest ih =>
    intro e
    rw [List.foldl_cons, List.foldl_cons, Option.some_bind, setOptionOn_written os e _ _ h, ih]

theorem setOptionsOn_frame (os : WriteCalls) (entries : List (List Char × List Char)) :
    ∀ e e' : Engine,
      entries.foldl (fun r it => r.bind (fun e => setOptionOn os e it.1 it.2)) (some e) =
        some e' →
      e'.identity = e.identity ∧ e'.searchDepth = e.searchDepth ∧
      e'.variations = e.variations ∧ e'.fromEngine = e.fromEngine := by
  induction entries with
  | nil =>
    intro e e' h
    simp only [List.foldl_nil, Option.some.injEq] at h
    subst h
    exact ⟨rfl, rfl, rfl, rfl⟩
  | cons it rest ih =>
    intro e e' h
    rw [List.foldl_cons, Option.some_bind] at h
    cases h1 : setOptionOn os e it.1 it.2 with
    | none =>
      rw [h1] at h
      have h0 := foldl_bind_none
        (fun (e : Engine) (it : List Char × List Char) => setOptionOn os e it.1 it.2) rest
      rw [h0] at h
      exact absurd h (by simp)
    | some e1 =>
      rw [h1] at h
      obtain ⟨a1, a2, a3, a4⟩ := sendOn_frame os e e1 _ h1
      obtain ⟨b1, b2, b3, b4⟩ := ih e1 e' h
      exact ⟨b1.trans a1, b2.trans a2, b3.trans a3, b4.trans a4⟩

theorem setOptionsOn_failed (writeNewl : Bool) (entries : List (List Char × List Char)) :
    ∀ e : Engine,
      entries.foldl
        (fun r it => r.bind (fun e => setOptionOn (WriteCalls.windows false writeNewl) e it.1 it.2))
        (some e) = some e := by
  induction entries with
  | nil => intro e; rfl
  | cons it rest ih =>
    intro e
    rw [List.foldl_cons, Option.some_bind]
    have h0 : setOptionOn (WriteCalls.windows false writeNewl) e it.1 it.2 = some e :=
      sendOn_failed e _ writeNewl
    rw [h0, ih]

/-- C15 (amended), for each of `quitEngine`, `go`, `searchMoves`, `setPosition`,
`setOption` (both forms) and `setOptions`, whatever the operating system answers to its
writes.  (1) It makes no read on the inbound stream and, when the process lives on after
it, leaves `identity`, `searchDepth`, `variations` and the inbound stream unchanged, so
that a call of `getResponse` finds the pending-line buffer and the stream as before.
(2) When the first write of the windows build fails, it changes nothing at all.  (3) When
its writes succeed and its arguments hold no NUL, its only effect is to append its command
text or texts, each followed by one newline, to the outbound stream.  (4) So `quitEngine`
then appends exactly `quit` and a newline.  (5) With successful writes the operations are
those that the other claims speak of. -/
theorem write_only_operations (os : WriteCalls) (g : Globals) (e : Engine)
    (moves fen name value : List Char) (n : Int) (options : StringMap) :
    (SessionKept g e (quitEngineOn os e) ∧ SessionKept g e (goOn os e) ∧
      SessionKept g e (searchMovesOn os e moves) ∧
      SessionKept g e (setPositionOn os e moves fen) ∧
      SessionKept g e (setOptionOn os e name value) ∧
      SessionKept g e (setOptionIntOn os e name n) ∧
      SessionKept g e (setOptionsOn os e options)) ∧
    (∀ writeNewl, os = WriteCalls.windows false writeNewl →
      quitEngineOn os e = some e ∧ goOn os e = some e ∧
      searchMovesOn os e moves = some e ∧ setPositionOn os e moves fen = some e ∧
      setOptionOn os e name value = some e ∧ setOptionIntOn os e name n = some e ∧
      setOptionsOn os e options = some e) ∧
    (os.written = true →
      quitEngineOn os e = some (withCommands e ["quit".toList]) ∧
      goOn os e = some (withCommands e ["go depth ".toList ++ decimal e.searchDepth]) ∧
      (NulFree moves → searchMovesOn os e moves = some (withCommands e
        ["go depth ".toList ++ decimal e.searchDepth ++ " searchmoves ".toList ++ moves])) ∧
      (NulFree moves → NulFree fen → setPositionOn os e moves fen = some (withCommands e
        [if fen.length == 0 then "position startpos moves ".toList ++ moves
         else "position fen ".toList ++ fen ++ " moves ".toList ++ moves])) ∧
      (NulFree name → NulFree value →
        setOptionOn os e name value = some (withCommands e [setoptionCommand name value])) ∧
      (NulFree name → setOptionIntOn os e name n =
        some (withCommands e [setoptionCommand name (decimal n)])) ∧
      ((∀ it ∈ options.entries, NulFree it.1 ∧ NulFree it.2) →
        setOptionsOn os e options = some (withCommands e
          (options.entries.map (fun it => setoptionCommand it.1 it.2))))) ∧
    (os.written = true →
      quitEngineOn os e = some { e with toEngine := e.toEngine ++ "quit\n".toList }) ∧
    (os.written = true →
      quitEngineOn os e = some (quitEngine e) ∧ goOn os e = some (go e) ∧
      searchMovesOn os e moves = some (searchMoves e moves) ∧
      setPositionOn os e moves fen = some (setPosition e moves fen) ∧
      setOptionOn os e name value = some (setOption e name value) ∧
      setOptionIntOn os e name n = some (setOptionInt e name n) ∧
      setOptionsOn os e options = some (setOptions e options)) := by
  have hgo : NulFree ("go depth ".toList ++ decimal e.searchDepth) :=
    NulFree.append (by decide) (decimal_nulFree _)
  have hpos : setPositionOn os e moves fen =
      sendOn os e (if fen.length == 0 then "position startpos moves ".toList ++ moves
        else "position fen ".toList ++ fen ++ " moves ".toList ++ moves) := by
    unfold setPositionOn setFENPositionOn
    split_ifs <;> simp only [List.append_assoc]
  have hsm : searchMovesOn os e moves = sendOn os e
      ("go depth ".toList ++ decimal e.searchDepth ++ " searchmoves ".toList ++ moves) := by
    unfold searchMovesOn
    simp only [List.append_assoc]
  refine ⟨⟨sendOn_sessionKept os g e _, sendOn_sessionKept os g e _,
    sendOn_sessionKept os g e _, ?_, sendOn_sessionKept os g e _,
    sendOn_sessionKept os g e _, ?_⟩, ?_, ?_, ?_, ?_⟩
  · rw [hpos]
    exact sendOn_sessionKept os g e _
  · intro e' he
    obtain ⟨h1, h2, h3, h4⟩ := setOptionsOn_frame os options.entries e e' he
    exact ⟨h1, h2, h3, h4, by rw [h4]⟩
  · intro b hb
    subst hb
    refine ⟨sendOn_failed e _ b, sendOn_failed e _ b, sendOn_failed e _ b, ?_,
      sendOn_failed e _ b, sendOn_failed e _ b, setOptionsOn_failed b _ e⟩
    rw [hpos]
    exact sendOn_failed e _ b
  · intro hw
    refine ⟨sendOn_withCommands os e _ hw (by decide), sendOn_withCommands os e _ hw hgo,
      fun hm => ?_, fun hm hf => ?_,
      fun hn hv => sendOn_withCommands os e _ hw (setoptionCommand_nulFree hn hv),
      fun hn => sendOn_withCommands os e _ hw (setoptionCommand_nulFree hn (decimal_nulFree n)),
      fun ho => ?_⟩
    · rw [hsm]
      exact sendOn_withCommands os e _ hw (NulFree.append (NulFree.append hgo (by decide)) hm)
    · rw [hpos]
      apply sendOn_withCommands os e _ hw
      split_ifs
      · exact NulFree.append (by decide) hm
      · exact NulFree.append (NulFree.append (NulFree.append (by decide) hf) (by decide)) hm
    · unfold setOptionsOn withCommands
      rw [setOptionsOn_written os hw, setOptions_sentText, sentText_eq_commandText]
      intro c hc
      obtain ⟨it, hit, rfl⟩ := List.mem_map.mp hc
      exact setoptionCommand_nulFree (ho it hit).1 (ho it hit).2
  · intro hw
    unfold quitEngineOn
    rw [sendOn_written os e _ hw, send_toEngine e _ (by decide)]
    simp only [List.append_assoc]
    rfl
  · intro hw
    refine ⟨sendOn_written os e _ hw, sendOn_written os e _ hw, sendOn_written os e _ hw, ?_,
      sendOn_written os e _ hw, sendOn_written os e _ hw, setOptionsOn_written os hw _ e⟩
    unfold setPositionOn setFENPositionOn setPosition setFENPosition
    split_ifs <;> exact sendOn_written os e _ hw

/-- C15, witness: on an engine object that has sent `uci`, with the engine alive (unix
build), `setPosition` for the moves `e2e4` from the start position appends exactly
`position startpos moves e2e4` and a newline and changes nothing else; and when the first
`WriteFile` of the windows build fails, `quitEngine` leaves the engine object as it was. -/
theorem write_only_operations_witness :
    setPositionOn (WriteCalls.unix true)
        { identity := ['X'], searchDepth := 20, variations := 3, toEngine := "uci\n".toList,
          fromEngine := ["readyok\n".toList] } "e2e4".toList [] =
      some { identity := ['X'], searchDepth := 20, variations := 3,
             toEngine := "uci\nposition startpos moves e2e4\n".toList,
             fromEngine := ["readyok\n".toList] } ∧
    quitEngineOn (WriteCalls.windows false false)
        { identity := ['X'], searchDepth := 20, variations := 3, toEngine := "uci\n".toList,
          fromEngine := ["readyok\n".toList] } =
      some { identity := ['X'], searchDepth := 20, variations := 3, toEngine := "uci\n".toList,
             fromEngine := ["readyok\n".toList] } :=
  ⟨((write_only_operations (WriteCalls.unix true) { buffer := [], cerr := [] }
      { identity := ['X'], searchDepth := 20, variations := 3, toEngine := "uci\n".toList,
        fromEngine := ["readyok\n".toList] } "e2e4".toList [] "Hash".toList "16".toList 2
      { entries := [("Hash".toList, "16".toList)], ascending := by decide }).2.2.1
      rfl).2.2.2.1 (by decide) (by decide),
   ((write_only_operations (WriteCalls.windows false false) { buffer := [], cerr := [] }
      { identity := ['X'], searchDepth := 20, variations := 3, toEngine := "uci\n".toList,
        fromEngine := ["readyok\n".toList] } "e2e4".toList [] "Hash".toList "16".toList 2
      { entries := [("Hash".toList, "16".toList)], ascending := by decide }).2.1 false rfl).1⟩

/-- C15, counterexample.  A command text with a NUL: for the moves `e2`, NUL, `e4` the
successful `setPosition` appends `position startpos moves e2` and a newline, not the command
text.  A second `quitEngine` after termination: the unix parent holds no copy of the read
end of its pipe to the engine, so once the engine has exited the write meets a pipe without
reader and the process is ended by SIGPIPE; and when the first `WriteFile` of the windows
build fails, nothing at all is appended.  In neither build is `quit` and a newline
appended. -/
theorem write_only_operations_counterexample :
    (setPositionOn (WriteCalls.unix true)
        { identity := [], searchDepth := 0, variations := 0, toEngine := [], fromEngine := [] }
        ['e', '2', NUL, 'e', '4'] [] =
      some { identity := [], searchDepth := 0, variations := 0,
             toEngine := "position startpos moves e2\n".toList, fromEngine := [] } ∧
     "position startpos moves e2\n".toList ≠
      [] ++ commandText ["position startpos moves ".toList ++ ['e', '2', NUL, 'e', '4']]) ∧
    (quitEngineOn (WriteCalls.unix true)
        { identity := [], searchDepth := 0, variations := 0, toEngine := [], fromEngine := [] } =
      some { identity := [], searchDepth := 0, variations := 0, toEngine := "quit\n".toList,
             fromEngine := [] } ∧
     (startEngineUnix (UnixCalls.mk true true true true)).map
        (fun st => decide (PipeEnd.parentToChildRead ∈ openEnds st.parent)) = some false ∧
     quitEngineOn (WriteCalls.unix false)
        { identity := [], searchDepth := 0, variations := 0, toEngine := "quit\n".toList,
          fromEngine := [] } = none ∧
     quitEngineOn (WriteCalls.windows false false)
        { identity := [], searchDepth := 0, variations := 0, toEngine := "quit\n".toList,
          fromEngine := [] } =
      some { identity := [], searchDepth := 0, variations := 0, toEngine := "quit\n".toList,
             fromEngine := [] }) := by
  decide

/-! ## C19: waiting until a match -/

theorem terminated_nil : terminated [] = [] := rfl

theorem terminated_cons (w : List Char) (c : Char) (ls : List (List Char × Char)) :
    terminated ((w, c) :: ls) = w ++ c :: terminated ls := by
  simp [terminated]

theorem terminated_nulFree {ls : List (List Char × Char)}
    (h : ∀ l ∈ ls, Clean l.1 ∧ IsTerm l.2) : NulFree (terminated ls) := by
  induction ls with
  | nil => intro c hc; simp [terminated] at hc
  | cons l ls ih =>
    obtain ⟨w, c⟩ := l
    rw [terminated_cons]
    have h0 := h (w, c) (List.mem_cons_self _ _)
    have hc : NulFree [c] := by
      intro x hx
      simp only [List.mem_singleton] at hx
      subst hx
      rcases h0.2 with h1 | h1 <;> simp only at h1 <;> rw [h1] <;> decide
    have := NulFree.append h0.1.toNulFree
      (NulFree.append hc (ih (fun l hl => h l (List.mem_cons_of_mem _ hl))))
    simpa using this

/-- A read boundary of `b :: cs` carries over to the buffer and pipe that a call leaves:
if the call has consumed `consumed` and no boundary of `b :: cs` lies right after
`consumed ++ o`, none of `b1 :: cs1` lies right after `o`. -/
theorem boundary_transfer {b b1 seg consumed : List Char} {cs cs1 : List (List Char)}
    (h1 : seg :: cs1 <:+ b :: cs) (hb : b1 <:+ seg)
    (hfl : b ++ cs.flatten = consumed ++ (b1 ++ cs1.flatten)) (o : List Char) (ho : o ≠ [])
    (hP : ∀ k, ((b :: cs).take k).flatten ≠ consumed ++ o) :
    ∀ k, ((b1 :: cs1).take k).flatten ≠ o := by
  obtain ⟨front, hfront⟩ := h1
  obtain ⟨z, hz⟩ := hb
  have hc : front.flatten ++ z = consumed := by
    have h2 : (b :: cs).flatten = b ++ cs.flatten := rfl
    rw [← hfront, List.flatten_append, List.flatten_cons, ← hz] at h2
    rw [← h2] at hfl
    have h5 : front.flatten ++ z ++ (b1 ++ cs1.flatten) = consumed ++ (b1 ++ cs1.flatten) := by
      rw [← hfl]
      simp only [List.append_assoc]
    exact List.append_cancel_right h5
  intro k hk
  cases k with
  | zero => exact ho (by simpa using hk.symm)
  | succ k =>
    apply hP (front.length + (k + 1))
    rw [← hfront, List.take_append, List.take_succ_cons, List.flatten_append,
      List.flatten_cons, ← hz, ← hc]
    rw [List.take_succ_cons, List.flatten_cons] at hk
    rw [← hk]
    simp only [List.append_assoc]

theorem cstr_dropTerm {q : List Char} (h : NulFree q) : cstr (dropTerm q) = dropTerm q :=
  cstr_of_nulFree (fun c hc => h c ((dropTerm_suffix q).subset hc))

theorem head_not_term_of_clean_cons {s : List Char} (hs : Clean s) (hne : s ≠ [])
    (y : List Char) {d : Char} {x : List Char} (h : s ++ y = d :: x) : ¬ IsTerm d := by
  apply head_not_term_of_clean y hs hne d
  rw [h]
  rfl

/-- The calls of `getResponse` that `waitForResponse(s)` makes before it reaches the line
`s`: when the buffer and the pipe hold the terminated texts `pre`, none of them `s`, and then
`s ++ y`, some call `j` starts with exactly `s ++ y` pending, and no earlier call reports
`eof` or returns `s`. -/
theorem discard_until (s y : List Char) (hs : Clean s) (hne : s ≠ []) (hy : NulFree y)
    (n : Nat) :
    ∀ (pre : List (List Char × Char)), pre.length ≤ n →
    ∀ (b : List Char) (cs : List (List Char)), Chunked cs →
      b ++ cs.flatten = terminated pre ++ (s ++ y) →
      (∀ l ∈ pre, Clean l.1 ∧ IsTerm l.2 ∧ l.1 ≠ s) →
      ∃ j b1 cs1,
        (∀ m < j, (nthResponse m b cs).eof = false ∧ (nthResponse m b cs).result ≠ s) ∧
        nthResponse j b cs = getResponse b1 cs1 ∧
        b1 ++ cs1.flatten = s ++ y ∧ Chunked cs1 ∧
        ∀ o, o ≠ [] → (∀ k, ((b :: cs).take k).flatten ≠ terminated pre ++ o) →
          ∀ k, ((b1 :: cs1).take k).flatten ≠ o := by
  induction n with
  | zero =>
    intro pre hlen b cs hch hfl _
    have : pre = [] := List.length_eq_zero.mp (Nat.le_zero.mp hlen)
    subst this
    refine ⟨0, b, cs, fun m hm => absurd hm (Nat.not_lt_zero _), rfl, ?_, hch, ?_⟩
    · simpa [terminated] using hfl
    · intro o _ hP
      simpa [terminated] using hP
  | succ n ih =>
    intro pre hlen b cs hch hfl hpre
    cases pre with
    | nil =>
      refine ⟨0, b, cs, fun m hm => absurd hm (Nat.not_lt_zero _), rfl, ?_, hch, ?_⟩
      · simpa [terminated] using hfl
      · intro o _ hP
        simpa [terminated] using hP
    | cons l pre' =>
      obtain ⟨w, c⟩ := l
      have h0 := hpre (w, c) (List.mem_cons_self _ _)
      have hpre' : ∀ l ∈ pre', Clean l.1 ∧ IsTerm l.2 ∧ l.1 ≠ s :=
        fun l hl => hpre l (List.mem_cons_of_mem _ hl)
      have hxn : NulFree (terminated pre' ++ (s ++ y)) :=
        NulFree.append (terminated_nulFree (fun l hl => ⟨(hpre' l hl).1, (hpre' l hl).2.1⟩))
          (NulFree.append hs.toNulFree hy)
      rw [terminated_cons, List.append_assoc, List.cons_append] at hfl
      obtain ⟨p, q, cs', h1, h2, h3⟩ :=
        getResponse_line b cs w c (terminated pre' ++ (s ++ y)) hch hfl h0.1 h0.2.1
      have hqn : NulFree q := fun x hx => hxn x (by rw [h2]; exact List.mem_append_left _ hx)
      rw [cstr_dropTerm hqn] at h3
      have hch' : Chunked cs' := hch.of_suffix (suffix_tail_of_cons_suffix h1)
      have hsuf : dropTerm q <:+ p ++ c :: q :=
        (dropTerm_suffix q).trans (suffix_append_cons p c q)
      -- the run after the first call
      have hrun : ∀ m, nthResponse (m + 1) b cs = nthResponse m (dropTerm q) cs' := by
        intro m
        rw [nthResponse_succ, h3]
      have h00 : (nthResponse 0 b cs).eof = false ∧ (nthResponse 0 b cs).result ≠ s := by
        rw [nthResponse_zero, h3]
        exact ⟨rfl, h0.2.2⟩
      -- what is pending after the first call, and the lines still before `s`
      have key : ∃ pre'' consumed, pre''.length ≤ n ∧
          dropTerm q ++ cs'.flatten = terminated pre'' ++ (s ++ y) ∧
          (∀ l ∈ pre'', Clean l.1 ∧ IsTerm l.2 ∧ l.1 ≠ s) ∧
          w ++ c :: (terminated pre' ++ (s ++ y)) =
            consumed ++ (dropTerm q ++ cs'.flatten) ∧
          ∀ o, terminated ((w, c) :: pre') ++ o = consumed ++ (terminated pre'' ++ o) := by
        have hlen' : pre'.length ≤ n := by
          simp only [List.length_cons] at hlen
          omega
        by_cases hd : dropTerm q = q
        · refine ⟨pre', w ++ [c], hlen', by rw [hd, ← h2], hpre', ?_, ?_⟩
          · rw [hd, ← h2]
            simp
          · intro o
            rw [terminated_cons]
            simp
        · cases q with
          | nil => exact absurd dropTerm_nil hd
          | cons d q' =>
            have hdt : IsTerm d := by
              by_contra hnt
              exact hd (dropTerm_cons_not q' hnt)
            have hdq : dropTerm (d :: q') = q' := dropTerm_cons_term q' hdt
            rw [List.cons_append] at h2
            cases pre' with
            | nil =>
              rw [terminated_nil, List.nil_append] at h2
              exact absurd hdt (head_not_term_of_clean_cons hs hne y h2)
            | cons l2 pre'' =>
              obtain ⟨w2, c2⟩ := l2
              have h20 := hpre' (w2, c2) (List.mem_cons_self _ _)
              rw [terminated_cons] at h2
              cases w2 with
              | cons a w2 =>
                exfalso
                simp only [List.cons_append, List.cons.injEq] at h2
                have := (Clean.cons_iff.mp h20.1).1
                rw [h2.1] at this
                rcases hdt with e | e
                · exact this.1 e
                · exact this.2.1 e
              | nil =>
                simp only [List.nil_append, List.cons_append, List.cons.injEq] at h2
                refine ⟨pre'', w ++ [c, c2], ?_, by rw [hdq, ← h2.2], ?_, ?_, ?_⟩
                · simp only [List.length_cons] at hlen'
                  omega
                · exact fun l hl => hpre' l (List.mem_cons_of_mem _ hl)
                · rw [hdq, ← h2.2, terminated_cons]
                  simp
                · intro o
                  rw [terminated_cons, terminated_cons]
                  simp
      obtain ⟨pre'', consumed, hl'', hfl'', hpre'', hcons, hterm⟩ := key
      obtain ⟨j, b1, cs1, hj1, hj2, hj3, hj4, hj5⟩ :=
        ih pre'' hl'' (dropTerm q) cs' hch' hfl'' hpre''
      refine ⟨j + 1, b1, cs1, ?_, by rw [hrun, hj2], hj3, hj4, ?_⟩
      · intro m hm
        cases m with
        | zero => exact h00
        | succ m =>
          rw [hrun]
          exact hj1 m (by omega)
      · intro o ho hP
        apply hj5 o ho
        apply boundary_transfer h1 hsuf (hfl.trans hcons) (terminated pre'' ++ o)
          (by simp [ho])
        intro k
        rw [← hterm]
        exact hP k

theorem strcmpEq_self (s : List Char) : strcmpEq s s = true := by
  simp [strcmpEq]

/-- C19 (amended): let the pending data of the line reader (the static buffer followed by
the physical reads still to come, each non-empty and no longer than the buffer capacity)
be `pre s t rest`, where `s` is non-empty and free of `\n`, `\r` and NUL, `pre` is a run of
texts free of `\n`, `\r` and NUL, each ended by one terminator character and none equal to
`s` (a line of `pre` ended by `\r\n` counts as its text ended by `\r` and an empty text
ended by `\n`), `t` is one of `\n`, `\r`, `\r\n`, `\n\r`, and `rest` holds no NUL.  If `t` is one
character, let `rest` not start with a terminator character; if `t` is two characters, let
no read boundary fall between them.  Then `waitForResponse(s)` returns true, changes nothing
but the static buffer and the inbound stream, and leaves exactly `rest` pending: every line of
`pre` is discarded, also those that contain `s` or differ from it by leading or trailing
characters, and nothing after `s t` is consumed, so that when `rest` starts with a line
`nxt` and a terminator character, the next call of `getResponse` returns `nxt` with
`eof = false`. -/
theorem waitForResponse_until_match (g : Globals) (e : Engine) (s : List Char)
    (pre : List (List Char × Char)) (t rest : List Char)
    (hch : Chunked e.fromEngine)
    (hdata : g.buffer ++ e.fromEngine.flatten = terminated pre ++ s ++ t ++ rest)
    (hpre : ∀ l ∈ pre, Clean l.1 ∧ IsTerm l.2 ∧ l.1 ≠ s)
    (hs : Clean s) (hne : s ≠ []) (ht : IsTerminator t) (hrest : NulFree rest)
    (hsep : t.length = 1 → ∀ c, rest.head? = some c → ¬ IsTerm c)
    (hcut : t.length = 2 → ∀ k,
      ((g.buffer :: e.fromEngine).take k).flatten ≠ terminated pre ++ s ++ t.take 1) :
    ∃ b' cs',
      waitForResponse g e s =
        (true, { g with buffer := b' }, { e with fromEngine := cs' }) ∧
      b' ++ cs'.flatten = rest ∧
      ∀ nxt c more, rest = nxt ++ c :: more → Clean nxt → IsTerm c →
        (getResponse b' cs').result = nxt ∧ (getResponse b' cs').eof = false := by
  have hsn : NulFree s := hs.toNulFree
  have hyn : NulFree (t ++ rest) := NulFree.append ht.isNulFree hrest
  obtain ⟨j, b1, cs1, hj1, hj2, hj3, hj4, hj5⟩ :=
    discard_until s (t ++ rest) hs hne hyn pre.length pre (le_refl _) g.buffer e.fromEngine hch
      (by rw [hdata]; simp only [List.append_assoc]) hpre
  -- the call that returns `s`
  have hmatch : ∃ b' cs', getResponse b1 cs1 =
      { result := s, eof := false, buffer := b', fromEngine := cs' } ∧
      b' ++ cs'.flatten = rest ∧ Chunked cs' := by
    obtain ⟨t0, ts, rfl, ht0, -⟩ := ht.split
    rw [List.cons_append] at hj3
    obtain ⟨p, q, cs', h1, h2, h3⟩ := getResponse_line b1 cs1 s t0 (ts ++ rest) hj4 hj3 hs ht0
    have hqn : NulFree q := by
      intro x hx
      apply hyn x
      rw [List.cons_append, h2]
      exact List.mem_cons_of_mem _ (List.mem_append_left _ hx)
    rw [cstr_dropTerm hqn] at h3
    have hch' : Chunked cs' := hj4.of_suffix (suffix_tail_of_cons_suffix h1)
    refine ⟨dropTerm q, cs', h3, ?_, hch'⟩
    cases ts with
    | nil =>
      rw [List.nil_append] at h2
      have hq : dropTerm q = q := by
        cases q with
        | nil => exact dropTerm_nil
        | cons d q' =>
          apply dropTerm_cons_not
          apply hsep rfl
          rw [h2]
          rfl
      rw [hq, ← h2]
    | cons t1 ts' =>
      have hts : ts' = [] ∧ IsTerm t1 := by
        rcases ht with h | h | h | h <;> simp at h
        · exact ⟨h.2.2, Or.inl h.2.1⟩
        · exact ⟨h.2.2, Or.inr h.2.1⟩
      obtain ⟨rfl, ht1⟩ := hts
      cases q with
      | nil =>
        exfalso
        obtain ⟨front, hfront⟩ := h1
        have hflat : (b1 :: cs1).flatten = b1 ++ cs1.flatten := rfl
        rw [← hfront, List.flatten_append, List.flatten_cons, hj3] at hflat
        rw [List.nil_append] at h2
        rw [← h2] at hflat
        have hc : front.flatten ++ (p ++ [t0]) = s ++ [t0] := by
          have h5 : front.flatten ++ (p ++ [t0]) ++ ([t1] ++ rest) =
              s ++ [t0] ++ ([t1] ++ rest) := by
            simp only [List.append_assoc, List.cons_append, List.nil_append] at hflat ⊢
            exact hflat
          exact List.append_cancel_right h5
        apply hj5 (s ++ [t0]) (by simp) _ (front.length + 1)
        · rw [← hfront, List.take_append, List.take_succ_cons, List.take_zero,
            List.flatten_append, List.flatten_cons, List.flatten_nil, List.append_nil, hc]
        · intro k
          have := hcut rfl k
          simpa only [List.take_succ_cons, List.take_zero, List.append_assoc] using this
      | cons d q' =>
        simp only [List.cons_append, List.nil_append, List.cons.injEq] at h2
        obtain ⟨hd, h2⟩ := h2
        subst hd
        rw [dropTerm_cons_term q' ht1, ← h2]
  obtain ⟨b', cs', hm1, hm2, hm3⟩ := hmatch
  rw [← hj2] at hm1
  have hw := waitForResponse_stop g e s j
    (fun m hm => ⟨(hj1 m hm).1, strcmpEq_nthResponse_false hsn _ _ _ (hj1 m hm).2⟩)
    (Or.inr (by rw [hm1]; exact strcmpEq_self s))
  rw [hm1] at hw
  refine ⟨b', cs', ?_, hm2, ?_⟩
  · rw [hw]
    simp only [strcmpEq_self]
  · intro nxt c more hr hn hc
    obtain ⟨q, cs2, -, -, h⟩ := getResponse_line_any b' cs' nxt c more
      (fun x hx => (hm3 x hx).1) (hm2.trans hr) hn hc
    rw [h]
    exact ⟨rfl, rfl⟩

/-- C19, witness: waiting for `uciok` on `info uciok`, `uciok2`, `uciok`, `next`, each
ended by `\r\n` and delivered in three reads, skips the first two lines, stops at the
line `uciok` and leaves `next` and its terminator for the following call. -/
theorem waitForResponse_until_match_witness :
    ∃ b' cs',
      waitForResponse { buffer := [], cerr := [] }
          { identity := [], searchDepth := 0, variations := 0, toEngine := [],
            fromEngine := ["info uciok\r\nuci".toList, "ok2\r\nuciok\r\n".toList,
              "next\r\n".toList] } "uciok".toList =
        (true, { buffer := b', cerr := [] },
          { identity := [], searchDepth := 0, variations := 0, toEngine := [],
            fromEngine := cs' }) ∧
      b' ++ cs'.flatten = "next\r\n".toList ∧
      ∀ nxt c more, "next\r\n".toList = nxt ++ c :: more → Clean nxt → IsTerm c →
        (getResponse b' cs').result = nxt ∧ (getResponse b' cs').eof = false :=
  waitForResponse_until_match { buffer := [], cerr := [] }
    { identity := [], searchDepth := 0, variations := 0, toEngine := [],
      fromEngine := ["info uciok\r\nuci".toList, "ok2\r\nuciok\r\n".toList,
        "next\r\n".toList] } "uciok".toList
    [("info uciok".toList, '\r'), ([], '\n'), ("uciok2".toList, '\r'), ([], '\n')]
    "\r\n".toList "next\r\n".toList
    (by decide) (by decide) (by decide) (by decide) (by decide) (by decide) (by decide)
    (fun h => absurd h (by decide))
    (fun _ k => by
      rcases k with _ | _ | _ | _ | k
      · decide
      · decide
      · decide
      · decide
      · simp only [List.take_succ_cons, List.take_nil]
        decide)

/-- C19, counterexample: four inbound streams that hold the terminated line `s`, on which
`waitForResponse(s)` does not do what the claim says.  A NUL before the line: the rest of
the read is lost and the result is false.  An empty `s` between two `\r`: the blank line
is never returned, the call returns true only at the end of the stream, and the line `b`
after the match is gone.  A `\r\n` after the line cut by a read boundary: the next call
returns an empty line, not `next`.  A blank line after the line: the next call returns
`next`, not the blank line. -/
theorem waitForResponse_until_match_counterexample :
    (['x', NUL, 'y', '\n'] ++ "uciok\nnext\n".toList =
        ['x', NUL, 'y', '\n'] ++ "uciok".toList ++ ['\n'] ++ "next\n".toList ∧
      waitForResponse { buffer := [], cerr := [] }
          { identity := [], searchDepth := 0, variations := 0, toEngine := [],
            fromEngine := [['x', NUL, 'y', '\n'] ++ "uciok\nnext\n".toList] }
          "uciok".toList =
        (false, { buffer := [], cerr := [] },
          { identity := [], searchDepth := 0, variations := 0, toEngine := [],
            fromEngine := [] })) ∧
    ("a\r\rb\r".toList = "a\r".toList ++ [] ++ ['\r'] ++ "b\r".toList ∧
      waitForResponse { buffer := [], cerr := [] }
          { identity := [], searchDepth := 0, variations := 0, toEngine := [],
            fromEngine := ["a\r\rb\r".toList] } [] =
        (true, { buffer := [], cerr := [] },
          { identity := [], searchDepth := 0, variations := 0, toEngine := [],
            fromEngine := [] }) ∧
      getResponses 3 [] ["a\r\rb\r".toList] =
        [("a".toList, false), ("b".toList, false), ([], true)] ∧
      getResponses 1 [] [] = [([], true)]) ∧
    (waitForResponse { buffer := [], cerr := [] }
          { identity := [], searchDepth := 0, variations := 0, toEngine := [],
            fromEngine := ["uciok\r".toList, "\nnext\r\n".toList] } "uciok".toList =
        (true, { buffer := [], cerr := [] },
          { identity := [], searchDepth := 0, variations := 0, toEngine := [],
            fromEngine := ["\nnext\r\n".toList] }) ∧
      getResponses 1 [] ["\nnext\r\n".toList] = [([], false)]) ∧
    (waitForResponse { buffer := [], cerr := [] }
          { identity := [], searchDepth := 0, variations := 0, toEngine := [],
            fromEngine := ["uciok\n\nnext\n".toList] } "uciok".toList =
        (true, { buffer := "next\n".toList, cerr := [] },
          { identity := [], searchDepth := 0, variations := 0, toEngine := [],
            fromEngine := [] }) ∧
      getResponses 1 "next\n".toList [] = [("next".toList, false)]) := by
  decide

end UciAnalyser
